import Mathlib

/-!
# Verification of the identifier-equivalence graph and work-clustering engine

This development embeds, in Lean 4, the core component described by the
repository's specification: the identifier equivalence graph
(`Identifier.recursively_equivalent_identifier_ids`), the permanent work
key deriver, the presentation edition synthesizer
(`editions_in_priority_order` / `set_presentation_edition`), the pool
supersession ranker (`better_open_access_pool_than` /
`mark_licensepools_as_superceded`) and the work cluster manager
(`calculate_work`, `merge_into`, `open_access_for_permanent_work_id`,
`make_exclusive_open_access_for_permanent_work_id`).

The engine itself (`model.py`) is not part of the source tree here — only
its test suite is — so every definition below is modelled from the
specification's description of the component, cross-checked against the
behavior documented by the test suite (`tests/test_model.py`).

Conventions: edge strengths and traversal thresholds are rationals
(the code's floats carry exact decimal literals in all evidenced uses);
identifiers and work ids are naturals; fallible operations return
`Except`; the recursive self-healing pass of the cluster manager is
fuel-bounded, with fuel exhaustion surfacing as an explicit error, as the
specification's design notes require for the non-convergence case.
-/

/-! ## Identifier equivalence graph (spec §4.1) -/

/-- Modelled from the spec: an equivalency edge is a directed tuple
(source identifier, target identifier, origin, strength), logically
bidirectional for traversal. Parallel edges are kept distinct, hence a
plain list of edges. -/
structure EquivEdge where
  source : Nat
  target : Nat
  origin : Nat
  strength : ℚ
deriving DecidableEq, Repr

/-- The strength contributed to node `n` by stepping across edge `e`
(in either direction) from a frontier whose best-known strengths are
given by `f`: the path strength accumulates as a product. -/
def relayStrength (e : EquivEdge) (f : Nat → ℚ) (n : Nat) : ℚ :=
  max (if e.target = n then f e.source * e.strength else 0)
      (if e.source = n then f e.target * e.strength else 0)

/-- One level of the bounded breadth-first traversal: the best strength
at `n` either was already known (`f n`) or comes from relaying across
some edge of the graph. When multiple paths reach the same node the
maximum wins. -/
def stepStrength (g : List EquivEdge) (f : Nat → ℚ) (n : Nat) : ℚ :=
  g.foldr (fun e acc => max (relayStrength e f n) acc) (f n)

/-- Modelled from the spec: best accumulated path strength from `seed`
to each node within the given number of hops
(`Identifier.recursively_equivalent_identifier_ids`' traversal). The
seed itself is always included with strength 1; every other node starts
unreachable (strength 0). -/
def bestStrength (g : List EquivEdge) (seed : Nat) : Nat → Nat → ℚ
  | 0 => fun n => if n = seed then 1 else 0
  | h + 1 => fun n => stepStrength g (bestStrength g seed h) n

/-- Membership of `n` in the result set for `seed`: some path reaches
`n` within `maxHops` hops with accumulated strength at or above the
threshold. -/
def inEquivalents (g : List EquivEdge) (seed maxHops : Nat) (minStrength : ℚ)
    (n : Nat) : Bool :=
  decide (minStrength ≤ bestStrength g seed maxHops n)

/-- Modelled from the spec: the batched multi-seed query
`equivalents(seed_ids, max_hops, min_strength)` returns, per seed, its
reachable set (represented as its characteristic function). -/
def equivalents (g : List EquivEdge) (seeds : List Nat) (maxHops : Nat)
    (minStrength : ℚ) : List (Nat × (Nat → Bool)) :=
  seeds.map (fun s => (s, fun n => inEquivalents g s maxHops minStrength n))

theorem self_le_stepStrength (g : List EquivEdge) (f : Nat → ℚ) (n : Nat) :
    f n ≤ stepStrength g f n := by
  induction g with
  | nil => exact le_refl _
  | cons e rest ih => exact le_trans ih (le_max_right _ _)

theorem relay_le_stepStrength (g : List EquivEdge) (f : Nat → ℚ) (n : Nat)
    (e : EquivEdge) (he : e ∈ g) :
    relayStrength e f n ≤ stepStrength g f n := by
  induction g with
  | nil => cases he
  | cons e0 rest ih =>
    rcases List.mem_cons.mp he with h | h
    · subst h; exact le_max_left _ _
    · exact le_trans (ih h) (le_max_right _ _)

theorem stepStrength_le (g : List EquivEdge) (f : Nat → ℚ) (n : Nat) (c : ℚ)
    (hf : f n ≤ c) (hg : ∀ e ∈ g, relayStrength e f n ≤ c) :
    stepStrength g f n ≤ c := by
  induction g with
  | nil => exact hf
  | cons e rest ih =>
    refine max_le (hg e (List.mem_cons_self _ _)) ?_
    exact ih (fun e0 h0 => hg e0 (List.mem_cons_of_mem _ h0))

theorem bestStrength_le_succ (g : List EquivEdge) (seed h n : Nat) :
    bestStrength g seed h n ≤ bestStrength g seed (h + 1) n :=
  self_le_stepStrength g (bestStrength g seed h) n

theorem bestStrength_mono_hops (g : List EquivEdge) (seed : Nat)
    {h h2 : Nat} (hh : h ≤ h2) (n : Nat) :
    bestStrength g seed h n ≤ bestStrength g seed h2 n := by
  induction h2 with
  | zero => simp only [Nat.le_zero.mp hh, le_refl]
  | succ k ih =>
    rcases Nat.lt_or_ge h (k + 1) with hl | hg2
    · exact le_trans (ih (Nat.lt_succ_iff.mp hl)) (bestStrength_le_succ g seed k n)
    · have : h = k + 1 := le_antisymm hh hg2
      subst this; exact le_refl _

/-- C2 — The equivalents query is monotone: with the strength threshold
fixed, raising `max_hops` never shrinks a seed's result set; with
`max_hops` fixed, raising the strength threshold never grows it. -/
theorem equivalents_monotone (g : List EquivEdge) (seed : Nat)
    (h h2 : Nat) (t t2 : ℚ) (n : Nat) (hh : h ≤ h2) (ht : t ≤ t2) :
    (inEquivalents g seed h t n = true → inEquivalents g seed h2 t n = true) ∧
    (inEquivalents g seed h t2 n = true → inEquivalents g seed h t n = true) := by
  constructor
  · intro hm
    have h1 : t ≤ bestStrength g seed h n := of_decide_eq_true hm
    exact decide_eq_true (le_trans h1 (bestStrength_mono_hops g seed hh n))
  · intro hm
    have h1 : t2 ≤ bestStrength g seed h n := of_decide_eq_true hm
    exact decide_eq_true (le_trans ht h1)

/-- Closed witness for `equivalents_monotone` at a concrete graph: one
edge of strength 9/10, thresholds 1/2 ≤ 9/10, hop counts 0 ≤ 1. -/
theorem equivalents_monotone_witness :
    (0 : Nat) ≤ 1 ∧ (1/2 : ℚ) ≤ 9/10 ∧
    ((inEquivalents [⟨0, 1, 0, 9/10⟩] 0 0 (1/2) 1 = true →
      inEquivalents [⟨0, 1, 0, 9/10⟩] 0 1 (1/2) 1 = true) ∧
     (inEquivalents [⟨0, 1, 0, 9/10⟩] 0 0 (9/10) 1 = true →
      inEquivalents [⟨0, 1, 0, 9/10⟩] 0 0 (1/2) 1 = true)) :=
  ⟨by decide, by norm_num,
   equivalents_monotone [⟨0, 1, 0, 9/10⟩] 0 0 1 (1/2) (9/10) 1
     (by decide) (by norm_num)⟩

/-! ### Chains of equivalence edges (spec §8, first testable property) -/

/-- A chain of equivalence edges with the given strengths, linking
consecutive identifiers `off, off+1, off+2, …`. -/
def chainEdges (off : Nat) : List ℚ → List EquivEdge
  | [] => []
  | s :: rest => ⟨off, off + 1, 0, s⟩ :: chainEdges (off + 1) rest

/-- The chain graph on identifiers `0 … ss.length`. -/
def chainGraph (ss : List ℚ) : List EquivEdge := chainEdges 0 ss

theorem chainEdges_mem (ss : List ℚ) (off : Nat) (e : EquivEdge) :
    e ∈ chainEdges off ss ↔
      ∃ i, i < ss.length ∧ e = ⟨off + i, off + i + 1, 0, ss.getD i 0⟩ := by
  induction ss generalizing off with
  | nil => simp [chainEdges]
  | cons s rest ih =>
    simp only [chainEdges, List.mem_cons, ih]
    constructor
    · rintro (rfl | ⟨i, hi, rfl⟩)
      · exact ⟨0, by simp, by simp⟩
      · refine ⟨i + 1, by simpa using Nat.succ_lt_succ hi, ?_⟩
        simp only [List.getD]
        congr 1 <;> omega
    · rintro ⟨i, hi, rfl⟩
      cases i with
      | zero => left; simp
      | succ j =>
        right
        refine ⟨j, by simpa using Nat.lt_of_succ_lt_succ hi, ?_⟩
        simp only [List.getD]
        congr 1 <;> omega

theorem chain_take_succ_prod (ss : List ℚ) (k : Nat) (hk : k < ss.length) :
    (ss.take (k + 1)).prod = (ss.take k).prod * ss.getD k 0 := by
  rw [List.take_succ, List.prod_append, List.getElem?_eq_getElem hk]
  simp [List.getD_eq_getElem?_getD, List.getElem?_eq_getElem hk]

theorem chain_getD_mem (ss : List ℚ) (k : Nat) (hk : k < ss.length) :
    ss.getD k 0 ∈ ss := by
  rw [List.getD_eq_getElem?_getD, List.getElem?_eq_getElem hk]
  exact List.getElem_mem hk

theorem chain_take_prod_nonneg (ss : List ℚ) (hs : ∀ s ∈ ss, 0 ≤ s ∧ s ≤ 1)
    (k : Nat) : 0 ≤ (ss.take k).prod :=
  List.prod_nonneg (fun a ha => (hs a (List.mem_of_mem_take ha)).1)

/-- Best path strength on a chain graph, in closed form: node `k` is
reachable from node 0 within `h` hops exactly when `k ≤ h` (and `k` is a
node of the chain), and the best strength is then the product of the
first `k` edge strengths. -/
theorem bestStrength_chain (ss : List ℚ) (hs : ∀ s ∈ ss, 0 ≤ s ∧ s ≤ 1) :
    ∀ h k, bestStrength (chainGraph ss) 0 h k =
      if k ≤ h ∧ k ≤ ss.length then (ss.take k).prod else 0 := by
  intro h
  induction h with
  | zero =>
    intro k
    cases k with
    | zero => simp [bestStrength]
    | succ j => simp [bestStrength]
  | succ h ih =>
    intro k
    have hclosed_nonneg : ∀ a b : Nat,
        0 ≤ (if a ≤ b ∧ a ≤ ss.length then (ss.take a).prod else 0) := by
      intro a b
      split
      · exact chain_take_prod_nonneg ss hs a
      · exact le_refl 0
    have hstep : bestStrength (chainGraph ss) 0 (h + 1) k
        = stepStrength (chainGraph ss) (bestStrength (chainGraph ss) 0 h) k := rfl
    rw [hstep]
    apply le_antisymm
    · -- upper bound: no edge can push the strength above the closed form
      apply stepStrength_le
      · rw [ih k]
        split
        · rename_i hcond
          have : k ≤ h + 1 ∧ k ≤ ss.length := ⟨Nat.le_succ_of_le hcond.1, hcond.2⟩
          rw [if_pos this]
        · exact hclosed_nonneg k (h + 1)
      · intro e he
        rcases (chainEdges_mem ss 0 e).mp he with ⟨i, hi, rfl⟩
        simp only [relayStrength, zero_add]
        apply max_le
        · -- relay from node i into node i+1 = k
          split
          · rename_i heq
            subst heq
            rw [ih i]
            split
            · rename_i hcond
              rw [← chain_take_succ_prod ss i hi]
              rw [if_pos ⟨Nat.succ_le_succ hcond.1, Nat.succ_le_of_lt hi⟩]
            · rw [zero_mul]
              exact hclosed_nonneg (i + 1) (h + 1)
          · exact hclosed_nonneg k (h + 1)
        · -- relay from node i+1 back into node i = k
          split
          · rename_i heq
            subst heq
            rw [ih (i + 1)]
            split
            · rename_i hcond
              have hsle : ss.getD i 0 ≤ 1 := (hs _ (chain_getD_mem ss i hi)).2
              have hsnn : 0 ≤ ss.getD i 0 := (hs _ (chain_getD_mem ss i hi)).1
              have h1 : (ss.take (i + 1)).prod * ss.getD i 0
                  ≤ (ss.take i).prod := by
                rw [chain_take_succ_prod ss i hi]
                calc (ss.take i).prod * ss.getD i 0 * ss.getD i 0
                    ≤ (ss.take i).prod * 1 * 1 := by
                      apply mul_le_mul (mul_le_mul le_rfl hsle hsnn
                        (chain_take_prod_nonneg ss hs i)) hsle hsnn
                      have := chain_take_prod_nonneg ss hs i
                      linarith
                  _ = (ss.take i).prod := by ring
              refine le_trans h1 ?_
              rw [if_pos ⟨Nat.le_succ_of_le (Nat.le_of_succ_le hcond.1),
                Nat.le_of_lt hi⟩]
            · rw [zero_mul]
              exact hclosed_nonneg i (h + 1)
          · exact hclosed_nonneg k (h + 1)
    · -- lower bound: the straight path realizes the closed form
      split
      · rename_i hcond
        rcases Nat.lt_or_ge k (h + 1) with hlt | hge
        · -- already reachable in h hops
          have : bestStrength (chainGraph ss) 0 h k = (ss.take k).prod := by
            rw [ih k, if_pos ⟨Nat.lt_succ_iff.mp hlt, hcond.2⟩]
          rw [← this]
          exact self_le_stepStrength _ _ _
        · -- k = h + 1: step across the final chain edge
          have hk : k = h + 1 := le_antisymm hcond.1 hge
          subst hk
          have hi : h < ss.length := Nat.lt_of_succ_le hcond.2
          have he : (⟨h, h + 1, 0, ss.getD h 0⟩ : EquivEdge) ∈ chainGraph ss := by
            rw [chainGraph, chainEdges_mem]
            exact ⟨h, hi, by simp⟩
          refine le_trans ?_ (relay_le_stepStrength _ _ _ _ he)
          simp only [relayStrength]
          refine le_trans ?_ (le_max_left _ _)
          rw [if_pos trivial, ih h, if_pos ⟨le_refl h, Nat.le_of_lt hi⟩]
          rw [chain_take_succ_prod ss h hi]
      · have h0 : (0 : ℚ) ≤ bestStrength (chainGraph ss) 0 h k := by
          rw [ih k]; exact hclosed_nonneg k h
        exact le_trans h0 (self_le_stepStrength _ _ _)

/-- C1 — For a chain of equivalence edges with strengths `ss`, the
equivalents traversal starting from the chain's first identifier
includes the identifier at the end of the chain within `ss.length` hops
iff the product of all the strengths is at least the threshold: path
strength accumulates as a product, and the best path's strength is what
counts. -/
theorem chain_reachable_iff_prod (ss : List ℚ) (t : ℚ)
    (hs : ∀ s ∈ ss, 0 ≤ s ∧ s ≤ 1) :
    inEquivalents (chainGraph ss) 0 ss.length t ss.length = true ↔
      t ≤ ss.prod := by
  unfold inEquivalents
  rw [bestStrength_chain ss hs ss.length ss.length,
    if_pos ⟨le_refl _, le_refl _⟩, List.take_length]
  exact decide_eq_true_iff

/-- Closed witness for `chain_reachable_iff_prod`: the spec's example
chain 0.9 · 0.5 · 0.9 · 0.6 (product 0.243) is reachable at threshold
0.1 but not at 0.25. -/
theorem chain_reachable_iff_prod_witness :
    (∀ s ∈ [(9 : ℚ)/10, 1/2, 9/10, 3/5], 0 ≤ s ∧ s ≤ 1) ∧
    inEquivalents (chainGraph [(9 : ℚ)/10, 1/2, 9/10, 3/5]) 0 4 (1/10) 4
      = true ∧
    inEquivalents (chainGraph [(9 : ℚ)/10, 1/2, 9/10, 3/5]) 0 4 (1/4) 4
      = false := by
  have hs : ∀ s ∈ [(9 : ℚ)/10, 1/2, 9/10, 3/5], 0 ≤ s ∧ s ≤ 1 := by
    intro s hmem
    simp only [List.mem_cons, List.not_mem_nil, or_false] at hmem
    rcases hmem with rfl | rfl | rfl | rfl <;> constructor <;> norm_num
  refine ⟨hs, ?_, ?_⟩
  · exact (chain_reachable_iff_prod [(9 : ℚ)/10, 1/2, 9/10, 3/5] (1/10) hs).mpr
      (by norm_num)
  · have hnot := (chain_reachable_iff_prod [(9 : ℚ)/10, 1/2, 9/10, 3/5] (1/4) hs)
    by_contra hcon
    have : inEquivalents (chainGraph [(9 : ℚ)/10, 1/2, 9/10, 3/5]) 0 4 (1/4) 4
        = true := by
      cases hval : inEquivalents (chainGraph [(9 : ℚ)/10, 1/2, 9/10, 3/5]) 0 4
        (1/4) 4
      · exact absurd hval hcon
      · rfl
    have := hnot.mp this
    norm_num at this

/-! ## Data model (spec §3) -/

/-- Modelled from the spec: the medium of a bibliographic record. -/
inductive Medium
  | book
  | audio
  | periodical
deriving DecidableEq, Repr

/-- Modelled from the spec: a closed enum of known origins ("data
sources"), each carrying fixed trust ranks. `presentation` tags the
synthetic composite record of §4.3. -/
inductive Origin
  | unranked
  | gutenberg
  | gitenberg
  | standardEbooks
  | overdrive
  | threeM
  | metadataWrangler
  | libraryStaff
  | presentation
deriving DecidableEq, Repr

/-- Modelled from the spec: a permanent work key — normalized title and
author sort-name concatenated with the medium (§4.2). -/
structure PWKey where
  title : String
  author : String
  medium : Medium
deriving DecidableEq, Repr

/-- Modelled from the spec: a bibliographic record ("Edition"): scalar
display fields, a contributor list, a medium and the derived permanent
work key stored on the record. -/
structure Edition where
  origin : Origin
  title : Option String
  subtitle : Option String
  author : Option String
  sortAuthor : Option String
  language : Option String
  publisher : Option String
  contributors : List String
  medium : Medium
  permanentWorkId : Option PWKey
deriving DecidableEq, Repr

/-- Modelled from the spec: a licensing entry ("Pool"). `pid` is the
pool's stable numeric identifier (also used as the deterministic,
arbitrary tie-break of §4.4); `workId` is its current Work membership;
`superceded` keeps the code's spelling. -/
structure Pool where
  pid : Nat
  dataSource : Origin
  identifier : Option Nat
  presentationEdition : Option Edition
  openAccess : Bool
  suppressed : Bool
  superceded : Bool
  hasOpenAccessDownload : Bool
  workId : Option Nat
deriving DecidableEq, Repr

/-! ## Permanent work key deriver (spec §4.2) -/

/-- Modelled from the spec: normalization of a title or author
sort-name (case-fold, collapse surrounding whitespace). -/
def normString (s : String) : String :=
  String.mk (((s.data.dropWhile Char.isWhitespace).reverse.dropWhile
    Char.isWhitespace).reverse.map Char.toLower)

/-- The sentinel author used when clustering is forced without author
data. -/
def unknownAuthor : String := "[Unknown]"

/-- Modelled from the spec: `key(title, authors, medium)`. `none`
whenever the title is empty or whitespace-only; a missing author also
yields `none` unless the caller forces clustering without author data,
in which case the sentinel author is used. -/
def permanentWorkKey (force : Bool) (e : Edition) : Option PWKey :=
  match e.title with
  | none => none
  | some t =>
    if (normString t).isEmpty then none
    else
      match e.author with
      | some a => some ⟨normString t, normString a, e.medium⟩
      | none =>
        if force then some ⟨normString t, unknownAuthor, e.medium⟩ else none

/-! ## Pool supersession ranker (spec §4.4) -/

/-- Modelled from the spec: the ranker's fixed origin trust ranking
(independent of the synthesizer's ranking; evidenced relative order:
Gutenberg < Gitenberg < Standard Ebooks). -/
def rankerSourcePriority : Origin → Nat
  | .gutenberg => 0
  | .gitenberg => 1
  | .standardEbooks => 2
  | _ => 0

/-- A pool lacking a usable open-access download resource ranks below
any pool that has one, regardless of origin trust. -/
def oaSourcePriority (p : Pool) : Nat :=
  if p.hasOpenAccessDownload then rankerSourcePriority p.dataSource + 1 else 0

/-- Modelled from the spec: `better_open_access_pool_than(challenger,
champion)` — the pairwise comparison of §4.4. A suppressed pool is
worse than everything including "no pool"; a non-open-access pool is
not compared at all; higher source priority wins; within the same
origin the higher numeric identifier wins. -/
def betterOpenAccessPoolThan (x : Pool) : Option Pool → Bool
  | none => !x.suppressed && x.openAccess
  | some y =>
    if x.suppressed then false
    else if !x.openAccess then false
    else if oaSourcePriority y < oaSourcePriority x then true
    else if oaSourcePriority x < oaSourcePriority y then false
    else decide (x.dataSource = y.dataSource) && decide (y.pid < x.pid)

/-- The champion selection loop of `mark_licensepools_as_superceded`:
fold the pairwise comparison over the Work's pools. -/
def openAccessChampion (pools : List Pool) : Option Pool :=
  pools.foldl (fun c p => if betterOpenAccessPoolThan p c then some p else c)
    none

/-- The flag assignment of the supersession pass for one pool, given
the selected champion: a commercial pool is un-superseded, an
open-access pool is superseded unless it is the champion (no champion:
every open-access pool is superseded). -/
def markFlag (champ : Option Pool) (p : Pool) : Pool :=
  if p.openAccess then
    match champ with
    | some c => { p with superceded := p.pid != c.pid }
    | none => { p with superceded := true }
  else { p with superceded := false }

/-- Modelled from the spec: `mark_licensepools_as_superceded` — each
commercial pool is un-superseded and stands alone; among open-access
pools the champion (when one exists) is un-superseded and every other
open-access pool is superseded. -/
def markSuperceded (pools : List Pool) : List Pool :=
  pools.map (markFlag (openAccessChampion pools))


/-- The strict relation along which the champion candidate improves
during the selection fold. -/
def strictStep (x y : Pool) : Prop :=
  oaSourcePriority x < oaSourcePriority y ∨
    (oaSourcePriority y = oaSourcePriority x ∧
      y.dataSource = x.dataSource ∧ x.pid < y.pid)

/-- The (non-strict) comparison underlying champion selection: `p` does
not rank above `c`. -/
def poolLE (p c : Pool) : Prop :=
  oaSourcePriority p < oaSourcePriority c ∨
    (oaSourcePriority p = oaSourcePriority c ∧
      (p.dataSource = c.dataSource → p.pid ≤ c.pid))

theorem poolLE_refl (p : Pool) : poolLE p p :=
  Or.inr ⟨rfl, fun _ => le_refl _⟩

theorem better_true_fields (x : Pool) (c : Option Pool)
    (h : betterOpenAccessPoolThan x c = true) :
    x.suppressed = false ∧ x.openAccess = true := by
  cases hs : x.suppressed with
  | true =>
    exfalso
    cases c <;> simp [betterOpenAccessPoolThan, hs] at h
  | false =>
    cases ho : x.openAccess with
    | false =>
      exfalso
      cases c <;> simp [betterOpenAccessPoolThan, hs, ho] at h
    | true => exact ⟨rfl, rfl⟩

theorem better_some_true_step (x y : Pool)
    (h : betterOpenAccessPoolThan x (some y) = true) : strictStep y x := by
  obtain ⟨hs, ho⟩ := better_true_fields x (some y) h
  simp only [betterOpenAccessPoolThan, hs, ho, Bool.not_true,
    Bool.false_eq_true, if_false] at h
  by_cases h3 : oaSourcePriority y < oaSourcePriority x
  · exact Or.inl h3
  · rw [if_neg h3] at h
    by_cases h4 : oaSourcePriority x < oaSourcePriority y
    · rw [if_pos h4] at h
      cases h
    · rw [if_neg h4] at h
      simp only [Bool.and_eq_true, decide_eq_true_eq] at h
      exact Or.inr ⟨le_antisymm (Nat.le_of_not_lt h3) (Nat.le_of_not_lt h4),
        h.1, h.2⟩

theorem better_some_false_le (x y : Pool)
    (ho : x.openAccess = true) (hs : x.suppressed = false)
    (h : betterOpenAccessPoolThan x (some y) = false) : poolLE x y := by
  simp only [betterOpenAccessPoolThan, hs, ho, Bool.not_true,
    Bool.false_eq_true, if_false] at h
  by_cases h3 : oaSourcePriority y < oaSourcePriority x
  · rw [if_pos h3] at h
    cases h
  · rw [if_neg h3] at h
    by_cases h4 : oaSourcePriority x < oaSourcePriority y
    · exact Or.inl h4
    · rw [if_neg h4] at h
      right
      refine ⟨le_antisymm (Nat.le_of_not_lt h3) (Nat.le_of_not_lt h4), ?_⟩
      intro hds
      by_cases hlt : y.pid < x.pid
      · exfalso
        rw [decide_eq_true hds, decide_eq_true hlt] at h
        cases h
      · exact Nat.le_of_not_lt hlt

theorem better_false_of_poolLE (q c : Pool) (h : poolLE q c) :
    betterOpenAccessPoolThan q (some c) = false := by
  simp only [betterOpenAccessPoolThan]
  cases hs : q.suppressed with
  | true => simp
  | false =>
    cases ho : q.openAccess with
    | false => simp
    | true =>
      simp only [Bool.not_true, Bool.false_eq_true, if_false]
      have h3 : ¬ oaSourcePriority c < oaSourcePriority q := by
        rcases h with hlt | ⟨heq, _⟩
        · exact Nat.lt_asymm hlt
        · rw [heq]; exact lt_irrefl _
      rw [if_neg h3]
      by_cases h4 : oaSourcePriority q < oaSourcePriority c
      · rw [if_pos h4]
      · rw [if_neg h4]
        rcases h with hlt | ⟨heq, hds⟩
        · exact absurd hlt h4
        · by_cases hd : q.dataSource = c.dataSource
          · have hp : ¬ c.pid < q.pid := Nat.not_lt.mpr (hds hd)
            simp [hp]
          · simp [hd]

theorem better_false_of_bad (q : Pool) (c : Option Pool)
    (h : q.suppressed = true ∨ q.openAccess = false) :
    betterOpenAccessPoolThan q c = false := by
  cases c with
  | none => rcases h with h | h <;> simp [betterOpenAccessPoolThan, h]
  | some y => rcases h with h | h <;> simp [betterOpenAccessPoolThan, h]

theorem poolLE_trans_step (q c p : Pool) (hqc : poolLE q c)
    (hcp : strictStep c p) : poolLE q p := by
  rcases hcp with hlt | ⟨heq, hds, hpid⟩
  · rcases hqc with h1 | ⟨h1, _⟩
    · exact Or.inl (lt_trans h1 hlt)
    · exact Or.inl (lt_of_eq_of_lt h1 hlt)
  · rcases hqc with h1 | ⟨h1, h2⟩
    · exact Or.inl (lt_of_lt_of_eq h1 heq.symm)
    · refine Or.inr ⟨h1.trans heq.symm, fun hqp => ?_⟩
      have hqc2 : q.dataSource = c.dataSource := hqp.trans hds
      exact le_trans (h2 hqc2) (Nat.le_of_lt hpid)

theorem poolLE_of_chain (q c0 c : Pool) (h : poolLE q c0)
    (hch : Relation.ReflTransGen strictStep c0 c) : poolLE q c := by
  induction hch with
  | refl => exact h
  | tail _ hstep ih => exact poolLE_trans_step _ _ _ ih hstep

/-- The champion-selection fold invariant: the fold yields `none` only
if every scanned pool was suppressed or commercial, and otherwise
yields an open-access unsuppressed pool that no scanned open-access
unsuppressed pool ranks above. -/
theorem champ_fold_inv (pools : List Pool) :
    ∀ (acc : Option Pool),
      (∀ c0, acc = some c0 → c0.openAccess = true ∧ c0.suppressed = false) →
      (pools.foldl
          (fun c p => if betterOpenAccessPoolThan p c then some p else c)
          acc = none →
        acc = none ∧
          ∀ p ∈ pools, p.openAccess = true → p.suppressed = true) ∧
      (∀ c, pools.foldl
          (fun c p => if betterOpenAccessPoolThan p c then some p else c)
          acc = some c →
        (c ∈ pools ∨ acc = some c) ∧ c.openAccess = true ∧
          c.suppressed = false ∧
          (∀ p ∈ pools, p.openAccess = true → p.suppressed = false →
            poolLE p c) ∧
          (∀ c0, acc = some c0 → Relation.ReflTransGen strictStep c0 c)) := by
  induction pools with
  | nil =>
    intro acc hacc
    constructor
    · intro h
      exact ⟨h, fun p hp => absurd hp (List.not_mem_nil p)⟩
    · intro c h
      simp only [List.foldl_nil] at h
      refine ⟨Or.inr h, (hacc c h).1, (hacc c h).2,
        fun p hp => absurd hp (List.not_mem_nil p), ?_⟩
      intro c0 h0
      rw [h0] at h
      cases h
      exact Relation.ReflTransGen.refl
  | cons p rest ih =>
    intro acc hacc
    simp only [List.foldl_cons]
    by_cases hb : betterOpenAccessPoolThan p acc = true
    · -- p becomes the new champion candidate
      rw [if_pos hb]
      obtain ⟨hps, hpo⟩ := better_true_fields p acc hb
      have hsome : ∀ c0, some p = some c0 →
          c0.openAccess = true ∧ c0.suppressed = false := by
        intro c0 h0; cases h0; exact ⟨hpo, hps⟩
      obtain ⟨ihn, ihs⟩ := ih (some p) hsome
      constructor
      · intro h
        obtain ⟨h1, _⟩ := ihn h
        cases h1
      · intro c h
        obtain ⟨hmem, hco, hcs, hall, hchain⟩ := ihs c h
        have hpc : Relation.ReflTransGen strictStep p c := hchain p rfl
        refine ⟨?_, hco, hcs, ?_, ?_⟩
        · rcases hmem with h1 | h1
          · exact Or.inl (List.mem_cons_of_mem _ h1)
          · cases h1
            exact Or.inl (List.mem_cons_self _ _)
        · intro q hq hqo hqs
          rcases List.mem_cons.mp hq with rfl | h1
          · exact poolLE_of_chain q q c (poolLE_refl q) hpc
          · exact hall q h1 hqo hqs
        · intro c0 h0
          subst h0
          have hstep := better_some_true_step p c0 hb
          exact Relation.ReflTransGen.head hstep hpc
    · -- champion candidate unchanged
      have hb2 : betterOpenAccessPoolThan p acc = false := by
        cases hval : betterOpenAccessPoolThan p acc
        · rfl
        · exact absurd hval hb
      rw [if_neg (by rw [hb2]; exact Bool.false_ne_true)]
      obtain ⟨ihn, ihs⟩ := ih acc hacc
      constructor
      · intro h
        obtain ⟨h1, h2⟩ := ihn h
        refine ⟨h1, ?_⟩
        intro q hq hqo
        rcases List.mem_cons.mp hq with rfl | hq1
        · subst h1
          cases hval : q.suppressed
          · exfalso
            simp only [betterOpenAccessPoolThan, hval, hqo] at hb2
            cases hb2
          · rfl
        · exact h2 q hq1 hqo
      · intro c h
        obtain ⟨hmem, hco, hcs, hall, hchain⟩ := ihs c h
        refine ⟨?_, hco, hcs, ?_, hchain⟩
        · rcases hmem with h1 | h1
          · exact Or.inl (List.mem_cons_of_mem _ h1)
          · exact Or.inr h1
        · intro q hq hqo hqs
          rcases List.mem_cons.mp hq with rfl | h1
          · cases hacc2 : acc with
            | none =>
              exfalso
              rw [hacc2] at hb2
              simp only [betterOpenAccessPoolThan, hqs, hqo] at hb2
              cases hb2
            | some a =>
              rw [hacc2] at hb2
              have hqa : poolLE q a := better_some_false_le q a hqo hqs hb2
              exact poolLE_of_chain q a c hqa (hchain a hacc2)
          · exact hall q h1 hqo hqs

theorem openAccessChampion_none (pools : List Pool)
    (h : openAccessChampion pools = none) :
    ∀ p ∈ pools, p.openAccess = true → p.suppressed = true :=
  ((champ_fold_inv pools none (fun c0 h0 => by cases h0)).1 h).2

theorem openAccessChampion_some (pools : List Pool) (c : Pool)
    (h : openAccessChampion pools = some c) :
    c ∈ pools ∧ c.openAccess = true ∧ c.suppressed = false ∧
      ∀ q ∈ pools, betterOpenAccessPoolThan q (some c) = false := by
  obtain ⟨hmem, hco, hcs, hall, _⟩ :=
    (champ_fold_inv pools none (fun c0 h0 => by cases h0)).2 c h
  have hmem2 : c ∈ pools := by
    rcases hmem with h1 | h1
    · exact h1
    · cases h1
  refine ⟨hmem2, hco, hcs, ?_⟩
  intro q hq
  by_cases hbad : q.suppressed = true ∨ q.openAccess = false
  · exact better_false_of_bad q (some c) hbad
  · push_neg at hbad
    obtain ⟨hqs, hqo⟩ := hbad
    have hqs2 : q.suppressed = false := by
      cases hval : q.suppressed
      · rfl
      · exact absurd hval hqs
    have hqo2 : q.openAccess = true := by
      cases hval : q.openAccess
      · exact absurd hval hqo
      · rfl
    exact better_false_of_poolLE q c (hall q hq hqo2 hqs2)

theorem markFlag_pid (ch : Option Pool) (p : Pool) :
    (markFlag ch p).pid = p.pid := by
  cases ch <;> by_cases hp : p.openAccess = true <;> simp [markFlag, hp]

theorem markFlag_openAccess (ch : Option Pool) (p : Pool) :
    (markFlag ch p).openAccess = p.openAccess := by
  cases ch <;> by_cases hp : p.openAccess = true <;> simp [markFlag, hp]

theorem markFlag_suppressed (ch : Option Pool) (p : Pool) :
    (markFlag ch p).suppressed = p.suppressed := by
  cases ch <;> by_cases hp : p.openAccess = true <;> simp [markFlag, hp]

theorem markFlag_dataSource (ch : Option Pool) (p : Pool) :
    (markFlag ch p).dataSource = p.dataSource := by
  cases ch <;> by_cases hp : p.openAccess = true <;> simp [markFlag, hp]

theorem markFlag_download (ch : Option Pool) (p : Pool) :
    (markFlag ch p).hasOpenAccessDownload = p.hasOpenAccessDownload := by
  cases ch <;> by_cases hp : p.openAccess = true <;> simp [markFlag, hp]

theorem oaSourcePriority_markFlag (ch : Option Pool) (p : Pool) :
    oaSourcePriority (markFlag ch p) = oaSourcePriority p := by
  unfold oaSourcePriority
  rw [markFlag_download, markFlag_dataSource]

theorem better_markFlag (ch : Option Pool) (p : Pool) (acc : Option Pool) :
    betterOpenAccessPoolThan (markFlag ch p) (Option.map (markFlag ch) acc)
      = betterOpenAccessPoolThan p acc := by
  cases acc with
  | none =>
    simp only [Option.map_none', betterOpenAccessPoolThan,
      markFlag_suppressed, markFlag_openAccess]
  | some a =>
    simp only [Option.map_some', betterOpenAccessPoolThan,
      markFlag_suppressed, markFlag_openAccess, oaSourcePriority_markFlag,
      markFlag_dataSource, markFlag_pid]

theorem champion_map_markFlag (ch : Option Pool) (pools : List Pool) :
    openAccessChampion (pools.map (markFlag ch))
      = Option.map (markFlag ch) (openAccessChampion pools) := by
  unfold openAccessChampion
  suffices hgen : ∀ acc,
      (pools.map (markFlag ch)).foldl
        (fun c p => if betterOpenAccessPoolThan p c then some p else c)
        (Option.map (markFlag ch) acc)
      = Option.map (markFlag ch) (pools.foldl
          (fun c p => if betterOpenAccessPoolThan p c then some p else c) acc)
    by exact hgen none
  induction pools with
  | nil => intro acc; rfl
  | cons p rest ih =>
    intro acc
    simp only [List.map_cons, List.foldl_cons, better_markFlag]
    by_cases hb : betterOpenAccessPoolThan p acc = true
    · rw [if_pos hb, if_pos hb]
      exact ih (some p)
    · rw [if_neg hb, if_neg hb]
      exact ih acc

theorem markFlag_markFlag (ch : Option Pool) (p : Pool) :
    markFlag ch (markFlag ch p) = markFlag ch p := by
  cases ch with
  | none =>
    by_cases hp : p.openAccess = true <;> simp [markFlag, hp]
  | some c =>
    by_cases hp : p.openAccess = true <;> simp [markFlag, hp]

theorem markFlag_pid_congr (d e : Option Pool) (p : Pool)
    (h : ∀ d0 e0, d = some d0 → e = some e0 → d0.pid = e0.pid)
    (hne : d.isSome = e.isSome) :
    markFlag d p = markFlag e p := by
  cases d with
  | none =>
    cases e with
    | none => rfl
    | some e0 => cases hne
  | some d0 =>
    cases e with
    | none => cases hne
    | some e0 =>
      have := h d0 e0 rfl rfl
      by_cases hp : p.openAccess = true <;> simp [markFlag, hp, this]

/-- The supersession pass is idempotent: re-running it on unchanged
inputs reproduces the same assignment. -/
theorem markSuperceded_idem (pools : List Pool) :
    markSuperceded (markSuperceded pools) = markSuperceded pools := by
  unfold markSuperceded
  rw [champion_map_markFlag]
  cases hch : openAccessChampion pools with
  | none =>
    simp only [Option.map_none']
    rw [List.map_map]
    exact List.map_congr_left (fun p _ => markFlag_markFlag none p)
  | some c =>
    simp only [Option.map_some']
    rw [List.map_map]
    refine List.map_congr_left (fun p _ => ?_)
    have hc : markFlag (some (markFlag (some c) c)) (markFlag (some c) p)
        = markFlag (some c) (markFlag (some c) p) := by
      refine markFlag_pid_congr _ _ _ ?_ rfl
      intro d0 e0 hd he
      cases hd; cases he
      exact markFlag_pid (some c) c
    calc markFlag (some (markFlag (some c) c)) (markFlag (some c) p)
        = markFlag (some c) (markFlag (some c) p) := hc
      _ = markFlag (some c) p := markFlag_markFlag (some c) p

/-- C6 (amended) — After the supersession pass on a Work's pools (with
distinct pool identifiers): no commercial pool is marked superseded;
among the open-access pools at most one is non-superseded; when at
least one unsuppressed open-access pool exists, exactly one open-access
pool is non-superseded — the champion, which is unsuppressed and which
no pool of the Work compares better than — and every other open-access
pool is superseded; and re-running the pass on unchanged inputs
reproduces the same assignment. (When every open-access pool is
suppressed, no champion exists and every open-access pool is marked
superseded.) -/
theorem markSuperceded_spec (pools : List Pool)
    (hnd : (pools.map Pool.pid).Nodup) :
    (∀ p ∈ markSuperceded pools, p.openAccess = false →
      p.superceded = false) ∧
    (∀ p ∈ markSuperceded pools, ∀ q ∈ markSuperceded pools,
      p.openAccess = true → q.openAccess = true →
      p.superceded = false → q.superceded = false → p = q) ∧
    ((∃ p ∈ pools, p.openAccess = true ∧ p.suppressed = false) →
      ∃ c, openAccessChampion pools = some c ∧ c ∈ pools ∧
        c.openAccess = true ∧ c.suppressed = false ∧
        (∀ q ∈ pools, betterOpenAccessPoolThan q (some c) = false) ∧
        (∀ p ∈ markSuperceded pools, p.openAccess = true →
          (p.superceded = false ↔ p.pid = c.pid)) ∧
        (∃ p ∈ markSuperceded pools, p.openAccess = true ∧
          p.superceded = false)) ∧
    markSuperceded (markSuperceded pools) = markSuperceded pools := by
  refine ⟨?_, ?_, ?_, markSuperceded_idem pools⟩
  · -- commercial pools are never superseded
    intro p hp hpo
    obtain ⟨q, hq, rfl⟩ := List.mem_map.mp hp
    by_cases hqo : q.openAccess = true
    · rw [markFlag_openAccess] at hpo
      rw [hpo] at hqo
      cases hqo
    · have hqo2 : q.openAccess = false := by
        cases hval : q.openAccess
        · rfl
        · exact absurd hval hqo
      cases hch : openAccessChampion pools <;> simp [markFlag, hqo2]
  · -- at most one open-access pool is non-superseded
    intro p hp q hq hpo hqo hps hqs
    obtain ⟨p0, hp0, rfl⟩ := List.mem_map.mp hp
    obtain ⟨q0, hq0, rfl⟩ := List.mem_map.mp hq
    rw [markFlag_openAccess] at hpo hqo
    cases hch : openAccessChampion pools with
    | none =>
      exfalso
      rw [hch] at hps
      simp [markFlag, hpo] at hps
    | some c =>
      rw [hch] at hps hqs
      simp only [markFlag, hpo, hqo, if_true, if_pos] at hps hqs
      have hp1 : p0.pid = c.pid := by simpa using hps
      have hq1 : q0.pid = c.pid := by simpa using hqs
      have : p0 = q0 :=
        List.inj_on_of_nodup_map hnd hp0 hq0 (hp1.trans hq1.symm)
      rw [this]
  · -- an unsuppressed open-access pool exists: exactly one champion
    rintro ⟨w, hw, hwo, hws⟩
    cases hch : openAccessChampion pools with
    | none =>
      exfalso
      have := openAccessChampion_none pools hch w hw hwo
      rw [hws] at this
      cases this
    | some c =>
      obtain ⟨hcm, hco, hcs, hmax⟩ := openAccessChampion_some pools c hch
      refine ⟨c, rfl, hcm, hco, hcs, hmax, ?_, ?_⟩
      · intro p hp hpo
        obtain ⟨p0, hp0, rfl⟩ := List.mem_map.mp hp
        rw [markFlag_openAccess] at hpo
        rw [hch]
        simp only [markFlag, hpo, if_true, if_pos]
        constructor
        · intro h
          simpa using h
        · intro h
          simpa using h
      · refine ⟨markFlag (openAccessChampion pools) c, List.mem_map_of_mem _ hcm,
          ?_, ?_⟩
        · rw [markFlag_openAccess]; exact hco
        · rw [hch]
          simp [markFlag, hco]

/-- Closed witness for `markSuperceded_spec`: two Gutenberg open-access
pools, one suppressed; the pass picks the unsuppressed one. -/
theorem markSuperceded_spec_witness :
    (([⟨1, Origin.gutenberg, some 10, none, true, false, false, true, none⟩,
       ⟨2, Origin.gutenberg, some 11, none, true, true, false, true, none⟩] :
        List Pool).map Pool.pid).Nodup ∧
    (∀ p ∈ markSuperceded
        [⟨1, Origin.gutenberg, some 10, none, true, false, false, true, none⟩,
         ⟨2, Origin.gutenberg, some 11, none, true, true, false, true, none⟩],
      p.openAccess = false → p.superceded = false) := by
  have h := markSuperceded_spec
    [⟨1, Origin.gutenberg, some 10, none, true, false, false, true, none⟩,
     ⟨2, Origin.gutenberg, some 11, none, true, true, false, true, none⟩]
    (by decide)
  exact ⟨by decide, h.1⟩

/-- Counterexample to C6 as stated: for a Work whose only open-access
pool is suppressed, the supersession pass leaves no non-superseded
open-access pool at all ("exactly one" fails; the code marks every
open-access pool superseded when all are suppressed). -/
theorem markSuperceded_all_suppressed_counterexample :
    (∃ p ∈ ([⟨1, Origin.gutenberg, some 10, none, true, true, false, true,
        none⟩] : List Pool), p.openAccess = true) ∧
    ¬ ∃ p ∈ markSuperceded
        [⟨1, Origin.gutenberg, some 10, none, true, true, false, true, none⟩],
      p.openAccess = true ∧ p.superceded = false := by
  constructor
  · exact ⟨_, List.mem_cons_self _ _, rfl⟩
  · decide

/-! ## Work display state and `calculate_presentation` (spec §4.3) -/

/-- A Work's derived display state: the chosen presentation record and
the display fields copied verbatim from it. -/
structure WorkRec where
  presentationEdition : Option Edition
  title : Option String
  subtitle : Option String
  author : Option String
  sortAuthor : Option String
deriving DecidableEq, Repr

/-- The presentation record chosen for a Work from its member pools:
the supersession champion's record when one exists, otherwise the
record of the first unsuppressed pool that has one. All-suppressed
membership yields no choice. -/
def choosePresentationEdition (pools : List Pool) : Option Edition :=
  match openAccessChampion pools with
  | some c => c.presentationEdition
  | none =>
    match pools.find? (fun p => !p.suppressed && p.presentationEdition.isSome)
      with
    | some p => p.presentationEdition
    | none => none

/-- Modelled from the spec: `calculate_presentation(work)` — after
synthesis stabilizes, the Work copies title/subtitle/author/sort_author
verbatim from the chosen presentation record. When no viable (that is,
unsuppressed) pool offers a record, the Work keeps its last best-known
presentation record and display fields, as evidenced by
`test_work_remains_viable_on_pools_suppressed`. -/
def calculatePresentation (w : WorkRec) (pools : List Pool) : WorkRec :=
  match choosePresentationEdition pools with
  | some e =>
    { presentationEdition := some e, title := e.title,
      subtitle := e.subtitle, author := e.author, sortAuthor := e.sortAuthor }
  | none => w

theorem openAccessChampion_all_suppressed (pools : List Pool)
    (h : ∀ p ∈ pools, p.suppressed = true) :
    openAccessChampion pools = none := by
  unfold openAccessChampion
  suffices hgen : ∀ acc : Option Pool,
      pools.foldl
        (fun c p => if betterOpenAccessPoolThan p c then some p else c)
        acc = acc by
    exact hgen none
  induction pools with
  | nil => intro acc; rfl
  | cons p rest ih =>
    intro acc
    have hps : p.suppressed = true := h p (List.mem_cons_self _ _)
    have hb : betterOpenAccessPoolThan p acc = false :=
      better_false_of_bad p acc (Or.inl hps)
    simp only [List.foldl_cons, hb, Bool.false_eq_true, if_false]
    exact ih (fun q hq => h q (List.mem_cons_of_mem _ hq)) acc

/-- C10 — For a Work all of whose member pools are suppressed,
`calculate_presentation` leaves the Work's presentation edition and its
display fields (title, subtitle, author, sort_author) at their last
best-known values: the Work record is unchanged, the edition is not
detached and no field is cleared. -/
theorem calculatePresentation_all_suppressed (w : WorkRec)
    (pools : List Pool) (h : ∀ p ∈ pools, p.suppressed = true) :
    calculatePresentation w pools = w := by
  unfold calculatePresentation choosePresentationEdition
  rw [openAccessChampion_all_suppressed pools h]
  have hfind : pools.find?
      (fun p => !p.suppressed && p.presentationEdition.isSome) = none := by
    rw [List.find?_eq_none]
    intro p hp
    rw [h p hp]
    simp
  rw [hfind]

/-- Closed witness for `calculatePresentation_all_suppressed`: a Work
with a remembered presentation edition whose single pool is
suppressed. -/
theorem calculatePresentation_all_suppressed_witness :
    (∀ p ∈ ([⟨1, Origin.standardEbooks, some 10,
        some ⟨Origin.standardEbooks, some "The Standard Ebooks Title",
          some "The Standard Ebooks Subtitle", some "Alice Adder",
          some "Adder, Alice", none, none, ["Alice Adder"], Medium.book,
          none⟩, true, true, false, true, some 7⟩] : List Pool),
      p.suppressed = true) ∧
    calculatePresentation
      ⟨some ⟨Origin.standardEbooks, some "The Standard Ebooks Title",
          some "The Standard Ebooks Subtitle", some "Alice Adder",
          some "Adder, Alice", none, none, ["Alice Adder"], Medium.book,
          none⟩,
        some "The Standard Ebooks Title", some "The Standard Ebooks Subtitle",
        some "Alice Adder", some "Adder, Alice"⟩
      [⟨1, Origin.standardEbooks, some 10,
        some ⟨Origin.standardEbooks, some "The Standard Ebooks Title",
          some "The Standard Ebooks Subtitle", some "Alice Adder",
          some "Adder, Alice", none, none, ["Alice Adder"], Medium.book,
          none⟩, true, true, false, true, some 7⟩]
      = ⟨some ⟨Origin.standardEbooks, some "The Standard Ebooks Title",
          some "The Standard Ebooks Subtitle", some "Alice Adder",
          some "Adder, Alice", none, none, ["Alice Adder"], Medium.book,
          none⟩,
        some "The Standard Ebooks Title", some "The Standard Ebooks Subtitle",
        some "Alice Adder", some "Adder, Alice"⟩ := by
  refine ⟨by decide, calculatePresentation_all_suppressed _ _ (by decide)⟩

/-! ## Presentation edition synthesizer (spec §4.3) -/

/-- Modelled from the spec: the synthesizer's trust ranking —
unranked/unknown origin < licensing-origin-supplied record <
enrichment-service-supplied record < manually-curated/staff record. -/
def synthSourcePriority : Origin → Nat
  | .libraryStaff => 3
  | .metadataWrangler => 2
  | .unranked => 0
  | .presentation => 0
  | _ => 1

/-- Modelled from the spec: `editions_in_priority_order(pool)` — all
records sharing the pool's identifier, ascending by the fixed trust
ranking; ties within the same rank stay stable by creation order (the
input list is in creation order). -/
def editionsInPriorityOrder (eds : List Edition) : List Edition :=
  (eds.filter (fun e => synthSourcePriority e.origin == 0)) ++
  (eds.filter (fun e => synthSourcePriority e.origin == 1)) ++
  (eds.filter (fun e => synthSourcePriority e.origin == 2)) ++
  (eds.filter (fun e => synthSourcePriority e.origin == 3))

/-- An empty or absent scalar value, which never overwrites a
previously-set one. -/
def fieldAbsent : Option String → Bool
  | none => true
  | some s => s.isEmpty

/-- One step of the synthesis walk: each non-empty scalar field of the
incoming record overwrites the composite's value; the contributor list
is replaced wholesale whenever the incoming record defines any
contributors. -/
def applyEdition (c e : Edition) : Edition :=
  { c with
    title := if fieldAbsent e.title then c.title else e.title
    subtitle := if fieldAbsent e.subtitle then c.subtitle else e.subtitle
    author := if fieldAbsent e.author then c.author else e.author
    sortAuthor :=
      if fieldAbsent e.sortAuthor then c.sortAuthor else e.sortAuthor
    language := if fieldAbsent e.language then c.language else e.language
    publisher := if fieldAbsent e.publisher then c.publisher else e.publisher
    contributors :=
      if e.contributors.isEmpty then c.contributors else e.contributors }

/-- The synthetic presentation-tagged record the composite is written
into, before any source contributes. -/
def emptyComposite (m : Medium) : Edition :=
  ⟨.presentation, none, none, none, none, none, none, [], m, none⟩

/-- Modelled from the spec: `synthesize(pool)` /
`set_presentation_edition` — walk the ordered record list and fold the
field-merge step into the synthetic composite record. -/
def synthesize (eds : List Edition) (m : Medium) : Edition :=
  (editionsInPriorityOrder eds).foldl applyEdition (emptyComposite m)

theorem synthFold_last {α : Type} (val : Edition → α) (ab : Edition → Bool) :
    ∀ (l : List Edition) (acc : α),
      (l.foldl (fun a e => if ab e then a else val e) acc = acc ∧
        ∀ e ∈ l, ab e = true) ∨
      (∃ l1 e l2, l = l1 ++ e :: l2 ∧ ab e = false ∧
        (∀ e2 ∈ l2, ab e2 = true) ∧
        l.foldl (fun a e => if ab e then a else val e) acc = val e) := by
  intro l
  induction l using List.reverseRecOn with
  | nil =>
    intro acc
    left
    exact ⟨rfl, by simp⟩
  | append_singleton l x ih =>
    intro acc
    rw [List.foldl_append]
    simp only [List.foldl_cons, List.foldl_nil]
    by_cases hx : ab x = true
    · rw [if_pos hx]
      rcases ih acc with ⟨h1, h2⟩ | ⟨l1, e, l2, heq, he, hl2, hres⟩
      · left
        refine ⟨h1, ?_⟩
        intro e he2
        rcases List.mem_append.mp he2 with h | h
        · exact h2 e h
        · rw [List.mem_singleton.mp h]
          exact hx
      · right
        refine ⟨l1, e, l2 ++ [x], by rw [heq]; simp, he, ?_, hres⟩
        intro e2 he2
        rcases List.mem_append.mp he2 with h | h
        · exact hl2 e2 h
        · rw [List.mem_singleton.mp h]
          exact hx
    · have hx2 : ab x = false := by
        cases hval : ab x
        · rfl
        · exact absurd hval hx
      rw [if_neg (by rw [hx2]; exact Bool.false_ne_true)]
      right
      exact ⟨l, x, [], by simp, hx2, by simp, rfl⟩

theorem applyEdition_foldl_title (l : List Edition) :
    ∀ c, (l.foldl applyEdition c).title =
      l.foldl (fun a e => if fieldAbsent e.title then a else e.title)
        c.title := by
  induction l with
  | nil => intro c; rfl
  | cons e rest ih =>
    intro c
    simp only [List.foldl_cons]
    rw [ih (applyEdition c e)]
    rfl

theorem applyEdition_foldl_subtitle (l : List Edition) :
    ∀ c, (l.foldl applyEdition c).subtitle =
      l.foldl (fun a e => if fieldAbsent e.subtitle then a else e.subtitle)
        c.subtitle := by
  induction l with
  | nil => intro c; rfl
  | cons e rest ih =>
    intro c
    simp only [List.foldl_cons]
    rw [ih (applyEdition c e)]
    rfl

theorem applyEdition_foldl_author (l : List Edition) :
    ∀ c, (l.foldl applyEdition c).author =
      l.foldl (fun a e => if fieldAbsent e.author then a else e.author)
        c.author := by
  induction l with
  | nil => intro c; rfl
  | cons e rest ih =>
    intro c
    simp only [List.foldl_cons]
    rw [ih (applyEdition c e)]
    rfl

theorem applyEdition_foldl_sortAuthor (l : List Edition) :
    ∀ c, (l.foldl applyEdition c).sortAuthor =
      l.foldl
        (fun a e => if fieldAbsent e.sortAuthor then a else e.sortAuthor)
        c.sortAuthor := by
  induction l with
  | nil => intro c; rfl
  | cons e rest ih =>
    intro c
    simp only [List.foldl_cons]
    rw [ih (applyEdition c e)]
    rfl

theorem applyEdition_foldl_language (l : List Edition) :
    ∀ c, (l.foldl applyEdition c).language =
      l.foldl (fun a e => if fieldAbsent e.language then a else e.language)
        c.language := by
  induction l with
  | nil => intro c; rfl
  | cons e rest ih =>
    intro c
    simp only [List.foldl_cons]
    rw [ih (applyEdition c e)]
    rfl

theorem applyEdition_foldl_publisher (l : List Edition) :
    ∀ c, (l.foldl applyEdition c).publisher =
      l.foldl (fun a e => if fieldAbsent e.publisher then a else e.publisher)
        c.publisher := by
  induction l with
  | nil => intro c; rfl
  | cons e rest ih =>
    intro c
    simp only [List.foldl_cons]
    rw [ih (applyEdition c e)]
    rfl

theorem applyEdition_foldl_contributors (l : List Edition) :
    ∀ c, (l.foldl applyEdition c).contributors =
      l.foldl
        (fun a e => if e.contributors.isEmpty then a else e.contributors)
        c.contributors := by
  induction l with
  | nil => intro c; rfl
  | cons e rest ih =>
    intro c
    simp only [List.foldl_cons]
    rw [ih (applyEdition c e)]
    rfl

theorem mem_block (eds : List Edition) (i : Nat) (x : Edition)
    (hx : x ∈ eds.filter (fun e => synthSourcePriority e.origin == i)) :
    x ∈ eds ∧ synthSourcePriority x.origin = i := by
  obtain ⟨h1, h2⟩ := List.mem_filter.mp hx
  exact ⟨h1, by simpa using h2⟩

theorem mem_editionsInPriorityOrder (eds : List Edition) (e : Edition) :
    e ∈ editionsInPriorityOrder eds ↔ e ∈ eds := by
  constructor
  · intro h
    unfold editionsInPriorityOrder at h
    rcases List.mem_append.mp h with h | h
    · rcases List.mem_append.mp h with h | h
      · rcases List.mem_append.mp h with h | h
        · exact (mem_block eds 0 e h).1
        · exact (mem_block eds 1 e h).1
      · exact (mem_block eds 2 e h).1
    · exact (mem_block eds 3 e h).1
  · intro h
    unfold editionsInPriorityOrder
    have hcases : synthSourcePriority e.origin = 0 ∨
        synthSourcePriority e.origin = 1 ∨ synthSourcePriority e.origin = 2 ∨
        synthSourcePriority e.origin = 3 := by
      cases e.origin <;> simp [synthSourcePriority]
    have hblock : ∀ i, synthSourcePriority e.origin = i →
        e ∈ eds.filter (fun x => synthSourcePriority x.origin == i) := by
      intro i hi
      exact List.mem_filter.mpr ⟨h, by simpa using hi⟩
    rcases hcases with hi | hi | hi | hi
    · exact List.mem_append.mpr (Or.inl (List.mem_append.mpr
        (Or.inl (List.mem_append.mpr (Or.inl (hblock 0 hi))))))
    · exact List.mem_append.mpr (Or.inl (List.mem_append.mpr
        (Or.inl (List.mem_append.mpr (Or.inr (hblock 1 hi))))))
    · exact List.mem_append.mpr (Or.inl (List.mem_append.mpr
        (Or.inr (hblock 2 hi))))
    · exact List.mem_append.mpr (Or.inr (hblock 3 hi))

theorem sorted_editionsInPriorityOrder (eds : List Edition) :
    (editionsInPriorityOrder eds).Pairwise
      (fun a b => synthSourcePriority a.origin ≤ synthSourcePriority b.origin)
    := by
  unfold editionsInPriorityOrder
  have hblockPW : ∀ i, (eds.filter
      (fun e => synthSourcePriority e.origin == i)).Pairwise
      (fun a b =>
        synthSourcePriority a.origin ≤ synthSourcePriority b.origin) := by
    intro i
    refine List.pairwise_of_forall_mem_list ?_
    intro a ha b hb
    rw [(mem_block eds i a ha).2, (mem_block eds i b hb).2]
  rw [List.pairwise_append]
  refine ⟨?_, hblockPW 3, ?_⟩
  · rw [List.pairwise_append]
    refine ⟨?_, hblockPW 2, ?_⟩
    · rw [List.pairwise_append]
      refine ⟨hblockPW 0, hblockPW 1, ?_⟩
      intro a ha b hb
      rw [(mem_block eds 0 a ha).2, (mem_block eds 1 b hb).2]
      omega
    · intro a ha b hb
      have h2 := (mem_block eds 2 b hb).2
      rcases List.mem_append.mp ha with ha | ha
      · rw [(mem_block eds 0 a ha).2, h2]
        omega
      · rw [(mem_block eds 1 a ha).2, h2]
        omega
  · intro a ha b hb
    have h3 := (mem_block eds 3 b hb).2
    rcases List.mem_append.mp ha with ha | ha
    · rcases List.mem_append.mp ha with ha | ha
      · rw [(mem_block eds 0 a ha).2, h3]
        omega
      · rw [(mem_block eds 1 a ha).2, h3]
        omega
    · rw [(mem_block eds 2 a ha).2, h3]
      omega

/-- On the priority-ordered walk, the surviving value of any
"last-non-empty-wins" field comes from a defining record of maximal
trust priority. -/
theorem synthPriorityMax {α : Type} (eds : List Edition)
    (val : Edition → α) (ab : Edition → Bool) (acc0 : α) :
    ((∀ e ∈ eds, ab e = true) →
      (editionsInPriorityOrder eds).foldl
        (fun a e => if ab e then a else val e) acc0 = acc0) ∧
    ((∃ e ∈ eds, ab e = false) →
      ∃ e ∈ eds, ab e = false ∧
        (editionsInPriorityOrder eds).foldl
          (fun a e => if ab e then a else val e) acc0 = val e ∧
        ∀ e2 ∈ eds, ab e2 = false →
          synthSourcePriority e2.origin ≤ synthSourcePriority e.origin) := by
  rcases synthFold_last val ab (editionsInPriorityOrder eds) acc0 with
    ⟨hres, hall⟩ | ⟨l1, e, l2, hsplit, he, hl2, hres⟩
  · constructor
    · intro _; exact hres
    · rintro ⟨w, hw, hwa⟩
      have : ab w = true :=
        hall w ((mem_editionsInPriorityOrder eds w).mpr hw)
      rw [this] at hwa
      cases hwa
  · have hmeme : e ∈ editionsInPriorityOrder eds := by
      rw [hsplit]
      exact List.mem_append.mpr (Or.inr (List.mem_cons_self _ _))
    constructor
    · intro hall
      exfalso
      have := hall e ((mem_editionsInPriorityOrder eds e).mp hmeme)
      rw [this] at he
      cases he
    · intro _
      refine ⟨e, (mem_editionsInPriorityOrder eds e).mp hmeme, he, hres, ?_⟩
      intro e2 he2 ha2
      have hmem2 : e2 ∈ editionsInPriorityOrder eds :=
        (mem_editionsInPriorityOrder eds e2).mpr he2
      rw [hsplit] at hmem2
      have hsorted := sorted_editionsInPriorityOrder eds
      rw [hsplit, List.pairwise_append] at hsorted
      rcases List.mem_append.mp hmem2 with h | h
      · exact hsorted.2.2 e2 h e (List.mem_cons_self _ _)
      · rcases List.mem_cons.mp h with rfl | h
        · exact le_refl _
        · exfalso
          have := hl2 e2 h
          rw [this] at ha2
          cases ha2

/-- C7 — Synthesis walks the editions in ascending trust-priority
order; every scalar bibliographic field keeps the most-preferred
non-empty value (a higher-priority non-empty value overwrites, an
empty/absent value never overwrites a previously-set one, and a field
nobody supplies stays unset), while the contributor list is replaced
wholesale by a highest-priority edition that defines any contributors —
never unioned across editions. -/
theorem synthesize_spec (eds : List Edition) (m : Medium) :
    (∀ f : Edition → Option String,
      (f = Edition.title ∨ f = Edition.subtitle ∨ f = Edition.author ∨
        f = Edition.sortAuthor ∨ f = Edition.language ∨
        f = Edition.publisher) →
      ((∀ e ∈ eds, fieldAbsent (f e) = true) →
        f (synthesize eds m) = none) ∧
      ((∃ e ∈ eds, fieldAbsent (f e) = false) →
        ∃ e ∈ eds, fieldAbsent (f e) = false ∧ f (synthesize eds m) = f e ∧
          ∀ e2 ∈ eds, fieldAbsent (f e2) = false →
            synthSourcePriority e2.origin ≤ synthSourcePriority e.origin)) ∧
    ((∀ e ∈ eds, e.contributors.isEmpty = true) →
      (synthesize eds m).contributors = []) ∧
    ((∃ e ∈ eds, e.contributors.isEmpty = false) →
      ∃ e ∈ eds, e.contributors.isEmpty = false ∧
        (synthesize eds m).contributors = e.contributors ∧
        ∀ e2 ∈ eds, e2.contributors.isEmpty = false →
          synthSourcePriority e2.origin ≤ synthSourcePriority e.origin) := by
  refine ⟨?_, ?_, ?_⟩
  · intro f hf
    rcases hf with rfl | rfl | rfl | rfl | rfl | rfl
    · obtain ⟨h1, h2⟩ := synthPriorityMax eds (fun e => e.title)
        (fun e => fieldAbsent e.title) (none : Option String)
      constructor
      · intro hall
        unfold synthesize
        rw [applyEdition_foldl_title]
        exact h1 hall
      · intro hex
        obtain ⟨e, hmem, he, hres, hmax⟩ := h2 hex
        refine ⟨e, hmem, he, ?_, hmax⟩
        unfold synthesize
        rw [applyEdition_foldl_title]
        exact hres
    · obtain ⟨h1, h2⟩ := synthPriorityMax eds (fun e => e.subtitle)
        (fun e => fieldAbsent e.subtitle) (none : Option String)
      constructor
      · intro hall
        unfold synthesize
        rw [applyEdition_foldl_subtitle]
        exact h1 hall
      · intro hex
        obtain ⟨e, hmem, he, hres, hmax⟩ := h2 hex
        refine ⟨e, hmem, he, ?_, hmax⟩
        unfold synthesize
        rw [applyEdition_foldl_subtitle]
        exact hres
    · obtain ⟨h1, h2⟩ := synthPriorityMax eds (fun e => e.author)
        (fun e => fieldAbsent e.author) (none : Option String)
      constructor
      · intro hall
        unfold synthesize
        rw [applyEdition_foldl_author]
        exact h1 hall
      · intro hex
        obtain ⟨e, hmem, he, hres, hmax⟩ := h2 hex
        refine ⟨e, hmem, he, ?_, hmax⟩
        unfold synthesize
        rw [applyEdition_foldl_author]
        exact hres
    · obtain ⟨h1, h2⟩ := synthPriorityMax eds (fun e => e.sortAuthor)
        (fun e => fieldAbsent e.sortAuthor) (none : Option String)
      constructor
      · intro hall
        unfold synthesize
        rw [applyEdition_foldl_sortAuthor]
        exact h1 hall
      · intro hex
        obtain ⟨e, hmem, he, hres, hmax⟩ := h2 hex
        refine ⟨e, hmem, he, ?_, hmax⟩
        unfold synthesize
        rw [applyEdition_foldl_sortAuthor]
        exact hres
    · obtain ⟨h1, h2⟩ := synthPriorityMax eds (fun e => e.language)
        (fun e => fieldAbsent e.language) (none : Option String)
      constructor
      · intro hall
        unfold synthesize
        rw [applyEdition_foldl_language]
        exact h1 hall
      · intro hex
        obtain ⟨e, hmem, he, hres, hmax⟩ := h2 hex
        refine ⟨e, hmem, he, ?_, hmax⟩
        unfold synthesize
        rw [applyEdition_foldl_language]
        exact hres
    · obtain ⟨h1, h2⟩ := synthPriorityMax eds (fun e => e.publisher)
        (fun e => fieldAbsent e.publisher) (none : Option String)
      constructor
      · intro hall
        unfold synthesize
        rw [applyEdition_foldl_publisher]
        exact h1 hall
      · intro hex
        obtain ⟨e, hmem, he, hres, hmax⟩ := h2 hex
        refine ⟨e, hmem, he, ?_, hmax⟩
        unfold synthesize
        rw [applyEdition_foldl_publisher]
        exact hres
  · intro hall
    obtain ⟨h1, _⟩ := synthPriorityMax eds (fun e => e.contributors)
      (fun e => e.contributors.isEmpty) ([] : List String)
    unfold synthesize
    rw [applyEdition_foldl_contributors]
    exact h1 hall
  · intro hex
    obtain ⟨_, h2⟩ := synthPriorityMax eds (fun e => e.contributors)
      (fun e => e.contributors.isEmpty) ([] : List String)
    obtain ⟨e, hmem, he, hres, hmax⟩ := h2 hex
    refine ⟨e, hmem, he, ?_, hmax⟩
    unfold synthesize
    rw [applyEdition_foldl_contributors]
    exact hres

/-- The spec's synthesis scenario: a licensing record supplies title
"T1", an enrichment record supplies title "T2" and subtitle "S2", a
staff record supplies only title "T3". -/
def synthExample : List Edition :=
  [⟨.overdrive, some "T1", none, none, none, none, none, [], .book, none⟩,
   ⟨.metadataWrangler, some "T2", some "S2", none, none, none, none, [],
     .book, none⟩,
   ⟨.libraryStaff, some "T3", none, none, none, none, none, [], .book, none⟩]

/-- Closed witness for `synthesize_spec`: on the spec's scenario the
composite takes the staff title "T3" and the enrichment subtitle "S2"
(the staff record's empty subtitle does not overwrite it). -/
theorem synthesize_spec_witness :
    (∃ e ∈ synthExample, fieldAbsent e.subtitle = false) ∧
    (∃ e ∈ synthExample, fieldAbsent e.subtitle = false ∧
      Edition.subtitle (synthesize synthExample Medium.book) = e.subtitle ∧
      ∀ e2 ∈ synthExample, fieldAbsent e2.subtitle = false →
        synthSourcePriority e2.origin ≤ synthSourcePriority e.origin) ∧
    (synthesize synthExample Medium.book).title = some "T3" ∧
    (synthesize synthExample Medium.book).subtitle = some "S2" :=
  ⟨by decide,
   (((synthesize_spec synthExample Medium.book).1 Edition.subtitle
      (Or.inr (Or.inl rfl))).2 (by decide)),
   by decide, by decide⟩

/-! ## Work cluster manager (spec §4.5) -/

/-- The shared mutable state the Work Cluster Manager operates on: the
licensing pools (each carrying its current Work membership) and a
counter supplying fresh Work identifiers. Works exist exactly as the
sets of pools sharing a `workId`; a Work whose last pool leaves is
thereby deleted. -/
structure ClusterState where
  pools : List Pool
  nextWorkId : Nat
deriving DecidableEq, Repr

/-- Invalid-state errors of spec §7: merge of mismatched permanent work
keys (reporting both key sets), merge mixing open-access and commercial
pools, and exhaustion of the bounded self-healing pass. -/
inductive ClusterError
  | keyMismatch (src tgt : List (Option PWKey))
  | groupingViolation (source target : Nat)
  | outOfFuel
deriving DecidableEq, Repr

def findPool (st : ClusterState) (pid : Nat) : Option Pool :=
  st.pools.find? (fun p => p.pid == pid)

def updatePool (st : ClusterState) (pid : Nat) (f : Pool → Pool) :
    ClusterState :=
  { st with pools := st.pools.map (fun p => if p.pid = pid then f p else p) }

def detachPool (st : ClusterState) (pid : Nat) : ClusterState :=
  updatePool st pid (fun p => { p with workId := none })

def attachPool (st : ClusterState) (pid w : Nat) : ClusterState :=
  updatePool st pid (fun p => { p with workId := some w })

def attachAll (st : ClusterState) (pids : List Nat) (w : Nat) : ClusterState :=
  { st with pools := st.pools.map (fun p =>
      if p.pid ∈ pids then { p with workId := some w } else p) }

/-- The member pools of a Work. -/
def members (st : ClusterState) (w : Nat) : List Pool :=
  st.pools.filter (fun p => p.workId == some w)

/-- The permanent work key stored on a pool's presentation record. -/
def poolKey (p : Pool) : Option PWKey :=
  p.presentationEdition.bind (fun e => e.permanentWorkId)

def poolMedium (p : Pool) : Option Medium :=
  p.presentationEdition.map (fun e => e.medium)

/-- Store a freshly recomputed permanent work key on a pool's
presentation record. -/
def setPoolKey (st : ClusterState) (pid : Nat) (k : PWKey) : ClusterState :=
  updatePool st pid (fun p =>
    match p.presentationEdition with
    | some e => { p with presentationEdition := some { e with permanentWorkId := some k } }
    | none => p)

/-- The distinct permanent work keys present among a Work's pools. -/
def workPwids (st : ClusterState) (w : Nat) : List (Option PWKey) :=
  ((members st w).map poolKey).dedup

/-- Modelled from the spec: `merge_into(source, target)` moves all
pools from `source` to `target` and deletes `source`; it fails,
mutating nothing, if the merge would combine pools with differing
permanent work keys or would place an open-access pool and a commercial
pool in the same resulting Work. (Classification weights and
idempotency markers, which also move on success, carry no behavior
relevant to the claims and are not modelled.) -/
def mergeInto (st : ClusterState) (source target : Nat) :
    Except ClusterError ClusterState :=
  if (((members st source ++ members st target).map poolKey).dedup).length > 1
  then .error (.keyMismatch (workPwids st source) (workPwids st target))
  else if ((members st source ++ members st target).any
        (fun p => p.openAccess)) &&
      ((members st source ++ members st target).any
        (fun p => !p.openAccess)) then
    .error (.groupingViolation source target)
  else
    .ok { st with pools := st.pools.map (fun p =>
      if p.workId == some source then { p with workId := some target }
      else p) }

/-- Run `merge_into` with exception semantics: on failure the state is
left untouched. -/
def applyMergeInto (st : ClusterState) (source target : Nat) : ClusterState :=
  match mergeInto st source target with
  | .ok st2 => st2
  | .error _ => st

def mergeAll : ClusterState → List Nat → Nat → Except ClusterError ClusterState
  | st, [], _ => .ok st
  | st, w :: rest, target =>
    match mergeInto st w target with
    | .error er => .error er
    | .ok st2 => mergeAll st2 rest target

/-- The open-access pools currently carrying the queried permanent work
key and medium. -/
def candidatePools (st : ClusterState) (k : PWKey) (m : Medium) : List Pool :=
  st.pools.filter (fun p =>
    p.openAccess && poolKey p == some k && poolMedium p == some m)

/-- The Works currently holding open-access pools with the queried key. -/
def candidateWorks (st : ClusterState) (k : PWKey) (m : Medium) : List Nat :=
  ((candidatePools st k m).filterMap (fun p => p.workId)).dedup

/-- Candidate ranking of `open_access_for_key`: most member pools wins,
ties broken by the lowest work identifier. -/
def pickBigger (st : ClusterState) (acc w : Nat) : Nat :=
  if (members st acc).length < (members st w).length ∨
      ((members st w).length = (members st acc).length ∧ w < acc) then w
  else acc

def selectTarget (st : ClusterState) : List Nat → Nat
  | [] => 0
  | w :: rest => rest.foldl (pickBigger st) w

/-- Does pool `q` violate the grouping invariants of the Work that the
calling pool `p` (with recomputed key `k` and medium `m`) belongs to?
For an open-access caller: any commercial co-member or any co-member
with a different key or medium. A commercial caller is clustered
individually, so every co-member conflicts. -/
def conflictsWith (p : Pool) (k : PWKey) (m : Medium) (q : Pool) : Bool :=
  if p.openAccess then
    !q.openAccess || !(poolKey q == some k) || !(poolMedium q == some m)
  else true

/-- The co-members of the calling pool's Work that must be split out
and relocated before the pool is re-clustered. -/
def conflictIds (st : ClusterState) (p : Pool) (pid : Nat) (k : PWKey)
    (m : Medium) : List Nat :=
  match p.workId with
  | some w => ((members st w).filter
      (fun q => q.pid != pid && conflictsWith p k m q)).map (fun q => q.pid)
  | none => []

/-- The pools of Work `w` that do not match (key, medium) and must be
relocated by `make_exclusive_for_key`. -/
def foreignIds (st : ClusterState) (w : Nat) (k : PWKey) (m : Medium) :
    List Nat :=
  ((members st w).filter
    (fun q => !(poolKey q == some k && poolMedium q == some m))).map
    (fun q => q.pid)

def candidatePids (st : ClusterState) (k : PWKey) (m : Medium) : List Nat :=
  (candidatePools st k m).map (fun p => p.pid)

/-- The call descriptor of the Work Cluster Manager's fuel-bounded
recursive engine: `calculate_work`, pool relocation, `make_exclusive`,
its iteration over candidate Works, and `open_access_for_key` are
mutually recursive; packaging them as one structurally fuel-recursive
interpreter keeps the engine executable. -/
inductive EngineCall where
  | cw (st : ClusterState) (pid : Nat) (force : Bool)
  | rel (st : ClusterState) (qs : List Nat)
  | mke (st : ClusterState) (w : Nat) (k : PWKey) (m : Medium)
  | exc (st : ClusterState) (ws : List Nat) (k : PWKey) (m : Medium)
  | oak (st : ClusterState) (k : PWKey) (m : Medium)
deriving DecidableEq, Repr

/-- Modelled from the spec (§4.5): the cluster engine. `cw` is
`calculate_work(pool, force_without_author)`: a pool with no
identifier, no resolvable presentation record or an underivable
permanent work key is detached and yields (no-work, not-created);
otherwise the recomputed key is stored, co-members violating the
grouping invariants are split out and relocated one at a time
(self-healing), and the pool is attached to its target cluster — the
canonical open-access Work for (key, medium) for an open-access pool,
an individual Work for a commercial pool — with `created` true only if
the returned Work came into existence during this call. `rel` detaches
and re-clusters each listed pool. `mke` is
`make_exclusive_for_key(work, key, medium)`: it relocates every pool of
the Work not matching key+medium. `exc` folds `mke` over the candidate
Works. `oak` is `open_access_for_key(key, medium)`: no candidate pools
at all yields (no-work, not-created); all-workless candidates found a
fresh canonical Work; otherwise the candidate Works are made exclusive
and merged into the best-ranked one, and a target still carrying more
than one distinct key after the merges is a diagnosable invalid state
(§4.5 cycle safety), reported rather than retried. State-valued calls
return their state in the first component, padding the rest. -/
def engineRun : Nat → EngineCall →
    Except ClusterError (ClusterState × Option Nat × Bool)
  | fuel, .cw st pid force =>
    match findPool st pid with
    | none => .ok (st, none, false)
    | some p =>
      match p.identifier, p.presentationEdition with
      | none, _ => .ok (detachPool st pid, none, false)
      | some _, none => .ok (detachPool st pid, none, false)
      | some _, some e =>
        match permanentWorkKey force e with
        | none => .ok (detachPool st pid, none, false)
        | some k =>
          match fuel with
          | 0 => .error .outOfFuel
          | fuel + 1 =>
            match engineRun fuel (.rel (setPoolKey st pid k)
                (conflictIds (setPoolKey st pid k) p pid k e.medium)) with
            | .error er => .error er
            | .ok (st2, _, _) =>
              if p.openAccess then
                match engineRun fuel (.oak st2 k e.medium) with
                | .error er => .error er
                | .ok (st3, some w, created) => .ok (st3, some w, created)
                | .ok (st3, none, _) =>
                  .ok (attachPool { st3 with nextWorkId := st3.nextWorkId + 1 }
                    pid st3.nextWorkId, some st3.nextWorkId, true)
              else
                match p.workId with
                | some w => .ok (st2, some w, false)
                | none =>
                  .ok (attachPool { st2 with nextWorkId := st2.nextWorkId + 1 }
                    pid st2.nextWorkId, some st2.nextWorkId, true)
  | fuel, .rel st qs =>
    match qs with
    | [] => .ok (st, none, false)
    | q :: rest =>
      match fuel with
      | 0 => .error .outOfFuel
      | fuel + 1 =>
        match engineRun fuel (.cw (detachPool st q) q false) with
        | .error er => .error er
        | .ok (st2, _, _) => engineRun fuel (.rel st2 rest)
  | fuel, .mke st w k m =>
    match fuel with
    | 0 => .error .outOfFuel
    | fuel + 1 => engineRun fuel (.rel st (foreignIds st w k m))
  | fuel, .exc st ws k m =>
    match ws with
    | [] => .ok (st, none, false)
    | w :: rest =>
      match fuel with
      | 0 => .error .outOfFuel
      | fuel + 1 =>
        match engineRun fuel (.mke st w k m) with
        | .error er => .error er
        | .ok (st2, _, _) => engineRun fuel (.exc st2 rest k m)
  | fuel, .oak st k m =>
    if (candidatePools st k m).isEmpty then .ok (st, none, false)
    else
      match candidateWorks st k m with
      | [] =>
        .ok (attachAll { st with nextWorkId := st.nextWorkId + 1 }
          (candidatePids st k m) st.nextWorkId, some st.nextWorkId, true)
      | w0 :: ws =>
        match fuel with
        | 0 => .error .outOfFuel
        | fuel + 1 =>
          match engineRun fuel (.exc st (w0 :: ws) k m) with
          | .error er => .error er
          | .ok (st1, _, _) =>
            match mergeAll st1 ((w0 :: ws).filter
                (fun w => w != selectTarget st (w0 :: ws)))
                (selectTarget st (w0 :: ws)) with
            | .error er => .error er
            | .ok st2 =>
              if (workPwids st2 (selectTarget st (w0 :: ws))).length > 1 then
                .error (.keyMismatch
                  (workPwids st2 (selectTarget st (w0 :: ws))) [some k])
              else
                .ok (attachAll st2 (candidatePids st k m)
                  (selectTarget st (w0 :: ws)),
                  some (selectTarget st (w0 :: ws)), false)
termination_by structural fuel _ => fuel

/-- `calculate_work(pool, force_without_author)` (spec §4.5). -/
def calculateWork (fuel : Nat) (st : ClusterState) (pid : Nat)
    (force : Bool) : Except ClusterError (ClusterState × Option Nat × Bool) :=
  engineRun fuel (.cw st pid force)

/-- Relocate each listed pool to its correct Work: detach it, then
re-run `calculate_work` on it. -/
def relocateAll (fuel : Nat) (st : ClusterState) (qs : List Nat) :
    Except ClusterError (ClusterState × Option Nat × Bool) :=
  engineRun fuel (.rel st qs)

/-- `make_exclusive_for_key(work, key, medium)` (spec §6). -/
def makeExclusive (fuel : Nat) (st : ClusterState) (w : Nat) (k : PWKey)
    (m : Medium) : Except ClusterError (ClusterState × Option Nat × Bool) :=
  engineRun fuel (.mke st w k m)

def exclusiveAll (fuel : Nat) (st : ClusterState) (ws : List Nat) (k : PWKey)
    (m : Medium) : Except ClusterError (ClusterState × Option Nat × Bool) :=
  engineRun fuel (.exc st ws k m)

/-- `open_access_for_key(key, medium)` (spec §4.5). -/
def openAccessForKey (fuel : Nat) (st : ClusterState) (k : PWKey)
    (m : Medium) : Except ClusterError (ClusterState × Option Nat × Bool) :=
  engineRun fuel (.oak st k m)

theorem detachPool_workId (st : ClusterState) (pid : Nat) :
    ∀ q ∈ (detachPool st pid).pools, q.pid = pid → q.workId = none := by
  intro q hq hqpid
  obtain ⟨p0, hp0, hq0⟩ := List.mem_map.mp hq
  by_cases hp : p0.pid = pid
  · rw [if_pos hp] at hq0
    rw [← hq0]
  · rw [if_neg hp] at hq0
    rw [← hq0] at hqpid
    exact absurd hqpid hp

/-- C3 — A pool whose presentation record has an empty or absent title
(regardless of author and of `force_without_author`), or which has no
identifier, or no resolvable presentation record, makes
`calculate_work` return (no-work, created=false) after detaching the
pool from any Work it belonged to: afterwards the pool is a member of
no Work. -/
theorem calculateWork_detaches (fuel : Nat) (st : ClusterState) (pid : Nat)
    (force : Bool) (p : Pool) (hp : findPool st pid = some p)
    (hbad : p.identifier = none ∨ p.presentationEdition = none ∨
      (∃ e, p.presentationEdition = some e ∧
        (e.title = none ∨
          ∃ t, e.title = some t ∧ (normString t).isEmpty = true))) :
    calculateWork fuel st pid force = .ok (detachPool st pid, none, false) ∧
    ∀ q ∈ (detachPool st pid).pools, q.pid = pid → q.workId = none := by
  refine ⟨?_, detachPool_workId st pid⟩
  rcases hbad with hid | hpe | ⟨e, hpe, htitle⟩
  · simp only [calculateWork, engineRun, hp, hid]
  · simp only [calculateWork, engineRun, hp, hpe]
    cases hval : p.identifier <;> simp
  · have hkey : permanentWorkKey force e = none := by
      rcases htitle with ht | ⟨t, ht, hemp⟩
      · unfold permanentWorkKey
        rw [ht]
      · simp only [permanentWorkKey, ht, hemp, if_true]
    simp only [calculateWork, engineRun, hp, hpe]
    cases hval : p.identifier with
    | none => simp
    | some i => simp [hkey]

/-- A Work-attached pool whose presentation record has lost its title. -/
def titlelessPool : Pool :=
  ⟨1, .gutenberg, some 101,
    some ⟨.gutenberg, none, none, some "x", none, none, none, [],
      .book, some ⟨"abcd", "x", .book⟩⟩,
    true, false, false, true, some 40⟩

def titlelessState : ClusterState := ⟨[titlelessPool], 41⟩

/-- Closed witness for `calculateWork_detaches`: a pool attached to
Work 40 whose presentation record has lost its title is detached, with
(no-work, not-created), at any fuel including zero. -/
theorem calculateWork_detaches_witness :
    findPool titlelessState 1 = some titlelessPool ∧
    calculateWork 0 titlelessState 1 true
      = .ok (detachPool titlelessState 1, none, false) := by
  refine ⟨by decide, ?_⟩
  exact (calculateWork_detaches 0 titlelessState 1 true titlelessPool
    (by decide) (Or.inr (Or.inr ⟨_, rfl, Or.inl rfl⟩))).1

theorem one_lt_length_of_two_mem {α : Type} (l : List α) (a b : α)
    (ha : a ∈ l) (hb : b ∈ l) (hab : a ≠ b) : 1 < l.length := by
  cases l with
  | nil => cases ha
  | cons x rest =>
    cases rest with
    | nil =>
      rw [List.mem_singleton.mp ha, List.mem_singleton.mp hb] at hab
      exact absurd rfl hab
    | cons y rest2 =>
      simp only [List.length_cons]
      omega

/-- C5 — `merge_into(source, target)` fails with an invalid-state error
whenever the source and target carry pools with differing permanent
work keys, or whenever the merge would put an open-access pool and a
commercial pool into the same resulting Work; on such a failure nothing
is mutated: the state (hence the membership and every field of both
Works) is unchanged. -/
theorem mergeInto_invalid (st : ClusterState) (source target : Nat)
    (hbad : (∃ p ∈ members st source, ∃ q ∈ members st target,
        poolKey p ≠ poolKey q) ∨
      ((∃ p ∈ members st source ++ members st target, p.openAccess = true) ∧
       (∃ p ∈ members st source ++ members st target,
         p.openAccess = false))) :
    (∃ er, mergeInto st source target = .error er ∧
      (er = .keyMismatch (workPwids st source) (workPwids st target) ∨
       er = .groupingViolation source target)) ∧
    applyMergeInto st source target = st := by
  have hmain : ∃ er, mergeInto st source target = .error er ∧
      (er = .keyMismatch (workPwids st source) (workPwids st target) ∨
       er = .groupingViolation source target) := by
    by_cases hkeys :
        (((members st source ++ members st target).map poolKey).dedup).length
          > 1
    · refine ⟨_, ?_, Or.inl rfl⟩
      unfold mergeInto
      rw [if_pos hkeys]
    · rcases hbad with ⟨p, hp, q, hq, hpq⟩ | ⟨⟨p, hp, hpo⟩, ⟨q, hq, hqo⟩⟩
      · exfalso
        apply hkeys
        refine one_lt_length_of_two_mem _ (poolKey p) (poolKey q) ?_ ?_ hpq
        · exact List.mem_dedup.mpr (List.mem_map_of_mem _
            (List.mem_append.mpr (Or.inl hp)))
        · exact List.mem_dedup.mpr (List.mem_map_of_mem _
            (List.mem_append.mpr (Or.inr hq)))
      · refine ⟨_, ?_, Or.inr rfl⟩
        unfold mergeInto
        rw [if_neg hkeys, if_pos ?_]
        rw [Bool.and_eq_true]
        constructor
        · exact List.any_eq_true.mpr ⟨p, hp, hpo⟩
        · refine List.any_eq_true.mpr ⟨q, hq, ?_⟩
          rw [hqo]
          rfl
  refine ⟨hmain, ?_⟩
  obtain ⟨er, her, _⟩ := hmain
  unfold applyMergeInto
  rw [her]

/-- A presentation record for the book "abcd", key-coherent (its stored
permanent work key equals the derived one). -/
def edAbcd : Edition :=
  ⟨.gutenberg, some "abcd", none, some "x", none, none, none, [], .book,
    some ⟨"abcd", "x", .book⟩⟩

/-- A presentation record for the book "efgh". -/
def edEfgh : Edition :=
  ⟨.gutenberg, some "efgh", none, some "x", none, none, none, [], .book,
    some ⟨"efgh", "x", .book⟩⟩

/-- Work 30 holds an open-access pool of "abcd", Work 31 an open-access
pool of "efgh". -/
def mergeExampleState : ClusterState :=
  ⟨[⟨1, .gutenberg, some 101, some edAbcd, true, false, false, true, some 30⟩,
    ⟨2, .gutenberg, some 102, some edEfgh, true, false, false, true,
      some 31⟩], 32⟩

/-- Closed witness for `mergeInto_invalid`: Works 30 ("abcd") and 31
("efgh") cannot be merged and the state is untouched. -/
theorem mergeInto_invalid_witness :
    (∃ p ∈ members mergeExampleState 30, ∃ q ∈ members mergeExampleState 31,
      poolKey p ≠ poolKey q) ∧
    (∃ er, mergeInto mergeExampleState 30 31 = .error er ∧
      (er = .keyMismatch (workPwids mergeExampleState 30)
          (workPwids mergeExampleState 31) ∨
       er = .groupingViolation 30 31)) ∧
    applyMergeInto mergeExampleState 30 31 = mergeExampleState := by
  refine ⟨by decide, ?_⟩
  exact mergeInto_invalid mergeExampleState 30 31 (Or.inl (by decide))

theorem engineRun_cw_key (f : Nat) (st : ClusterState) (pid : Nat)
    (force : Bool) (p : Pool) (e : Edition) (k : PWKey)
    (hfp : findPool st pid = some p) (hid : p.identifier.isSome = true)
    (hpe : p.presentationEdition = some e)
    (hk : permanentWorkKey force e = some k) :
    engineRun (f + 1) (.cw st pid force) =
      match engineRun f (.rel (setPoolKey st pid k)
          (conflictIds (setPoolKey st pid k) p pid k e.medium)) with
      | .error er => .error er
      | .ok (st2, _, _) =>
        if p.openAccess then
          match engineRun f (.oak st2 k e.medium) with
          | .error er => .error er
          | .ok (st3, some w, created) => .ok (st3, some w, created)
          | .ok (st3, none, _) =>
            .ok (attachPool { st3 with nextWorkId := st3.nextWorkId + 1 }
              pid st3.nextWorkId, some st3.nextWorkId, true)
        else
          match p.workId with
          | some w => .ok (st2, some w, false)
          | none =>
            .ok (attachPool { st2 with nextWorkId := st2.nextWorkId + 1 }
              pid st2.nextWorkId, some st2.nextWorkId, true) := by
  cases hval : p.identifier with
  | none => rw [hval] at hid; cases hid
  | some i =>
    conv =>
      left
      rw [engineRun]
    simp only [hfp, hval, hpe, hk]

theorem engineRun_rel_cons (f : Nat) (st : ClusterState) (q : Nat)
    (rest : List Nat) :
    engineRun (f + 1) (.rel st (q :: rest)) =
      match engineRun f (.cw (detachPool st q) q false) with
      | .error er => .error er
      | .ok (st2, _, _) => engineRun f (.rel st2 rest) := by
  conv =>
    left
    rw [engineRun]

theorem engineRun_mke_succ (f : Nat) (st : ClusterState) (w : Nat)
    (k : PWKey) (m : Medium) :
    engineRun (f + 1) (.mke st w k m)
      = engineRun f (.rel st (foreignIds st w k m)) := by
  conv =>
    left
    rw [engineRun]

theorem engineRun_exc_cons (f : Nat) (st : ClusterState) (w : Nat)
    (rest : List Nat) (k : PWKey) (m : Medium) :
    engineRun (f + 1) (.exc st (w :: rest) k m) =
      match engineRun f (.mke st w k m) with
      | .error er => .error er
      | .ok (st2, _, _) => engineRun f (.exc st2 rest k m) := by
  conv =>
    left
    rw [engineRun]

theorem engineRun_oak_works (f : Nat) (st : ClusterState) (k : PWKey)
    (m : Medium) (w0 : Nat) (ws : List Nat)
    (hne : (candidatePools st k m).isEmpty = false)
    (hcw : candidateWorks st k m = w0 :: ws) :
    engineRun (f + 1) (.oak st k m) =
      match engineRun f (.exc st (w0 :: ws) k m) with
      | .error er => .error er
      | .ok (st1, _, _) =>
        match mergeAll st1 ((w0 :: ws).filter
            (fun w => w != selectTarget st (w0 :: ws)))
            (selectTarget st (w0 :: ws)) with
        | .error er => .error er
        | .ok st2 =>
          if (workPwids st2 (selectTarget st (w0 :: ws))).length > 1 then
            .error (.keyMismatch
              (workPwids st2 (selectTarget st (w0 :: ws))) [some k])
          else
            .ok (attachAll st2 (candidatePids st k m)
              (selectTarget st (w0 :: ws)),
              some (selectTarget st (w0 :: ws)), false) := by
  conv =>
    left
    rw [engineRun]
  simp only [hne, hcw, Bool.false_eq_true, if_false]

/-- Fuel irrelevance: any result of the cluster engine other than fuel
exhaustion is stable under adding fuel — the self-healing pass either
ends in a definite result or runs out of its bounded budget, never
changing its verdict with a bigger budget. -/
theorem engineRun_fuel_succ :
    ∀ (fuel : Nat) (call : EngineCall),
      engineRun fuel call ≠ .error .outOfFuel →
      engineRun (fuel + 1) call = engineRun fuel call := by
  intro fuel
  induction fuel with
  | zero =>
    intro call hne
    cases call with
    | cw st pid force =>
      cases hfp : findPool st pid with
      | none => simp only [engineRun, hfp]
      | some p =>
        cases hid : p.identifier with
        | none => simp only [engineRun, hfp, hid]
        | some i =>
          cases hpe : p.presentationEdition with
          | none => simp only [engineRun, hfp, hid, hpe]
          | some e =>
            cases hk : permanentWorkKey force e with
            | none => simp only [engineRun, hfp, hid, hpe, hk]
            | some k =>
              exfalso
              apply hne
              simp only [engineRun, hfp, hid, hpe, hk]
    | rel st qs =>
      cases qs with
      | nil => rfl
      | cons q rest => exact absurd rfl hne
    | mke st w k m => exact absurd rfl hne
    | exc st ws k m =>
      cases ws with
      | nil => rfl
      | cons w rest => exact absurd rfl hne
    | oak st k m =>
      by_cases hempty : (candidatePools st k m).isEmpty = true
      · simp only [engineRun, hempty, if_true]
      · cases hcw : candidateWorks st k m with
        | nil =>
          simp only [engineRun, hempty, hcw, Bool.false_eq_true, if_false]
        | cons w0 ws =>
          exfalso
          apply hne
          simp only [engineRun, hempty, hcw, Bool.false_eq_true, if_false]
  | succ f ih =>
    intro call hne
    cases call with
    | cw st pid force =>
      cases hfp : findPool st pid with
      | none => simp only [engineRun, hfp]
      | some p =>
        cases hid : p.identifier with
        | none => simp only [engineRun, hfp, hid]
        | some i =>
          cases hpe : p.presentationEdition with
          | none => simp only [engineRun, hfp, hid, hpe]
          | some e =>
            cases hk : permanentWorkKey force e with
            | none => simp only [engineRun, hfp, hid, hpe, hk]
            | some k =>
              have hids : p.identifier.isSome = true := by rw [hid]; rfl
              rw [engineRun_cw_key f st pid force p e k hfp hids hpe hk] at hne
              rw [engineRun_cw_key (f + 1) st pid force p e k hfp hids hpe hk,
                engineRun_cw_key f st pid force p e k hfp hids hpe hk]
              cases hrel : engineRun f (.rel (setPoolKey st pid k)
                  (conflictIds (setPoolKey st pid k) p pid k e.medium)) with
              | error er =>
                simp only [hrel] at hne
                have herr : er ≠ ClusterError.outOfFuel := by
                  intro hcon
                  rw [hcon] at hne
                  exact hne rfl
                have hpre : engineRun f (.rel (setPoolKey st pid k)
                    (conflictIds (setPoolKey st pid k) p pid k e.medium))
                    ≠ Except.error ClusterError.outOfFuel := by
                  rw [hrel]
                  intro hcon
                  injection hcon with h2
                  exact herr h2
                rw [ih _ hpre]
                simp only [hrel]
              | ok r =>
                have hpre : engineRun f (.rel (setPoolKey st pid k)
                    (conflictIds (setPoolKey st pid k) p pid k e.medium))
                    ≠ Except.error ClusterError.outOfFuel := by
                  rw [hrel]
                  intro hcon
                  cases hcon
                rw [ih _ hpre]
                obtain ⟨st2, w2, c2⟩ := r
                simp only [hrel] at hne ⊢
                by_cases hoa : p.openAccess = true
                · simp only [hoa, if_true] at hne ⊢
                  cases hoak : engineRun f (.oak st2 k e.medium) with
                  | error er =>
                    simp only [hoak] at hne
                    have herr : er ≠ ClusterError.outOfFuel := by
                      intro hcon
                      rw [hcon] at hne
                      exact hne rfl
                    have hpre2 : engineRun f (.oak st2 k e.medium)
                        ≠ Except.error ClusterError.outOfFuel := by
                      rw [hoak]
                      intro hcon
                      injection hcon with h2
                      exact herr h2
                    rw [ih _ hpre2]
                    simp only [hoak]
                  | ok r2 =>
                    have hpre2 : engineRun f (.oak st2 k e.medium)
                        ≠ Except.error ClusterError.outOfFuel := by
                      rw [hoak]
                      intro hcon
                      cases hcon
                    rw [ih _ hpre2, hoak]
                · have hoa2 : p.openAccess = false := by
                    cases hval : p.openAccess
                    · rfl
                    · exact absurd hval hoa
                  simp only [hoa2, Bool.false_eq_true, if_false]
    | rel st qs =>
      cases qs with
      | nil => rfl
      | cons q rest =>
        rw [engineRun_rel_cons f st q rest] at hne
        rw [engineRun_rel_cons (f + 1) st q rest,
          engineRun_rel_cons f st q rest]
        cases hcw : engineRun f (.cw (detachPool st q) q false) with
        | error er =>
          simp only [hcw] at hne
          have herr : er ≠ ClusterError.outOfFuel := by
            intro hcon
            rw [hcon] at hne
            exact hne rfl
          have hpre : engineRun f (.cw (detachPool st q) q false)
              ≠ Except.error ClusterError.outOfFuel := by
            rw [hcw]
            intro hcon
            injection hcon with h2
            exact herr h2
          rw [ih _ hpre]
          simp only [hcw]
        | ok r =>
          have hpre : engineRun f (.cw (detachPool st q) q false)
              ≠ Except.error ClusterError.outOfFuel := by
            rw [hcw]
            intro hcon
            cases hcon
          rw [ih _ hpre]
          obtain ⟨st2, w2, c2⟩ := r
          simp only [hcw] at hne ⊢
          exact ih _ hne
    | mke st w k m =>
      rw [engineRun_mke_succ f st w k m] at hne
      rw [engineRun_mke_succ (f + 1) st w k m,
        engineRun_mke_succ f st w k m]
      exact ih _ hne
    | exc st ws k m =>
      cases ws with
      | nil => rfl
      | cons w rest =>
        rw [engineRun_exc_cons f st w rest k m] at hne
        rw [engineRun_exc_cons (f + 1) st w rest k m,
          engineRun_exc_cons f st w rest k m]
        cases hmx : engineRun f (.mke st w k m) with
        | error er =>
          simp only [hmx] at hne
          have herr : er ≠ ClusterError.outOfFuel := by
            intro hcon
            rw [hcon] at hne
            exact hne rfl
          have hpre : engineRun f (.mke st w k m)
              ≠ Except.error ClusterError.outOfFuel := by
            rw [hmx]
            intro hcon
            injection hcon with h2
            exact herr h2
          rw [ih _ hpre]
          simp only [hmx]
        | ok r =>
          have hpre : engineRun f (.mke st w k m)
              ≠ Except.error ClusterError.outOfFuel := by
            rw [hmx]
            intro hcon
            cases hcon
          rw [ih _ hpre]
          obtain ⟨st2, w2, c2⟩ := r
          simp only [hmx] at hne ⊢
          exact ih _ hne
    | oak st k m =>
      by_cases hempty : (candidatePools st k m).isEmpty = true
      · simp only [engineRun, hempty, if_true]
      · have hempty2 : (candidatePools st k m).isEmpty = false := by
          cases hval : (candidatePools st k m).isEmpty
          · rfl
          · exact absurd hval hempty
        cases hcw : candidateWorks st k m with
        | nil =>
          simp only [engineRun, hempty, hcw, Bool.false_eq_true, if_false]
        | cons w0 ws =>
          rw [engineRun_oak_works f st k m w0 ws hempty2 hcw] at hne
          rw [engineRun_oak_works (f + 1) st k m w0 ws hempty2 hcw,
            engineRun_oak_works f st k m w0 ws hempty2 hcw]
          cases hex : engineRun f (.exc st (w0 :: ws) k m) with
          | error er =>
            simp only [hex] at hne
            have herr : er ≠ ClusterError.outOfFuel := by
              intro hcon
              rw [hcon] at hne
              exact hne rfl
            have hpre : engineRun f (.exc st (w0 :: ws) k m)
                ≠ Except.error ClusterError.outOfFuel := by
              rw [hex]
              intro hcon
              injection hcon with h2
              exact herr h2
            rw [ih _ hpre]
            simp only [hex]
          | ok r =>
            have hpre : engineRun f (.exc st (w0 :: ws) k m)
                ≠ Except.error ClusterError.outOfFuel := by
              rw [hex]
              intro hcon
              cases hcon
            rw [ih _ hpre, hex]

/-- Adding any amount of fuel preserves a non-exhaustion verdict of the
engine. -/
theorem engineRun_fuel_mono (fuel extra : Nat) (call : EngineCall)
    (hne : engineRun fuel call ≠ .error .outOfFuel) :
    engineRun (fuel + extra) call = engineRun fuel call := by
  induction extra with
  | zero => rfl
  | succ x ih =>
    rw [show fuel + (x + 1) = fuel + x + 1 by omega,
      engineRun_fuel_succ (fuel + x) call, ih]
    rw [ih]
    exact hne

/-- Two-way cross-contamination: Work 10 ("abcd"'s Work) wrongly holds
an "efgh" pool, and Work 11 ("efgh"'s Work) wrongly holds an "abcd"
pool. -/
def crossState : ClusterState :=
  ⟨[⟨1, .gutenberg, some 101, some edAbcd, true, false, false, true, some 10⟩,
    ⟨2, .gutenberg, some 102, some edEfgh, true, false, false, true, some 10⟩,
    ⟨3, .gutenberg, some 103, some edEfgh, true, false, false, true, some 11⟩,
    ⟨4, .gutenberg, some 104, some edAbcd, true, false, false, true,
      some 11⟩], 12⟩

/-- C9 — On two-way cross-contamination the consolidation pass
(`open_access_for_key` with its self-healing splits and merges)
terminates by raising a diagnosable invalid-state error identifying the
mismatched key sets of the works it refused to merge — and does so at
every fuel budget of at least 20, rather than entering an unbounded
sequence of merge/split retries whose verdict would depend on the
budget. -/
theorem openAccessForKey_cross_contamination (extra : Nat) :
    openAccessForKey (20 + extra) crossState ⟨"abcd", "x", .book⟩ .book
      = .error (.keyMismatch [some ⟨"efgh", "x", .book⟩]
          [some ⟨"abcd", "x", .book⟩]) := by
  have hbase : openAccessForKey 20 crossState ⟨"abcd", "x", .book⟩ .book
      = .error (.keyMismatch [some ⟨"efgh", "x", .book⟩]
          [some ⟨"abcd", "x", .book⟩]) := by rfl
  have hne : openAccessForKey 20 crossState ⟨"abcd", "x", .book⟩ .book
      ≠ .error .outOfFuel := by
    rw [hbase]
    intro hcon
    injection hcon with h2
    cases h2
  rw [show openAccessForKey (20 + extra) crossState ⟨"abcd", "x", .book⟩ .book
    = engineRun (20 + extra)
        (.oak crossState ⟨"abcd", "x", .book⟩ .book) from rfl,
    engineRun_fuel_mono 20 extra _ hne]
  exact hbase

/-! ## Canonical consolidation: `open_access_for_key` contract (C8) and
`calculate_work` idempotence (C4)

The lemmas below analyse one full run of the consolidation engine on a
cluster state whose candidate Works contain, besides properly matching
open-access pools, only *inert* stray pools — pools that the relocation
pass detaches terminally (no identifier, no presentation record, or an
underivable permanent work key). This is the self-healing regime the
spec describes: mismatched pools are split out, the surviving candidate
Works are merged into the best-ranked one, and every matching pool ends
up attached to that canonical Work. -/

/-- Does the pool carry exactly the queried stored key and medium? -/
def keyMatch (k : PWKey) (m : Medium) (p : Pool) : Bool :=
  poolKey p == some k && poolMedium p == some m

/-- The filter `open_access_for_key` uses to collect candidate pools:
open access, with the queried stored key and medium. -/
def cleanFor (k : PWKey) (m : Medium) (p : Pool) : Bool :=
  p.openAccess && poolKey p == some k && poolMedium p == some m

/-- A pool that `calculate_work` detaches terminally without recursing:
no identifier, no presentation record, or no derivable permanent work
key. -/
def inertPool (p : Pool) : Bool :=
  p.identifier.isNone ||
    (match p.presentationEdition with
     | none => true
     | some e => (permanentWorkKey false e).isNone)

/-- Apply a per-pool transformation across the whole cluster. -/
def mapPools (st : ClusterState) (f : Pool → Pool) : ClusterState :=
  { st with pools := st.pools.map f }

/-- Detach every listed pool. -/
def detachAll (st : ClusterState) (qs : List Nat) : ClusterState :=
  qs.foldl detachPool st

/-- The per-pool effect of detaching a list of pool ids. -/
def detachFn (qs : List Nat) (p : Pool) : Pool :=
  if p.pid ∈ qs then { p with workId := none } else p

/-- The per-pool effect of the make-exclusive phase: a pool sitting in
one of the listed Works whose stored key or medium does not match is
detached. -/
def dropForeign (ws : List Nat) (k : PWKey) (m : Medium) (p : Pool) : Pool :=
  match p.workId with
  | some u => if u ∈ ws ∧ keyMatch k m p = false then
      { p with workId := none } else p
  | none => p

/-- The per-pool effect of merging the listed source Works into the
target. -/
def retarget (srcs : List Nat) (tgt : Nat) (p : Pool) : Pool :=
  match p.workId with
  | some u => if u ∈ srcs then { p with workId := some tgt } else p
  | none => p

/-- The per-pool effect of attaching the listed pools to a Work. -/
def attachFn (pids : List Nat) (w : Nat) (p : Pool) : Pool :=
  if p.pid ∈ pids then { p with workId := some w } else p

/-- A pool transformation that can only move a pool between Works,
never touch its bibliographic payload. -/
def workIdOnly (f : Pool → Pool) : Prop :=
  ∀ p, f p = { p with workId := (f p).workId }

theorem clusterState_ext (a b : ClusterState) (h1 : a.pools = b.pools)
    (h2 : a.nextWorkId = b.nextWorkId) : a = b := by
  cases a
  cases b
  cases h1
  cases h2
  rfl

theorem workIdOnly_detachFn (qs : List Nat) : workIdOnly (detachFn qs) := by
  intro p
  unfold detachFn
  split <;> rfl

theorem workIdOnly_dropForeign (ws : List Nat) (k : PWKey) (m : Medium) :
    workIdOnly (dropForeign ws k m) := by
  intro p
  unfold dropForeign
  split
  · split <;> rfl
  · rfl

theorem workIdOnly_retarget (srcs : List Nat) (tgt : Nat) :
    workIdOnly (retarget srcs tgt) := by
  intro p
  unfold retarget
  split
  · split <;> rfl
  · rfl

theorem workIdOnly_attachFn (pids : List Nat) (w : Nat) :
    workIdOnly (attachFn pids w) := by
  intro p
  unfold attachFn
  split <;> rfl

theorem pool_ext (a b : Pool) (h1 : a.pid = b.pid)
    (h2 : a.dataSource = b.dataSource) (h3 : a.identifier = b.identifier)
    (h4 : a.presentationEdition = b.presentationEdition)
    (h5 : a.openAccess = b.openAccess) (h6 : a.suppressed = b.suppressed)
    (h7 : a.superceded = b.superceded)
    (h8 : a.hasOpenAccessDownload = b.hasOpenAccessDownload)
    (h9 : a.workId = b.workId) : a = b := by
  cases a
  cases b
  simp_all

theorem workIdOnly_pid {f : Pool → Pool} (hf : workIdOnly f) (p : Pool) :
    (f p).pid = p.pid := by
  rw [hf p]

theorem workIdOnly_dataSource {f : Pool → Pool} (hf : workIdOnly f)
    (p : Pool) : (f p).dataSource = p.dataSource := by
  rw [hf p]

theorem workIdOnly_identifier {f : Pool → Pool} (hf : workIdOnly f)
    (p : Pool) : (f p).identifier = p.identifier := by
  rw [hf p]

theorem workIdOnly_presEd {f : Pool → Pool} (hf : workIdOnly f)
    (p : Pool) : (f p).presentationEdition = p.presentationEdition := by
  rw [hf p]

theorem workIdOnly_suppressed {f : Pool → Pool} (hf : workIdOnly f)
    (p : Pool) : (f p).suppressed = p.suppressed := by
  rw [hf p]

theorem workIdOnly_superceded {f : Pool → Pool} (hf : workIdOnly f)
    (p : Pool) : (f p).superceded = p.superceded := by
  rw [hf p]

theorem workIdOnly_download {f : Pool → Pool} (hf : workIdOnly f)
    (p : Pool) : (f p).hasOpenAccessDownload = p.hasOpenAccessDownload := by
  rw [hf p]

theorem workIdOnly_openAccess {f : Pool → Pool} (hf : workIdOnly f)
    (p : Pool) : (f p).openAccess = p.openAccess := by
  rw [hf p]

theorem workIdOnly_comp {f g : Pool → Pool} (hf : workIdOnly f)
    (hg : workIdOnly g) : workIdOnly (fun p => g (f p)) := by
  intro p
  show g (f p) = _
  apply pool_ext
  · rw [workIdOnly_pid hg, workIdOnly_pid hf]
  · rw [workIdOnly_dataSource hg, workIdOnly_dataSource hf]
  · rw [workIdOnly_identifier hg, workIdOnly_identifier hf]
  · rw [workIdOnly_presEd hg, workIdOnly_presEd hf]
  · rw [workIdOnly_openAccess hg, workIdOnly_openAccess hf]
  · rw [workIdOnly_suppressed hg, workIdOnly_suppressed hf]
  · rw [workIdOnly_superceded hg, workIdOnly_superceded hf]
  · rw [workIdOnly_download hg, workIdOnly_download hf]
  · rfl

theorem workIdOnly_cleanFor {f : Pool → Pool} (hf : workIdOnly f)
    (k : PWKey) (m : Medium) (p : Pool) :
    cleanFor k m (f p) = cleanFor k m p := by
  rw [hf p]
  rfl

theorem workIdOnly_keyMatch {f : Pool → Pool} (hf : workIdOnly f)
    (k : PWKey) (m : Medium) (p : Pool) :
    keyMatch k m (f p) = keyMatch k m p := by
  rw [hf p]
  rfl

theorem workIdOnly_inert {f : Pool → Pool} (hf : workIdOnly f) (p : Pool) :
    inertPool (f p) = inertPool p := by
  rw [hf p]
  rfl

theorem workIdOnly_poolKey {f : Pool → Pool} (hf : workIdOnly f) (p : Pool) :
    poolKey (f p) = poolKey p := by
  rw [hf p]
  rfl


theorem mapPools_pools (st : ClusterState) (f : Pool → Pool) :
    (mapPools st f).pools = st.pools.map f := rfl

theorem mapPools_nextWorkId (st : ClusterState) (f : Pool → Pool) :
    (mapPools st f).nextWorkId = st.nextWorkId := rfl

theorem mapPools_mapPools (st : ClusterState) (f g : Pool → Pool) :
    mapPools (mapPools st f) g = mapPools st (fun p => g (f p)) := by
  apply clusterState_ext
  · simp [mapPools]
  · rfl

theorem mapPools_congr (st : ClusterState) (f g : Pool → Pool)
    (h : ∀ p ∈ st.pools, f p = g p) : mapPools st f = mapPools st g := by
  apply clusterState_ext
  · exact List.map_congr_left h
  · rfl

theorem mapPools_id_of (st : ClusterState) (f : Pool → Pool)
    (h : ∀ p ∈ st.pools, f p = p) : mapPools st f = st := by
  apply clusterState_ext
  · rw [mapPools_pools, List.map_congr_left h]
    simp
  · rfl

theorem findPool_mapPools {f : Pool → Pool} (hf : workIdOnly f)
    (st : ClusterState) (q : Nat) :
    findPool (mapPools st f) q = (findPool st q).map f := by
  unfold findPool
  rw [mapPools_pools, List.find?_map]
  have hpred : ((fun (p : Pool) => p.pid == q) ∘ f)
      = (fun p => p.pid == q) := by
    funext p
    simp [Function.comp, workIdOnly_pid hf]
  rw [hpred]

theorem candidatePools_mapPools {f : Pool → Pool} (hf : workIdOnly f)
    (st : ClusterState) (k : PWKey) (m : Medium) :
    candidatePools (mapPools st f) k m = (candidatePools st k m).map f := by
  unfold candidatePools
  rw [mapPools_pools, List.filter_map]
  have hpred : ((fun (p : Pool) => p.openAccess && poolKey p == some k
        && poolMedium p == some m) ∘ f)
      = (fun p => p.openAccess && poolKey p == some k
        && poolMedium p == some m) := by
    funext p
    exact workIdOnly_cleanFor hf k m p
  rw [hpred]

theorem candidatePids_mapPools {f : Pool → Pool} (hf : workIdOnly f)
    (st : ClusterState) (k : PWKey) (m : Medium) :
    candidatePids (mapPools st f) k m = candidatePids st k m := by
  unfold candidatePids
  rw [candidatePools_mapPools hf, List.map_map]
  congr 1
  funext p
  exact workIdOnly_pid hf p

theorem pids_mapPools {f : Pool → Pool} (hf : workIdOnly f)
    (st : ClusterState) :
    (mapPools st f).pools.map Pool.pid = st.pools.map Pool.pid := by
  rw [mapPools_pools, List.map_map]
  congr 1
  funext p
  exact workIdOnly_pid hf p

theorem members_mapPools (st : ClusterState) (f : Pool → Pool) (w : Nat) :
    members (mapPools st f) w =
      (st.pools.filter (fun p => (f p).workId == some w)).map f := by
  unfold members
  rw [mapPools_pools, List.filter_map]
  rfl

/-- With cluster-wide distinct pool ids, looking a pool up by its id
returns that pool. -/
theorem findPool_eq_of_nodup (st : ClusterState)
    (hnd : (st.pools.map Pool.pid).Nodup) (p : Pool) (hp : p ∈ st.pools) :
    findPool st p.pid = some p := by
  unfold findPool
  have hsome : (st.pools.find? (fun q => q.pid == p.pid)).isSome := by
    rw [List.find?_isSome]
    exact ⟨p, hp, by simp⟩
  cases hq : st.pools.find? (fun q => q.pid == p.pid) with
  | none => rw [hq] at hsome; cases hsome
  | some q =>
    have hmem : q ∈ st.pools := List.mem_of_find?_eq_some hq
    have hpid : q.pid = p.pid := by
      have := List.find?_some hq
      simpa using this
    have := List.inj_on_of_nodup_map hnd hmem hp hpid
    rw [this]

/-- A pool failing the candidate filter never shares an id with a
candidate pool (given cluster-wide distinct ids). -/
theorem pid_not_candidate (st : ClusterState)
    (hnd : (st.pools.map Pool.pid).Nodup) (k : PWKey) (m : Medium)
    (q : Pool) (hq : q ∈ st.pools) (hclean : cleanFor k m q = false) :
    q.pid ∉ candidatePids st k m := by
  intro hmem
  unfold candidatePids at hmem
  obtain ⟨c, hc, hcq⟩ := List.mem_map.mp hmem
  have hcmem : c ∈ st.pools := List.mem_of_mem_filter hc
  have hcclean : cleanFor k m c = true := List.of_mem_filter hc
  have := List.inj_on_of_nodup_map hnd hcmem hq hcq
  rw [this] at hcclean
  rw [hclean] at hcclean
  cases hcclean

/-- A candidate pool's id is listed among the candidate ids. -/
theorem pid_mem_candidate (st : ClusterState) (k : PWKey) (m : Medium)
    (q : Pool) (hq : q ∈ st.pools) (hclean : cleanFor k m q = true) :
    q.pid ∈ candidatePids st k m := by
  unfold candidatePids
  exact List.mem_map_of_mem _ (List.mem_filter.mpr ⟨hq, hclean⟩)

/-- The distinct elements of a constant nonempty list. -/
theorem dedup_const {α : Type} [DecidableEq α] (l : List α) (a : α)
    (hne : l ≠ []) (h : ∀ x ∈ l, x = a) : l.dedup = [a] := by
  have hmem : a ∈ l.dedup := by
    rw [List.mem_dedup]
    cases l with
    | nil => exact absurd rfl hne
    | cons x t => rw [← h x (by simp)]; simp
  have hall : ∀ x ∈ l.dedup, x = a := by
    intro x hx
    exact h x (List.mem_dedup.mp hx)
  have hnd : l.dedup.Nodup := List.nodup_dedup l
  cases hd : l.dedup with
  | nil => rw [hd] at hmem; cases hmem
  | cons x t =>
    rw [hd] at hall hnd
    have hx : x = a := hall x (by simp)
    cases t with
    | nil => rw [hx]
    | cons y t2 =>
      have hy : y = a := hall y (by simp)
      rw [List.nodup_cons] at hnd
      exact absurd (by rw [hx, hy]; simp : x ∈ y :: t2) hnd.1

theorem dedup_len_le_one {α : Type} [DecidableEq α] (l : List α) (a : α)
    (h : ∀ x ∈ l, x = a) : l.dedup.length ≤ 1 := by
  cases hl : l with
  | nil => simp
  | cons x t =>
    rw [← hl, dedup_const l a (by rw [hl]; simp) h]
    simp

theorem detachPool_eq_mapPools (st : ClusterState) (q : Nat) :
    detachPool st q = mapPools st (detachFn [q]) := by
  apply clusterState_ext
  · show st.pools.map _ = st.pools.map _
    apply List.map_congr_left
    intro p _
    unfold detachFn
    by_cases h : p.pid = q
    · rw [if_pos h, if_pos (by simp [h])]
    · rw [if_neg h, if_neg (by simp [h])]
  · rfl

theorem detachAll_eq_mapPools (qs : List Nat) (st : ClusterState) :
    detachAll st qs = mapPools st (detachFn qs) := by
  induction qs generalizing st with
  | nil =>
    show st = mapPools st (detachFn [])
    rw [mapPools_id_of]
    intro p _
    unfold detachFn
    rw [if_neg (by simp)]
  | cons q rest ih =>
    show detachAll (detachPool st q) rest = _
    rw [ih, detachPool_eq_mapPools, mapPools_mapPools]
    apply mapPools_congr
    intro p _
    show detachFn rest (detachFn [q] p) = detachFn (q :: rest) p
    by_cases h1 : p.pid = q
    · rw [show detachFn [q] p = { p with workId := none } from by
        unfold detachFn; rw [if_pos (by simp [h1])]]
      unfold detachFn
      by_cases h2 : p.pid ∈ rest
      · rw [if_pos (by simpa using h2), if_pos (by simp [h1])]
      · rw [if_neg (by simpa using h2), if_pos (by simp [h1])]
    · rw [show detachFn [q] p = p from by
        unfold detachFn; rw [if_neg (by simp [h1])]]
      unfold detachFn
      by_cases h2 : p.pid ∈ rest
      · rw [if_pos h2, if_pos (by simp [h1, h2])]
      · rw [if_neg h2, if_neg (by simp [h1, h2])]

theorem engineRun_rel_nil (f : Nat) (st : ClusterState) :
    engineRun f (.rel st []) = .ok (st, none, false) := by
  cases f <;> rfl

theorem engineRun_exc_nil (f : Nat) (st : ClusterState) (k : PWKey)
    (m : Medium) : engineRun f (.exc st [] k m) = .ok (st, none, false) := by
  cases f <;> rfl

/-- An inert pool — no identifier, no presentation record, or no
derivable key — is detached terminally by `calculate_work`, at any fuel
budget. -/
theorem engineRun_cw_inert (f : Nat) (st : ClusterState) (q : Nat)
    (p : Pool) (hq : findPool st q = some p) (hin : inertPool p = true) :
    engineRun f (.cw st q false) = .ok (detachPool st q, none, false) := by
  unfold inertPool at hin
  cases hid : p.identifier with
  | none =>
    cases f <;> simp only [engineRun, hq, hid]
  | some i =>
    rw [hid] at hin
    simp only [Option.isNone_some, Bool.false_or] at hin
    cases hpe : p.presentationEdition with
    | none =>
      cases f <;> simp only [engineRun, hq, hid, hpe]
    | some e =>
      rw [hpe] at hin
      have hin2 : (permanentWorkKey false e).isNone = true := hin
      cases hk : permanentWorkKey false e with
      | none =>
        cases f <;> simp only [engineRun, hq, hid, hpe, hk]
      | some k2 =>
        rw [hk] at hin2
        cases hin2

theorem findPool_pid {st : ClusterState} {q : Nat} {p : Pool}
    (h : findPool st q = some p) : p.pid = q := by
  have := List.find?_some h
  simpa using this

theorem findPool_mem {st : ClusterState} {q : Nat} {p : Pool}
    (h : findPool st q = some p) : p ∈ st.pools :=
  List.mem_of_find?_eq_some h

theorem detachPool_idem (st : ClusterState) (q : Nat) :
    detachPool (detachPool st q) q = detachPool st q := by
  rw [detachPool_eq_mapPools, detachPool_eq_mapPools st q, mapPools_mapPools]
  apply mapPools_congr
  intro p _
  by_cases h : p.pid = q
  · simp [detachFn, h]
  · simp [detachFn, h]

/-- Relocating a list of inert pools detaches each of them in turn. -/
theorem engineRun_rel_inert :
    ∀ (qs : List Nat) (f : Nat) (st : ClusterState),
      (∀ q ∈ qs, ∃ p, findPool st q = some p ∧ inertPool p = true) →
      engineRun (qs.length + f) (.rel st qs)
        = .ok (detachAll st qs, none, false) := by
  intro qs
  induction qs with
  | nil =>
    intro f st _
    exact engineRun_rel_nil _ st
  | cons q rest ih =>
    intro f st hq
    obtain ⟨p, hfind, hin⟩ := hq q (by simp)
    have hpid : p.pid = q := findPool_pid hfind
    have hlen : (q :: rest).length + f = (rest.length + f) + 1 := by
      simp [List.length_cons]
      omega
    rw [hlen, engineRun_rel_cons (rest.length + f) st q rest]
    have hfind2 : findPool (detachPool st q) q
        = some { p with workId := none } := by
      rw [detachPool_eq_mapPools,
        findPool_mapPools (workIdOnly_detachFn [q]), hfind]
      show some (detachFn [q] p) = _
      unfold detachFn
      rw [if_pos (by simp [hpid])]
    rw [engineRun_cw_inert (rest.length + f) (detachPool st q) q
      { p with workId := none } hfind2 (by
        rw [show ({ p with workId := none } : Pool)
          = detachFn [q] p from by unfold detachFn; rw [if_pos (by simp [hpid])]]
        rw [workIdOnly_inert (workIdOnly_detachFn [q])]
        exact hin)]
    rw [detachPool_idem]
    show engineRun (rest.length + f) (.rel (detachPool st q) rest) = _
    have hrest : ∀ q2 ∈ rest, ∃ p2,
        findPool (detachPool st q) q2 = some p2 ∧ inertPool p2 = true := by
      intro q2 hq2
      obtain ⟨p2, hfind3, hin3⟩ := hq q2 (by simp [hq2])
      refine ⟨detachFn [q] p2, ?_, ?_⟩
      · rw [detachPool_eq_mapPools,
          findPool_mapPools (workIdOnly_detachFn [q]), hfind3]
        rfl
      · rw [workIdOnly_inert (workIdOnly_detachFn [q])]
        exact hin3
    rw [ih f (detachPool st q) hrest]
    rfl

/-- Under the healing invariant every foreign pool of a candidate Work
is inert. -/
theorem foreign_inert (st : ClusterState) (w : Nat) (k : PWKey) (m : Medium)
    (hnd : (st.pools.map Pool.pid).Nodup)
    (h2 : ∀ p ∈ members st w, cleanFor k m p = true ∨
      (inertPool p = true ∧ keyMatch k m p = false)) :
    ∀ q ∈ foreignIds st w k m,
      ∃ p, findPool st q = some p ∧ inertPool p = true := by
  intro q hq
  unfold foreignIds at hq
  obtain ⟨p, hp, hpq⟩ := List.mem_map.mp hq
  have hpq2 : p.pid = q := hpq
  have hmem : p ∈ members st w := List.mem_of_mem_filter hp
  have hforeign := List.of_mem_filter hp
  have hkm : keyMatch k m p = false := by
    have h : (!(keyMatch k m p)) = true := hforeign
    simpa using h
  have hpools : p ∈ st.pools := List.mem_of_mem_filter hmem
  refine ⟨p, ?_, ?_⟩
  · rw [← hpq2]
    exact findPool_eq_of_nodup st hnd p hpools
  · cases h2 p hmem with
    | inl hclean =>
      exfalso
      have hcl := hclean
      unfold cleanFor at hcl
      simp only [Bool.and_eq_true] at hcl
      have hkm2 : keyMatch k m p = true := by
        unfold keyMatch
        rw [hcl.1.2, hcl.2]
        rfl
      rw [hkm2] at hkm
      cases hkm
    | inr hi => exact hi.1

/-- `make_exclusive_for_key` on a Work whose non-matching pools are all
inert: each of them is split out and detached. -/
theorem engineRun_mke_clean (f : Nat) (st : ClusterState) (w : Nat)
    (k : PWKey) (m : Medium)
    (hforeign : ∀ q ∈ foreignIds st w k m,
      ∃ p, findPool st q = some p ∧ inertPool p = true) :
    engineRun ((foreignIds st w k m).length + 1 + f) (.mke st w k m)
      = .ok (detachAll st (foreignIds st w k m), none, false) := by
  have hlen : (foreignIds st w k m).length + 1 + f
      = ((foreignIds st w k m).length + f) + 1 := by omega
  rw [hlen, engineRun_mke_succ, engineRun_rel_inert _ f st hforeign]

theorem mem_members {st : ClusterState} {w : Nat} {p : Pool} :
    p ∈ members st w ↔ p ∈ st.pools ∧ p.workId = some w := by
  unfold members
  rw [List.mem_filter]
  simp

theorem mem_foreignIds {st : ClusterState} {w : Nat} {k : PWKey}
    {m : Medium} (hnd : (st.pools.map Pool.pid).Nodup) {p : Pool}
    (hp : p ∈ st.pools) :
    p.pid ∈ foreignIds st w k m ↔
      p.workId = some w ∧ keyMatch k m p = false := by
  constructor
  · intro hmem
    unfold foreignIds at hmem
    obtain ⟨p0, hp0, hpq⟩ := List.mem_map.mp hmem
    have hpq2 : p0.pid = p.pid := hpq
    have hmem0 : p0 ∈ members st w := List.mem_of_mem_filter hp0
    have hfor := List.of_mem_filter hp0
    have hpools0 : p0 ∈ st.pools := List.mem_of_mem_filter hmem0
    have heq : p0 = p := List.inj_on_of_nodup_map hnd hpools0 hp hpq2
    subst heq
    refine ⟨(mem_members.mp hmem0).2, ?_⟩
    have h : (!(keyMatch k m p0)) = true := hfor
    simpa using h
  · intro ⟨hw, hkm⟩
    unfold foreignIds
    apply List.mem_map_of_mem
    apply List.mem_filter.mpr
    refine ⟨mem_members.mpr ⟨hp, hw⟩, ?_⟩
    show (!(keyMatch k m p)) = true
    rw [hkm]
    rfl

/-- Detaching the foreign pools of one Work leaves every other Work's
membership untouched. -/
theorem members_detach_foreign (st : ClusterState) (w w2 : Nat)
    (k : PWKey) (m : Medium) (hnd : (st.pools.map Pool.pid).Nodup)
    (hw2 : w2 ≠ w) :
    members (mapPools st (detachFn (foreignIds st w k m))) w2
      = members st w2 := by
  rw [members_mapPools]
  have hfilter : st.pools.filter
      (fun p => (detachFn (foreignIds st w k m) p).workId == some w2)
      = st.pools.filter (fun p => p.workId == some w2) := by
    apply List.filter_congr
    intro p hp
    by_cases hin : p.pid ∈ foreignIds st w k m
    · obtain ⟨hwp, _⟩ := (mem_foreignIds hnd hp).mp hin
      unfold detachFn
      rw [if_pos hin]
      show (none == some w2) = (p.workId == some w2)
      rw [hwp]
      simp [Ne.symm hw2]
    · unfold detachFn
      rw [if_neg hin]
  rw [hfilter]
  have hid : ∀ p ∈ st.pools.filter (fun p => p.workId == some w2),
      detachFn (foreignIds st w k m) p = p := by
    intro p hp
    have hpools : p ∈ st.pools := List.mem_of_mem_filter hp
    have hwp2 : p.workId = some w2 := by
      have h := List.mem_filter.mp hp
      simpa using h.2
    unfold detachFn
    rw [if_neg]
    intro hin
    obtain ⟨hww, _⟩ := (mem_foreignIds hnd hpools).mp hin
    rw [hww] at hwp2
    exact hw2 (by injection hwp2 with h; rw [h])
  rw [List.map_congr_left hid]
  simp [members]

/-- After the make-exclusive pass over the listed Works, each of them
retains exactly its matching pools. -/
theorem members_dropForeign (st : ClusterState) (ws : List Nat) (u : Nat)
    (k : PWKey) (m : Medium) (hu : u ∈ ws) :
    members (mapPools st (dropForeign ws k m)) u
      = (members st u).filter (fun p => keyMatch k m p) := by
  rw [members_mapPools]
  have hfilter : st.pools.filter
      (fun p => (dropForeign ws k m p).workId == some u)
      = st.pools.filter (fun p => p.workId == some u && keyMatch k m p) := by
    apply List.filter_congr
    intro p _
    unfold dropForeign
    cases hw : p.workId with
    | none =>
      simp only [hw]
      simp
    | some v =>
      simp only [hw]
      by_cases hvw : v ∈ ws ∧ keyMatch k m p = false
      · rw [if_pos hvw]
        show (none == some u) = _
        by_cases hvu : v = u
        · subst hvu
          rw [hvw.2]
          simp
        · simp [hvu, Ne.symm hvu]
      · rw [if_neg hvw]
        show (p.workId == some u) = _
        rw [hw]
        by_cases hvu : v = u
        · subst hvu
          have hkm : keyMatch k m p = true := by
            cases hkmv : keyMatch k m p
            · exact absurd ⟨hu, hkmv⟩ hvw
            · rfl
          rw [hkm]
          simp
        · simp [hvu]
  rw [hfilter]
  have hsplit : st.pools.filter
      (fun p => p.workId == some u && keyMatch k m p)
      = (members st u).filter (fun p => keyMatch k m p) := by
    unfold members
    rw [List.filter_filter]
    apply List.filter_congr
    intro p _
    rw [Bool.and_comm]
  rw [hsplit]
  have hid2 : ∀ p ∈ (members st u).filter (fun p => keyMatch k m p),
      dropForeign ws k m p = p := by
    intro p hp
    have h1 : p ∈ members st u := List.mem_of_mem_filter hp
    have hkm : keyMatch k m p = true := List.of_mem_filter hp
    unfold dropForeign
    cases hw : p.workId with
    | none =>
      simp only [hw]
    | some v =>
      simp only [hw]
      rw [if_neg]
      intro hcon
      rw [hkm] at hcon
      cases hcon.2
  rw [List.map_congr_left hid2]
  simp

/-- The healing pass: folding `make_exclusive_for_key` over a list of
Works whose non-matching member pools are all inert splits out and
detaches exactly those pools, with a budget depending only on their
number. -/
theorem engineRun_exc_heal :
    ∀ (ws : List Nat) (st : ClusterState) (k : PWKey) (m : Medium),
      (st.pools.map Pool.pid).Nodup → ws.Nodup →
      (∀ w ∈ ws, ∀ p ∈ members st w,
        cleanFor k m p = true ∨
          (inertPool p = true ∧ keyMatch k m p = false)) →
      ∃ N, ∀ f, engineRun (N + f) (.exc st ws k m)
        = .ok (mapPools st (dropForeign ws k m), none, false) := by
  intro ws
  induction ws with
  | nil =>
    intro st k m _ _ _
    refine ⟨0, fun f => ?_⟩
    rw [engineRun_exc_nil]
    rw [mapPools_id_of]
    intro p _
    unfold dropForeign
    cases hw : p.workId with
    | none => simp only
    | some v =>
      simp only
      rw [if_neg]
      intro hcon
      cases hcon.1
  | cons w rest ih =>
    intro st k m hnd hwnd h2
    have hwrest : w ∉ rest := (List.nodup_cons.mp hwnd).1
    have hrestnd : rest.Nodup := (List.nodup_cons.mp hwnd).2
    have hfor : ∀ q ∈ foreignIds st w k m,
        ∃ p, findPool st q = some p ∧ inertPool p = true :=
      foreign_inert st w k m hnd (h2 w (by simp))
    have hnd2 : ((mapPools st
        (detachFn (foreignIds st w k m))).pools.map Pool.pid).Nodup := by
      rw [pids_mapPools (workIdOnly_detachFn _)]
      exact hnd
    have hmem2 : ∀ w2 ∈ rest,
        members (mapPools st (detachFn (foreignIds st w k m))) w2
          = members st w2 := by
      intro w2 hw2
      exact members_detach_foreign st w w2 k m hnd
        (fun h => hwrest (h ▸ hw2))
    have h2r : ∀ w2 ∈ rest, ∀ p ∈
        members (mapPools st (detachFn (foreignIds st w k m))) w2,
        cleanFor k m p = true ∨
          (inertPool p = true ∧ keyMatch k m p = false) := by
      intro w2 hw2 p hp
      rw [hmem2 w2 hw2] at hp
      exact h2 w2 (by simp [hw2]) p hp
    obtain ⟨N2, hN2⟩ := ih (mapPools st (detachFn (foreignIds st w k m)))
      k m hnd2 hrestnd h2r
    refine ⟨N2 + (foreignIds st w k m).length + 2, fun f => ?_⟩
    have harith : N2 + (foreignIds st w k m).length + 2 + f
        = (N2 + (foreignIds st w k m).length + 1 + f) + 1 := by omega
    rw [harith, engineRun_exc_cons]
    have harith2 : N2 + (foreignIds st w k m).length + 1 + f
        = (foreignIds st w k m).length + 1 + (N2 + f) := by omega
    rw [harith2, engineRun_mke_clean (N2 + f) st w k m hfor,
      detachAll_eq_mapPools]
    show engineRun ((foreignIds st w k m).length + 1 + (N2 + f))
      (.exc (mapPools st (detachFn (foreignIds st w k m))) rest k m) = _
    have harith3 : (foreignIds st w k m).length + 1 + (N2 + f)
        = N2 + ((foreignIds st w k m).length + 1 + f) := by omega
    rw [harith3, hN2]
    rw [mapPools_mapPools]
    have hpoint : ∀ p ∈ st.pools,
        dropForeign rest k m (detachFn (foreignIds st w k m) p)
          = dropForeign (w :: rest) k m p := by
      intro p hp
      by_cases hpin : p.pid ∈ foreignIds st w k m
      · obtain ⟨hwp, hkmf⟩ := (mem_foreignIds hnd hp).mp hpin
        rw [show detachFn (foreignIds st w k m) p
            = { p with workId := none } from by
          unfold detachFn; rw [if_pos hpin]]
        unfold dropForeign
        simp only [hwp]
        rw [if_pos ⟨by simp, hkmf⟩]
      · rw [show detachFn (foreignIds st w k m) p = p from by
          unfold detachFn; rw [if_neg hpin]]
        unfold dropForeign
        cases hw2 : p.workId with
        | none => simp only
        | some u =>
          simp only
          by_cases huw : u = w
          · subst huw
            have hkmt : keyMatch k m p = true := by
              cases hkmv : keyMatch k m p
              · exact absurd ((mem_foreignIds hnd hp).mpr ⟨hw2, hkmv⟩) hpin
              · rfl
            rw [if_neg (fun hcon => by rw [hkmt] at hcon; cases hcon.2),
              if_neg (fun hcon => by rw [hkmt] at hcon; cases hcon.2)]
          · by_cases hur : u ∈ rest
            · by_cases hkmv : keyMatch k m p = false
              · rw [if_pos ⟨hur, hkmv⟩, if_pos ⟨by simp [hur], hkmv⟩]
              · rw [if_neg (fun hcon => hkmv hcon.2),
                  if_neg (fun hcon => hkmv hcon.2)]
            · rw [if_neg (fun hcon => hur hcon.1),
                if_neg (fun hcon => by
                  rcases List.mem_cons.mp hcon.1 with h | h
                  · exact huw h
                  · exact hur h)]
    rw [mapPools_congr st _ _ hpoint]

/-- Merging a source Work whose pools all carry the key `k` and are
open access into a target of the same shape succeeds and simply moves
the source members across. -/
theorem mergeInto_clean (st : ClusterState) (src tgt : Nat) (k : PWKey)
    (hsrc : ∀ p ∈ members st src,
      p.openAccess = true ∧ poolKey p = some k)
    (htgt : ∀ p ∈ members st tgt,
      p.openAccess = true ∧ poolKey p = some k) :
    mergeInto st src tgt = .ok (mapPools st (retarget [src] tgt)) := by
  have hboth : ∀ p ∈ members st src ++ members st tgt,
      p.openAccess = true ∧ poolKey p = some k := by
    intro p hp
    rcases List.mem_append.mp hp with h | h
    · exact hsrc p h
    · exact htgt p h
  unfold mergeInto
  rw [if_neg, if_neg]
  · congr 1
    apply clusterState_ext
    · show st.pools.map _ = st.pools.map _
      apply List.map_congr_left
      intro p _
      unfold retarget
      cases hw : p.workId with
      | none =>
        simp only [hw]
        rw [if_neg (by simp)]
      | some u =>
        simp only [hw]
        by_cases hu : u = src
        · rw [if_pos (by simp [hu]), if_pos (by simp [hu])]
        · rw [if_neg (by simp [hu]), if_neg (by simp [hu])]
    · rfl
  · intro hcon
    have h2 : ((members st src ++ members st tgt).any
        (fun p => !p.openAccess)) = true := by
      rw [Bool.and_eq_true] at hcon
      exact hcon.2
    rw [List.any_eq_true] at h2
    obtain ⟨p, hp, hpoa⟩ := h2
    rw [(hboth p hp).1] at hpoa
    simp at hpoa
  · intro hcon
    have hall : ∀ x ∈ (members st src ++ members st tgt).map poolKey,
        x = some k := by
      intro x hx
      obtain ⟨p, hp, hpx⟩ := List.mem_map.mp hx
      rw [← hpx]
      exact (hboth p hp).2
    have := dedup_len_le_one _ (some k) hall
    omega

/-- Works other than the sources and the target keep their members
across a merge pass. -/
theorem members_retarget_other (st : ClusterState) (srcs : List Nat)
    (tgt u : Nat) (hu : u ∉ srcs) (hut : u ≠ tgt) :
    members (mapPools st (retarget srcs tgt)) u = members st u := by
  rw [members_mapPools]
  have hfilter : st.pools.filter
      (fun p => (retarget srcs tgt p).workId == some u)
      = st.pools.filter (fun p => p.workId == some u) := by
    apply List.filter_congr
    intro p _
    unfold retarget
    cases hw : p.workId with
    | none => simp [hw]
    | some v =>
      simp only [hw]
      by_cases hv : v ∈ srcs
      · rw [if_pos hv]
        have hvu : v ≠ u := fun h => hu (h ▸ hv)
        show (some tgt == some u) = (some v == some u)
        rw [show ((some tgt : Option Nat) == some u) = false from by
            simp [Ne.symm hut],
          show ((some v : Option Nat) == some u) = false from by
            simp [hvu]]
      · rw [if_neg hv]
        rw [hw]
  rw [hfilter]
  have hid : ∀ p ∈ st.pools.filter (fun p => p.workId == some u),
      retarget srcs tgt p = p := by
    intro p hp
    have hwp : p.workId = some u := by
      have h := List.mem_filter.mp hp
      simpa using h.2
    unfold retarget
    simp only [hwp]
    rw [if_neg (fun h => hu h)]
  rw [List.map_congr_left hid]
  simp [members]

/-- Folding `merge_into` over clean key-`k` source Works moves all
their pools into the target Work. -/
theorem mergeAll_clean :
    ∀ (srcs : List Nat) (st : ClusterState) (tgt : Nat) (k : PWKey),
      srcs.Nodup → tgt ∉ srcs →
      (∀ u ∈ srcs, ∀ p ∈ members st u,
        p.openAccess = true ∧ poolKey p = some k) →
      (∀ p ∈ members st tgt, p.openAccess = true ∧ poolKey p = some k) →
      mergeAll st srcs tgt = .ok (mapPools st (retarget srcs tgt)) := by
  intro srcs
  induction srcs with
  | nil =>
    intro st tgt k _ _ _ _
    show Except.ok st = _
    rw [mapPools_id_of]
    intro p _
    unfold retarget
    cases hw : p.workId with
    | none => simp only
    | some v =>
      simp only
      rw [if_neg (by simp)]
  | cons s rest ih =>
    intro st tgt k hnd htgt hsrc htgtm
    have hsrest : s ∉ rest := (List.nodup_cons.mp hnd).1
    have hndr : rest.Nodup := (List.nodup_cons.mp hnd).2
    have htgts : tgt ≠ s := fun h => htgt (by simp [h])
    have htgtr : tgt ∉ rest := fun h => htgt (by simp [h])
    show (match mergeInto st s tgt with
      | Except.error er => Except.error er
      | Except.ok st2 => mergeAll st2 rest tgt) = _
    rw [mergeInto_clean st s tgt k (hsrc s (by simp)) htgtm]
    show mergeAll (mapPools st (retarget [s] tgt)) rest tgt = _
    have hmemr : ∀ u ∈ rest,
        members (mapPools st (retarget [s] tgt)) u = members st u := by
      intro u hu
      exact members_retarget_other st [s] tgt u
        (by
          intro h
          rw [List.mem_singleton] at h
          exact hsrest (h ▸ hu))
        (fun h => htgtr (h ▸ hu))
    have hsrc2 : ∀ u ∈ rest, ∀ p ∈
        members (mapPools st (retarget [s] tgt)) u,
        p.openAccess = true ∧ poolKey p = some k := by
      intro u hu p hp
      rw [hmemr u hu] at hp
      exact hsrc u (by simp [hu]) p hp
    have htgt2 : ∀ p ∈ members (mapPools st (retarget [s] tgt)) tgt,
        p.openAccess = true ∧ poolKey p = some k := by
      intro p hp
      rw [members_mapPools] at hp
      obtain ⟨q, hq, hqp⟩ := List.mem_map.mp hp
      have hqpools : q ∈ st.pools := List.mem_of_mem_filter hq
      have hqw : (retarget [s] tgt q).workId = some tgt := by
        have h := List.mem_filter.mp hq
        simpa using h.2
      rw [← hqp,
        workIdOnly_openAccess (workIdOnly_retarget [s] tgt),
        workIdOnly_poolKey (workIdOnly_retarget [s] tgt)]
      unfold retarget at hqw
      cases hw : q.workId with
      | none =>
        rw [hw] at hqw
        have hqw2 : q.workId = some tgt := hqw
        rw [hw] at hqw2
        cases hqw2
      | some v =>
        rw [hw] at hqw
        by_cases hv : v ∈ ([s] : List Nat)
        · have hvs : v = s := by simpa using hv
          exact hsrc s (by simp) q (mem_members.mpr ⟨hqpools, by rw [hw, hvs]⟩)
        · have hqw2 : q.workId = some tgt := by
            have h3 : (if v ∈ ([s] : List Nat) then
                ({ q with workId := some tgt } : Pool) else q).workId
                = some tgt := hqw
            rw [if_neg hv] at h3
            exact h3
          exact htgtm q (mem_members.mpr ⟨hqpools, hqw2⟩)
    rw [ih (mapPools st (retarget [s] tgt)) tgt k hndr htgtr hsrc2 htgt2,
      mapPools_mapPools]
    have hpoint : ∀ p ∈ st.pools,
        retarget rest tgt (retarget [s] tgt p)
          = retarget (s :: rest) tgt p := by
      intro p _
      unfold retarget
      cases hw : p.workId with
      | none => simp only [hw]
      | some v =>
        simp only [hw]
        by_cases hv : v = s
        · rw [if_pos (by simp [hv])]
          simp only
          rw [if_neg htgtr, if_pos (by simp [hv])]
        · rw [if_neg (by simp [hv]), hw]
          simp only
          by_cases hvr : v ∈ rest
          · rw [if_pos hvr, if_pos (by simp [hvr])]
          · rw [if_neg hvr, if_neg (by
              intro hcon
              rcases List.mem_cons.mp hcon with h | h
              · exact hv h
              · exact hvr h)]
    rw [mapPools_congr st _ _ hpoint]

theorem keyMatch_poolKey {k : PWKey} {m : Medium} {p : Pool}
    (h : keyMatch k m p = true) : poolKey p = some k := by
  unfold keyMatch at h
  rw [Bool.and_eq_true] at h
  simpa using h.1

theorem keyMatch_poolMedium {k : PWKey} {m : Medium} {p : Pool}
    (h : keyMatch k m p = true) : poolMedium p = some m := by
  unfold keyMatch at h
  rw [Bool.and_eq_true] at h
  simpa using h.2

theorem cleanFor_openAccess {k : PWKey} {m : Medium} {p : Pool}
    (h : cleanFor k m p = true) : p.openAccess = true := by
  unfold cleanFor at h
  simp only [Bool.and_eq_true] at h
  exact h.1.1

theorem cleanFor_keyMatch {k : PWKey} {m : Medium} {p : Pool}
    (h : cleanFor k m p = true) : keyMatch k m p = true := by
  unfold cleanFor at h
  simp only [Bool.and_eq_true] at h
  unfold keyMatch
  rw [h.1.2, h.2]
  rfl

theorem cleanFor_mk {k : PWKey} {m : Medium} {p : Pool}
    (hoa : p.openAccess = true) (hkm : keyMatch k m p = true) :
    cleanFor k m p = true := by
  unfold keyMatch at hkm
  simp only [Bool.and_eq_true] at hkm
  unfold cleanFor
  rw [hoa, hkm.1, hkm.2]
  rfl

theorem mem_candidatePools {st : ClusterState} {k : PWKey} {m : Medium}
    {p : Pool} :
    p ∈ candidatePools st k m ↔ p ∈ st.pools ∧ cleanFor k m p = true := by
  unfold candidatePools
  rw [List.mem_filter]
  constructor
  · intro ⟨h1, h2⟩
    exact ⟨h1, h2⟩
  · intro ⟨h1, h2⟩
    exact ⟨h1, h2⟩

theorem pickBigger_cases (st : ClusterState) (a w : Nat) :
    pickBigger st a w = a ∨ pickBigger st a w = w := by
  unfold pickBigger
  split
  · right
    rfl
  · left
    rfl

/-- The best-ranked candidate is one of the candidates. -/
theorem selectTarget_mem (st : ClusterState) (w0 : Nat) (ws : List Nat) :
    selectTarget st (w0 :: ws) ∈ w0 :: ws := by
  show ws.foldl (pickBigger st) w0 ∈ w0 :: ws
  have haux : ∀ (l : List Nat) (acc : Nat),
      l.foldl (pickBigger st) acc = acc ∨ l.foldl (pickBigger st) acc ∈ l := by
    intro l
    induction l with
    | nil =>
      intro acc
      left
      rfl
    | cons x t ihl =>
      intro acc
      rcases ihl (pickBigger st acc x) with h | h
      · rcases pickBigger_cases st acc x with h2 | h2
        · left
          show t.foldl (pickBigger st) (pickBigger st acc x) = acc
          rw [h, h2]
        · right
          show t.foldl (pickBigger st) (pickBigger st acc x) ∈ x :: t
          rw [h, h2]
          simp
      · right
        show t.foldl (pickBigger st) (pickBigger st acc x) ∈ x :: t
        simp [h]
  rcases haux ws w0 with h | h
  · rw [h]
    simp
  · simp [h]

theorem attachAll_eq_mapPools (st : ClusterState) (pids : List Nat)
    (w : Nat) : attachAll st pids w = mapPools st (attachFn pids w) := rfl

/-- `open_access_for_key` when candidate pools exist but none has a
Work yet: a fresh canonical Work is created. -/
theorem engineRun_oak_fresh (f : Nat) (st : ClusterState) (k : PWKey)
    (m : Medium) (hne : (candidatePools st k m).isEmpty = false)
    (hcw : candidateWorks st k m = []) :
    engineRun f (.oak st k m)
      = .ok (attachAll { st with nextWorkId := st.nextWorkId + 1 }
          (candidatePids st k m) st.nextWorkId, some st.nextWorkId, true) := by
  cases f <;> simp only [engineRun, hne, hcw, Bool.false_eq_true, if_false]

/-- Every member of a candidate Work surviving the make-exclusive pass
is a clean candidate pool. -/
theorem members_after_exclusive (st : ClusterState) (k : PWKey)
    (m : Medium) (ws : List Nat) (u : Nat) (hu : u ∈ ws)
    (h2 : ∀ p ∈ members st u,
      cleanFor k m p = true ∨
        (inertPool p = true ∧ keyMatch k m p = false)) :
    ∀ p ∈ members (mapPools st (dropForeign ws k m)) u,
      p.openAccess = true ∧ poolKey p = some k := by
  intro p hp
  rw [members_dropForeign st ws u k m hu] at hp
  have h1 : p ∈ members st u := List.mem_of_mem_filter hp
  have hkm : keyMatch k m p = true := List.of_mem_filter hp
  cases h2 p h1 with
  | inl hclean => exact ⟨cleanFor_openAccess hclean, keyMatch_poolKey hkm⟩
  | inr hbad =>
    rw [hbad.2] at hkm
    cases hkm

/-- After merging clean sources into a clean target, the target's
members are still all open-access pools carrying the key. -/
theorem members_retarget_tgt_clean (st : ClusterState) (srcs : List Nat)
    (tgt : Nat) (k : PWKey)
    (hsrc : ∀ u ∈ srcs, ∀ p ∈ members st u,
      p.openAccess = true ∧ poolKey p = some k)
    (htgt : ∀ p ∈ members st tgt,
      p.openAccess = true ∧ poolKey p = some k) :
    ∀ p ∈ members (mapPools st (retarget srcs tgt)) tgt,
      p.openAccess = true ∧ poolKey p = some k := by
  intro p hp
  rw [members_mapPools] at hp
  obtain ⟨q, hq, hqp⟩ := List.mem_map.mp hp
  have hqpools : q ∈ st.pools := List.mem_of_mem_filter hq
  have hqw : (retarget srcs tgt q).workId = some tgt := by
    have h := List.mem_filter.mp hq
    simpa using h.2
  rw [← hqp,
    workIdOnly_openAccess (workIdOnly_retarget srcs tgt),
    workIdOnly_poolKey (workIdOnly_retarget srcs tgt)]
  unfold retarget at hqw
  cases hw : q.workId with
  | none =>
    rw [hw] at hqw
    have hqw2 : q.workId = some tgt := hqw
    rw [hw] at hqw2
    cases hqw2
  | some v =>
    rw [hw] at hqw
    by_cases hv : v ∈ srcs
    · exact hsrc v hv q (mem_members.mpr ⟨hqpools, hw⟩)
    · have hqw2 : q.workId = some tgt := by
        have h3 : (if v ∈ srcs then
            ({ q with workId := some tgt } : Pool) else q).workId
            = some tgt := hqw
        rw [if_neg hv] at h3
        exact h3
      exact htgt q (mem_members.mpr ⟨hqpools, hqw2⟩)

/-- `open_access_for_key` on a healing-ready cluster: with enough fuel
it splits the foreign pools out of each candidate Work, merges the
candidate Works into the best-ranked one (or creates a fresh Work when
no candidate Work exists), and attaches every candidate pool to the
canonical target. -/
theorem engineRun_oak_heal (st : ClusterState) (k : PWKey) (m : Medium)
    (hnd : (st.pools.map Pool.pid).Nodup)
    (hne : (candidatePools st k m).isEmpty = false)
    (h2 : ∀ w ∈ candidateWorks st k m, ∀ p ∈ members st w,
      cleanFor k m p = true ∨
        (inertPool p = true ∧ keyMatch k m p = false)) :
    ∃ N, ∀ f, engineRun (N + f) (.oak st k m)
      = match candidateWorks st k m with
        | [] => .ok (mapPools { st with nextWorkId := st.nextWorkId + 1 }
            (attachFn (candidatePids st k m) st.nextWorkId),
            some st.nextWorkId, true)
        | w0 :: ws => .ok (mapPools st (fun p =>
            attachFn (candidatePids st k m) (selectTarget st (w0 :: ws))
              (retarget ((w0 :: ws).filter
                  (fun w => w != selectTarget st (w0 :: ws)))
                (selectTarget st (w0 :: ws))
                (dropForeign (w0 :: ws) k m p))),
            some (selectTarget st (w0 :: ws)), false) := by
  cases hcwl : candidateWorks st k m with
  | nil =>
    refine ⟨0, fun f => ?_⟩
    rw [engineRun_oak_fresh (0 + f) st k m hne hcwl, attachAll_eq_mapPools]
  | cons w0 ws =>
    have hwsnd : (w0 :: ws).Nodup := by
      rw [← hcwl]
      unfold candidateWorks
      exact List.nodup_dedup _
    have h2l : ∀ w ∈ w0 :: ws, ∀ p ∈ members st w,
        cleanFor k m p = true ∨
          (inertPool p = true ∧ keyMatch k m p = false) := by
      rw [← hcwl]
      exact h2
    obtain ⟨N1, hN1⟩ := engineRun_exc_heal (w0 :: ws) st k m hnd hwsnd h2l
    have htgtmem : selectTarget st (w0 :: ws) ∈ w0 :: ws :=
      selectTarget_mem st w0 ws
    have hsrcnd : ((w0 :: ws).filter
        (fun w => w != selectTarget st (w0 :: ws))).Nodup :=
      hwsnd.filter _
    have htgtnot : selectTarget st (w0 :: ws) ∉ (w0 :: ws).filter
        (fun w => w != selectTarget st (w0 :: ws)) := by
      intro h
      have := List.of_mem_filter h
      simp at this
    have hclean_u : ∀ u ∈ w0 :: ws,
        ∀ p ∈ members (mapPools st (dropForeign (w0 :: ws) k m)) u,
          p.openAccess = true ∧ poolKey p = some k := by
      intro u hu
      exact members_after_exclusive st k m (w0 :: ws) u hu
        (h2l u hu)
    have hmerge := mergeAll_clean
      ((w0 :: ws).filter (fun w => w != selectTarget st (w0 :: ws)))
      (mapPools st (dropForeign (w0 :: ws) k m))
      (selectTarget st (w0 :: ws)) k hsrcnd htgtnot
      (fun u hu => hclean_u u (List.mem_of_mem_filter hu))
      (hclean_u (selectTarget st (w0 :: ws)) htgtmem)
    have hpw : ∀ p ∈ members (mapPools
        (mapPools st (dropForeign (w0 :: ws) k m))
        (retarget ((w0 :: ws).filter
          (fun w => w != selectTarget st (w0 :: ws)))
          (selectTarget st (w0 :: ws))))
        (selectTarget st (w0 :: ws)), poolKey p = some k := by
      intro p hp
      exact (members_retarget_tgt_clean
        (mapPools st (dropForeign (w0 :: ws) k m))
        ((w0 :: ws).filter (fun w => w != selectTarget st (w0 :: ws)))
        (selectTarget st (w0 :: ws)) k
        (fun u hu => hclean_u u (List.mem_of_mem_filter hu))
        (hclean_u (selectTarget st (w0 :: ws)) htgtmem) p hp).2
    have hpwlen : (workPwids (mapPools
        (mapPools st (dropForeign (w0 :: ws) k m))
        (retarget ((w0 :: ws).filter
          (fun w => w != selectTarget st (w0 :: ws)))
          (selectTarget st (w0 :: ws))))
        (selectTarget st (w0 :: ws))).length ≤ 1 := by
      unfold workPwids
      apply dedup_len_le_one _ (some k)
      intro x hx
      obtain ⟨p, hp, hpx⟩ := List.mem_map.mp hx
      rw [← hpx]
      exact hpw p hp
    refine ⟨N1 + 1, fun f => ?_⟩
    have harith : N1 + 1 + f = (N1 + f) + 1 := by omega
    rw [harith, engineRun_oak_works (N1 + f) st k m w0 ws hne hcwl,
      hN1 f]
    show (match mergeAll (mapPools st (dropForeign (w0 :: ws) k m))
        ((w0 :: ws).filter (fun w => w != selectTarget st (w0 :: ws)))
        (selectTarget st (w0 :: ws)) with
      | Except.error er => Except.error er
      | Except.ok st2 =>
        if (workPwids st2 (selectTarget st (w0 :: ws))).length > 1 then
          Except.error (ClusterError.keyMismatch
            (workPwids st2 (selectTarget st (w0 :: ws))) [some k])
        else
          Except.ok (attachAll st2 (candidatePids st k m)
            (selectTarget st (w0 :: ws)),
            some (selectTarget st (w0 :: ws)), false)) = _
    rw [hmerge]
    show (if (workPwids (mapPools
        (mapPools st (dropForeign (w0 :: ws) k m))
        (retarget ((w0 :: ws).filter
          (fun w => w != selectTarget st (w0 :: ws)))
          (selectTarget st (w0 :: ws))))
        (selectTarget st (w0 :: ws))).length > 1 then
        Except.error (ClusterError.keyMismatch
          (workPwids (mapPools
            (mapPools st (dropForeign (w0 :: ws) k m))
            (retarget ((w0 :: ws).filter
              (fun w => w != selectTarget st (w0 :: ws)))
              (selectTarget st (w0 :: ws))))
            (selectTarget st (w0 :: ws))) [some k])
      else
        Except.ok (attachAll (mapPools
          (mapPools st (dropForeign (w0 :: ws) k m))
          (retarget ((w0 :: ws).filter
            (fun w => w != selectTarget st (w0 :: ws)))
            (selectTarget st (w0 :: ws))))
          (candidatePids st k m) (selectTarget st (w0 :: ws)),
          some (selectTarget st (w0 :: ws)), false)) = _
    rw [if_neg (by omega)]
    rw [attachAll_eq_mapPools, mapPools_mapPools, mapPools_mapPools]

theorem workIdOnly_comp3 {f g h : Pool → Pool} (hf : workIdOnly f)
    (hg : workIdOnly g) (hh : workIdOnly h) :
    workIdOnly (fun p => h (g (f p))) := by
  intro p
  show h (g (f p)) = _
  apply pool_ext
  · rw [workIdOnly_pid hh, workIdOnly_pid hg, workIdOnly_pid hf]
  · rw [workIdOnly_dataSource hh, workIdOnly_dataSource hg,
      workIdOnly_dataSource hf]
  · rw [workIdOnly_identifier hh, workIdOnly_identifier hg,
      workIdOnly_identifier hf]
  · rw [workIdOnly_presEd hh, workIdOnly_presEd hg, workIdOnly_presEd hf]
  · rw [workIdOnly_openAccess hh, workIdOnly_openAccess hg,
      workIdOnly_openAccess hf]
  · rw [workIdOnly_suppressed hh, workIdOnly_suppressed hg,
      workIdOnly_suppressed hf]
  · rw [workIdOnly_superceded hh, workIdOnly_superceded hg,
      workIdOnly_superceded hf]
  · rw [workIdOnly_download hh, workIdOnly_download hg,
      workIdOnly_download hf]
  · rfl

/-- With distinct ids, a pool whose id is listed among the candidate
ids is itself a candidate. -/
theorem clean_of_pid_candidate (st : ClusterState)
    (hnd : (st.pools.map Pool.pid).Nodup) (k : PWKey) (m : Medium)
    (q : Pool) (hq : q ∈ st.pools) (hmem : q.pid ∈ candidatePids st k m) :
    cleanFor k m q = true := by
  unfold candidatePids at hmem
  obtain ⟨c, hc, hcq⟩ := List.mem_map.mp hmem
  have hcmem : c ∈ st.pools := List.mem_of_mem_filter hc
  have hcclean : cleanFor k m c = true := List.of_mem_filter hc
  have := List.inj_on_of_nodup_map hnd hcmem hq hcq
  rw [← this]
  exact hcclean

theorem pool_update_self {p : Pool} {w : Option Nat} (h : p.workId = w) :
    ({ p with workId := w } : Pool) = p := by
  apply pool_ext <;> first
    | rfl
    | (show w = p.workId; rw [h])

/-- The consolidation pass attaches each candidate pool to the target. -/
theorem healFn_clean (st : ClusterState) (k : PWKey) (m : Medium)
    (cand : List Nat) (tgt : Nat) (q : Pool) (hq : q ∈ st.pools)
    (hclean : cleanFor k m q = true) :
    attachFn (candidatePids st k m) tgt
      (retarget (cand.filter (fun w => w != tgt)) tgt
        (dropForeign cand k m q))
      = { q with workId := some tgt } := by
  have hpid : q.pid ∈ candidatePids st k m :=
    pid_mem_candidate st k m q hq hclean
  have hcmp := workIdOnly_comp (workIdOnly_dropForeign cand k m)
    (workIdOnly_retarget (cand.filter (fun w => w != tgt)) tgt)
  unfold attachFn
  rw [if_pos (by
    show (retarget (cand.filter (fun w => w != tgt)) tgt
      (dropForeign cand k m q)).pid ∈ candidatePids st k m
    rw [show (retarget (cand.filter (fun w => w != tgt)) tgt
      (dropForeign cand k m q)).pid = q.pid from workIdOnly_pid hcmp q]
    exact hpid)]
  apply pool_ext
  · exact workIdOnly_pid hcmp q
  · exact workIdOnly_dataSource hcmp q
  · exact workIdOnly_identifier hcmp q
  · exact workIdOnly_presEd hcmp q
  · exact workIdOnly_openAccess hcmp q
  · exact workIdOnly_suppressed hcmp q
  · exact workIdOnly_superceded hcmp q
  · exact workIdOnly_download hcmp q
  · rfl

/-- The consolidation pass detaches each foreign pool sitting in a
candidate Work. -/
theorem healFn_foreign (st : ClusterState) (k : PWKey) (m : Medium)
    (cand : List Nat) (tgt : Nat)
    (hnd : (st.pools.map Pool.pid).Nodup) (q : Pool) (hq : q ∈ st.pools)
    (w : Nat) (hwc : w ∈ cand) (hw : q.workId = some w)
    (hkm : keyMatch k m q = false) :
    attachFn (candidatePids st k m) tgt
      (retarget (cand.filter (fun w => w != tgt)) tgt
        (dropForeign cand k m q))
      = { q with workId := none } := by
  have hclean : cleanFor k m q = false := by
    cases hc : cleanFor k m q
    · rfl
    · rw [cleanFor_keyMatch hc] at hkm
      cases hkm
  have hdrop : dropForeign cand k m q = { q with workId := none } := by
    unfold dropForeign
    simp only [hw]
    rw [if_pos ⟨hwc, hkm⟩]
  rw [hdrop]
  have hret : retarget (cand.filter (fun w => w != tgt)) tgt
      ({ q with workId := none } : Pool) = { q with workId := none } := by
    unfold retarget
    simp only
  rw [hret]
  unfold attachFn
  rw [if_neg (by
    show ({ q with workId := none } : Pool).pid ∉ candidatePids st k m
    exact pid_not_candidate st hnd k m q hq hclean)]

/-- The consolidation pass leaves every unrelated pool untouched. -/
theorem healFn_frame (st : ClusterState) (k : PWKey) (m : Medium)
    (cand : List Nat) (tgt : Nat)
    (hnd : (st.pools.map Pool.pid).Nodup) (q : Pool) (hq : q ∈ st.pools)
    (hclean : cleanFor k m q = false)
    (hout : ∀ u, q.workId = some u → u ∉ cand) :
    attachFn (candidatePids st k m) tgt
      (retarget (cand.filter (fun w => w != tgt)) tgt
        (dropForeign cand k m q))
      = q := by
  have hdrop : dropForeign cand k m q = q := by
    unfold dropForeign
    cases hw : q.workId with
    | none => simp only
    | some u =>
      simp only
      rw [if_neg (fun hcon => hout u hw hcon.1)]
  rw [hdrop]
  have hret : retarget (cand.filter (fun w => w != tgt)) tgt q = q := by
    unfold retarget
    cases hw : q.workId with
    | none => simp only
    | some u =>
      simp only
      rw [if_neg (fun hcon => hout u hw (List.mem_of_mem_filter hcon))]
  rw [hret]
  unfold attachFn
  rw [if_neg (pid_not_candidate st hnd k m q hq hclean)]

/-- A non-candidate pool never ends up in the canonical target Work. -/
theorem healFn_notclean (st : ClusterState) (k : PWKey) (m : Medium)
    (cand : List Nat) (tgt : Nat)
    (hnd : (st.pools.map Pool.pid).Nodup) (htgt : tgt ∈ cand)
    (hheal : ∀ w ∈ cand, ∀ p ∈ members st w,
      cleanFor k m p = true ∨
        (inertPool p = true ∧ keyMatch k m p = false))
    (q : Pool) (hq : q ∈ st.pools) (hclean : cleanFor k m q = false) :
    (attachFn (candidatePids st k m) tgt
      (retarget (cand.filter (fun w => w != tgt)) tgt
        (dropForeign cand k m q))).workId ≠ some tgt := by
  have hatt : attachFn (candidatePids st k m) tgt
      (retarget (cand.filter (fun w => w != tgt)) tgt
        (dropForeign cand k m q))
      = retarget (cand.filter (fun w => w != tgt)) tgt
        (dropForeign cand k m q) := by
    unfold attachFn
    rw [if_neg (by
      rw [workIdOnly_pid (workIdOnly_comp (workIdOnly_dropForeign cand k m)
        (workIdOnly_retarget (cand.filter (fun w => w != tgt)) tgt)) q]
      exact pid_not_candidate st hnd k m q hq hclean)]
  rw [hatt]
  have hkmclean : ∀ u, q.workId = some u → u ∈ cand →
      keyMatch k m q = true → False := by
    intro u hw hu hkm
    have hmem : q ∈ members st u := mem_members.mpr ⟨hq, hw⟩
    cases hheal u hu q hmem with
    | inl hc => rw [hc] at hclean; cases hclean
    | inr hbad => rw [hbad.2] at hkm; cases hkm
  cases hw : q.workId with
  | none =>
    have hdrop : dropForeign cand k m q = q := by
      unfold dropForeign
      simp only [hw]
    rw [hdrop]
    have hret : retarget (cand.filter (fun w => w != tgt)) tgt q = q := by
      unfold retarget
      simp only [hw]
    rw [hret, hw]
    simp
  | some u =>
    by_cases hdropc : u ∈ cand ∧ keyMatch k m q = false
    · have hdrop : dropForeign cand k m q = { q with workId := none } := by
        unfold dropForeign
        simp only [hw]
        rw [if_pos hdropc]
      rw [hdrop]
      have hret : retarget (cand.filter (fun w => w != tgt)) tgt
          ({ q with workId := none } : Pool)
          = { q with workId := none } := by
        unfold retarget
        simp only
      rw [hret]
      simp
    · have hdrop : dropForeign cand k m q = q := by
        unfold dropForeign
        simp only [hw]
        rw [if_neg hdropc]
      rw [hdrop]
      by_cases hu : u ∈ cand.filter (fun w => w != tgt)
      · exfalso
        have huc : u ∈ cand := List.mem_of_mem_filter hu
        have hkm : keyMatch k m q = true := by
          cases hk : keyMatch k m q
          · exact absurd ⟨huc, hk⟩ hdropc
          · rfl
        exact hkmclean u hw huc hkm
      · have hret : retarget (cand.filter (fun w => w != tgt)) tgt q
            = q := by
          unfold retarget
          simp only [hw]
          rw [if_neg hu]
        rw [hret, hw]
        intro hcon
        have hut : u = tgt := by injection hcon
        have hkm : keyMatch k m q = true := by
          cases hk : keyMatch k m q
          · exact absurd ⟨hut ▸ htgt, hk⟩ hdropc
          · rfl
        exact hkmclean u hw (hut ▸ htgt) hkm

/-- The full outcome of `open_access_for_key` on a healing-ready
cluster: result value, created flag, target selection, canonicity of
the target's membership, split-out of foreign pools, frame on
unrelated pools, attachment of every candidate pool, and preservation
of the pool id column. -/
theorem oak_outcome (st : ClusterState) (k : PWKey)
    (m : Medium)
    (hnd : (st.pools.map Pool.pid).Nodup)
    (hfresh : ∀ p ∈ st.pools, ∀ u, p.workId = some u → u < st.nextWorkId)
    (hne : (candidatePools st k m).isEmpty = false)
    (hheal : ∀ w ∈ candidateWorks st k m, ∀ p ∈ members st w,
      cleanFor k m p = true ∨
        (inertPool p = true ∧ keyMatch k m p = false)) :
    ∃ N stF tgt created,
      (∀ extra, openAccessForKey (N + extra) st k m
        = .ok (stF, some tgt, created)) ∧
      (created = true ↔ candidateWorks st k m = []) ∧
      (candidateWorks st k m = [] → tgt = st.nextWorkId) ∧
      (∀ w0 ws, candidateWorks st k m = w0 :: ws →
        tgt = selectTarget st (w0 :: ws)) ∧
      (∀ p ∈ stF.pools, cleanFor k m p = true ↔ p.workId = some tgt) ∧
      (∀ w ∈ candidateWorks st k m, ∀ p ∈ members st w,
        keyMatch k m p = false →
        findPool stF p.pid = some { p with workId := none }) ∧
      (∀ p ∈ st.pools, cleanFor k m p = false →
        (∀ u, p.workId = some u → u ∉ candidateWorks st k m) →
        findPool stF p.pid = some p) ∧
      (∀ q ∈ st.pools, cleanFor k m q = true →
        findPool stF q.pid = some { q with workId := some tgt }) ∧
      stF.pools.map Pool.pid = st.pools.map Pool.pid := by
  obtain ⟨N, hN⟩ := engineRun_oak_heal st k m hnd hne hheal
  cases hcw : candidateWorks st k m with
  | nil =>
    refine ⟨N, mapPools { st with nextWorkId := st.nextWorkId + 1 }
      (attachFn (candidatePids st k m) st.nextWorkId),
      st.nextWorkId, true, ?_, ?_, ?_, ?_, ?_, ?_, ?_, ?_, ?_⟩
    · intro extra
      have h := hN extra
      simp only [hcw] at h
      exact h
    · simp
    · intro _
      rfl
    · intro w0 ws hcon
      cases hcon
    · intro p hp
      rw [mapPools_pools] at hp
      obtain ⟨q, hq, hqp⟩ := List.mem_map.mp hp
      have hq2 : q ∈ st.pools := hq
      constructor
      · intro hclean
        have hcleanq : cleanFor k m q = true := by
          rw [← workIdOnly_cleanFor
            (workIdOnly_attachFn (candidatePids st k m) st.nextWorkId) k m q,
            hqp]
          exact hclean
        have hpid : q.pid ∈ candidatePids st k m :=
          pid_mem_candidate st k m q hq2 hcleanq
        rw [← hqp]
        show (attachFn (candidatePids st k m) st.nextWorkId q).workId
          = some st.nextWorkId
        unfold attachFn
        rw [if_pos hpid]
      · intro hw
        by_cases hpid : q.pid ∈ candidatePids st k m
        · have hcleanq := clean_of_pid_candidate st hnd k m q hq2 hpid
          rw [← hqp, workIdOnly_cleanFor
            (workIdOnly_attachFn (candidatePids st k m) st.nextWorkId) k m q]
          exact hcleanq
        · exfalso
          have hqq : attachFn (candidatePids st k m) st.nextWorkId q = q := by
            unfold attachFn
            rw [if_neg hpid]
          rw [← hqp, hqq] at hw
          exact absurd (hfresh q hq2 st.nextWorkId hw) (by omega)
    · intro w hw
      exact absurd hw (List.not_mem_nil w)
    · intro p hp hclean hworks
      have hfp : findPool st p.pid = some p := findPool_eq_of_nodup st hnd p hp
      have hpid : p.pid ∉ candidatePids st k m :=
        pid_not_candidate st hnd k m p hp hclean
      rw [findPool_mapPools
        (workIdOnly_attachFn (candidatePids st k m) st.nextWorkId)]
      show (findPool st p.pid).map _ = some p
      rw [hfp]
      show some (attachFn (candidatePids st k m) st.nextWorkId p) = some p
      unfold attachFn
      rw [if_neg hpid]
    · intro q hq hclean
      have hfp : findPool st q.pid = some q := findPool_eq_of_nodup st hnd q hq
      have hpid : q.pid ∈ candidatePids st k m :=
        pid_mem_candidate st k m q hq hclean
      rw [findPool_mapPools
        (workIdOnly_attachFn (candidatePids st k m) st.nextWorkId)]
      show (findPool st q.pid).map _ = _
      rw [hfp]
      show some (attachFn (candidatePids st k m) st.nextWorkId q) = _
      unfold attachFn
      rw [if_pos hpid]
    · exact pids_mapPools
        (workIdOnly_attachFn (candidatePids st k m) st.nextWorkId)
        { st with nextWorkId := st.nextWorkId + 1 }
  | cons w0 ws =>
    have htgtmem : selectTarget st (w0 :: ws) ∈ w0 :: ws :=
      selectTarget_mem st w0 ws
    have hheal2 : ∀ w ∈ w0 :: ws, ∀ p ∈ members st w,
        cleanFor k m p = true ∨
          (inertPool p = true ∧ keyMatch k m p = false) := by
      rw [hcw] at hheal
      exact hheal
    refine ⟨N, mapPools st (fun p =>
      attachFn (candidatePids st k m) (selectTarget st (w0 :: ws))
        (retarget ((w0 :: ws).filter
            (fun w => w != selectTarget st (w0 :: ws)))
          (selectTarget st (w0 :: ws))
          (dropForeign (w0 :: ws) k m p))),
      selectTarget st (w0 :: ws), false, ?_, ?_, ?_, ?_, ?_, ?_, ?_, ?_, ?_⟩
    · intro extra
      have h := hN extra
      simp only [hcw] at h
      exact h
    · simp
    · intro hcon
      cases hcon
    · intro w0b wsb he
      injection he with h1 h2
      rw [h1, h2]
    · intro p hp
      rw [mapPools_pools] at hp
      obtain ⟨q, hq, hqp⟩ := List.mem_map.mp hp
      have hqp2 : attachFn (candidatePids st k m)
          (selectTarget st (w0 :: ws))
          (retarget ((w0 :: ws).filter
              (fun w => w != selectTarget st (w0 :: ws)))
            (selectTarget st (w0 :: ws))
            (dropForeign (w0 :: ws) k m q)) = p := hqp
      constructor
      · intro hclean
        have hcleanq : cleanFor k m q = true := by
          rw [← workIdOnly_cleanFor (workIdOnly_comp3
            (workIdOnly_dropForeign (w0 :: ws) k m)
            (workIdOnly_retarget ((w0 :: ws).filter
              (fun w => w != selectTarget st (w0 :: ws)))
              (selectTarget st (w0 :: ws)))
            (workIdOnly_attachFn (candidatePids st k m)
              (selectTarget st (w0 :: ws)))) k m q, hqp]
          exact hclean
        rw [← hqp2, healFn_clean st k m (w0 :: ws)
          (selectTarget st (w0 :: ws)) q hq hcleanq]
      · intro hw
        by_cases hcleanq : cleanFor k m q = true
        · rw [← hqp, workIdOnly_cleanFor (workIdOnly_comp3
            (workIdOnly_dropForeign (w0 :: ws) k m)
            (workIdOnly_retarget ((w0 :: ws).filter
              (fun w => w != selectTarget st (w0 :: ws)))
              (selectTarget st (w0 :: ws)))
            (workIdOnly_attachFn (candidatePids st k m)
              (selectTarget st (w0 :: ws)))) k m q]
          exact hcleanq
        · exfalso
          have hcf : cleanFor k m q = false := by
            cases hc : cleanFor k m q
            · rfl
            · exact absurd hc hcleanq
          have := healFn_notclean st k m (w0 :: ws)
            (selectTarget st (w0 :: ws)) hnd htgtmem hheal2 q hq hcf
          rw [hqp2, hw] at this
          exact this rfl
    · intro w hwc p hpm hkm
      have hppools : p ∈ st.pools := List.mem_of_mem_filter hpm
      have hpw : p.workId = some w := (mem_members.mp hpm).2
      rw [findPool_mapPools (workIdOnly_comp3
        (workIdOnly_dropForeign (w0 :: ws) k m)
        (workIdOnly_retarget ((w0 :: ws).filter
          (fun w => w != selectTarget st (w0 :: ws)))
          (selectTarget st (w0 :: ws)))
        (workIdOnly_attachFn (candidatePids st k m)
          (selectTarget st (w0 :: ws)))),
        findPool_eq_of_nodup st hnd p hppools]
      show some (attachFn (candidatePids st k m)
        (selectTarget st (w0 :: ws))
        (retarget ((w0 :: ws).filter
            (fun w => w != selectTarget st (w0 :: ws)))
          (selectTarget st (w0 :: ws))
          (dropForeign (w0 :: ws) k m p))) = _
      rw [healFn_foreign st k m (w0 :: ws) (selectTarget st (w0 :: ws))
        hnd p hppools w hwc hpw hkm]
    · intro p hp hclean hworks
      rw [findPool_mapPools (workIdOnly_comp3
        (workIdOnly_dropForeign (w0 :: ws) k m)
        (workIdOnly_retarget ((w0 :: ws).filter
          (fun w => w != selectTarget st (w0 :: ws)))
          (selectTarget st (w0 :: ws)))
        (workIdOnly_attachFn (candidatePids st k m)
          (selectTarget st (w0 :: ws)))),
        findPool_eq_of_nodup st hnd p hp]
      show some (attachFn (candidatePids st k m)
        (selectTarget st (w0 :: ws))
        (retarget ((w0 :: ws).filter
            (fun w => w != selectTarget st (w0 :: ws)))
          (selectTarget st (w0 :: ws))
          (dropForeign (w0 :: ws) k m p))) = _
      rw [healFn_frame st k m (w0 :: ws) (selectTarget st (w0 :: ws))
        hnd p hp hclean hworks]
    · intro q hq hclean
      rw [findPool_mapPools (workIdOnly_comp3
        (workIdOnly_dropForeign (w0 :: ws) k m)
        (workIdOnly_retarget ((w0 :: ws).filter
          (fun w => w != selectTarget st (w0 :: ws)))
          (selectTarget st (w0 :: ws)))
        (workIdOnly_attachFn (candidatePids st k m)
          (selectTarget st (w0 :: ws)))),
        findPool_eq_of_nodup st hnd q hq]
      show some (attachFn (candidatePids st k m)
        (selectTarget st (w0 :: ws))
        (retarget ((w0 :: ws).filter
            (fun w => w != selectTarget st (w0 :: ws)))
          (selectTarget st (w0 :: ws))
          (dropForeign (w0 :: ws) k m q))) = _
      rw [healFn_clean st k m (w0 :: ws) (selectTarget st (w0 :: ws))
        q hq hclean]
    · exact pids_mapPools (workIdOnly_comp3
        (workIdOnly_dropForeign (w0 :: ws) k m)
        (workIdOnly_retarget ((w0 :: ws).filter
          (fun w => w != selectTarget st (w0 :: ws)))
          (selectTarget st (w0 :: ws)))
        (workIdOnly_attachFn (candidatePids st k m)
          (selectTarget st (w0 :: ws)))) st

/-- C8 — `open_access_for_key(key, medium)` returns the canonical
open-access Work for the pair, creating one exactly when no Work
currently holds candidate pools; when several Works hold open-access
pools with the key, they are merged into the one with the most member
pools (lowest identifier on ties, computed by `selectTarget`), after
first splitting out from each candidate Work every pool whose stored
key or medium does not match; afterwards the candidate pools are
exactly the members of the returned Work, every split-out pool is
detached, every unrelated pool is untouched, and the created flag is
true only for a Work that came into existence during the call. -/
theorem openAccessForKey_contract (st : ClusterState) (k : PWKey)
    (m : Medium)
    (hnd : (st.pools.map Pool.pid).Nodup)
    (hfresh : ∀ p ∈ st.pools, ∀ u, p.workId = some u → u < st.nextWorkId)
    (hne : (candidatePools st k m).isEmpty = false)
    (hheal : ∀ w ∈ candidateWorks st k m, ∀ p ∈ members st w,
      cleanFor k m p = true ∨
        (inertPool p = true ∧ keyMatch k m p = false)) :
    ∃ N stF tgt created,
      (∀ extra, openAccessForKey (N + extra) st k m
        = .ok (stF, some tgt, created)) ∧
      (created = true ↔ candidateWorks st k m = []) ∧
      (candidateWorks st k m = [] → tgt = st.nextWorkId) ∧
      (∀ w0 ws, candidateWorks st k m = w0 :: ws →
        tgt = selectTarget st (w0 :: ws)) ∧
      (∀ p ∈ stF.pools, cleanFor k m p = true ↔ p.workId = some tgt) ∧
      (∀ w ∈ candidateWorks st k m, ∀ p ∈ members st w,
        keyMatch k m p = false →
        findPool stF p.pid = some { p with workId := none }) ∧
      (∀ p ∈ st.pools, cleanFor k m p = false →
        (∀ u, p.workId = some u → u ∉ candidateWorks st k m) →
        findPool stF p.pid = some p) := by
  obtain ⟨N, stF, tgt, created, h1, h2, h3, h4, h5, h6, h7, _, _⟩ :=
    oak_outcome st k m hnd hfresh hne hheal
  exact ⟨N, stF, tgt, created, h1, h2, h3, h4, h5, h6, h7⟩

/-- Two candidate Works for "abcd" (10 with two candidate pools and one
inert stray, 11 with one), a workless candidate pool, and an unrelated
commercial Work 20. -/
def c8State : ClusterState :=
  ⟨[⟨1, .gutenberg, some 101, some edAbcd, true, false, false, true, some 10⟩,
    ⟨2, .gutenberg, some 102, some edAbcd, true, false, false, true, some 10⟩,
    ⟨3, .gutenberg, some 103, some edAbcd, true, false, false, true, some 11⟩,
    ⟨4, .gutenberg, none, none, false, false, false, false, some 10⟩,
    ⟨5, .overdrive, some 105, some edEfgh, false, false, false, false,
      some 20⟩,
    ⟨6, .gutenberg, some 106, some edAbcd, true, false, false, true,
      none⟩], 30⟩

theorem openAccessForKey_contract_witness :
    ∃ N stF tgt created,
      (∀ extra, openAccessForKey (N + extra) c8State
        ⟨"abcd", "x", .book⟩ .book = .ok (stF, some tgt, created)) ∧
      (created = true ↔
        candidateWorks c8State ⟨"abcd", "x", .book⟩ .book = []) ∧
      (candidateWorks c8State ⟨"abcd", "x", .book⟩ .book = [] →
        tgt = c8State.nextWorkId) ∧
      (∀ w0 ws, candidateWorks c8State ⟨"abcd", "x", .book⟩ .book
          = w0 :: ws → tgt = selectTarget c8State (w0 :: ws)) ∧
      (∀ p ∈ stF.pools, cleanFor ⟨"abcd", "x", .book⟩ .book p = true ↔
        p.workId = some tgt) ∧
      (∀ w ∈ candidateWorks c8State ⟨"abcd", "x", .book⟩ .book,
        ∀ p ∈ members c8State w,
        keyMatch ⟨"abcd", "x", .book⟩ .book p = false →
        findPool stF p.pid = some { p with workId := none }) ∧
      (∀ p ∈ c8State.pools,
        cleanFor ⟨"abcd", "x", .book⟩ .book p = false →
        (∀ u, p.workId = some u →
          u ∉ candidateWorks c8State ⟨"abcd", "x", .book⟩ .book) →
        findPool stF p.pid = some p) :=
  openAccessForKey_contract c8State ⟨"abcd", "x", .book⟩ .book
    (by decide)
    (by
      intro p hp u hw
      fin_cases hp <;> simp_all <;> (show _ < 30; omega))
    (by decide)
    (by decide)

/-- For an open-access caller, a co-member conflicts exactly when it is
not a clean candidate pool. -/
theorem conflictsWith_not_clean {p : Pool} (k : PWKey) (m : Medium)
    (q : Pool) (hpoa : p.openAccess = true) :
    conflictsWith p k m q = !cleanFor k m q := by
  unfold conflictsWith cleanFor
  rw [if_pos hpoa, Bool.not_and, Bool.not_and]

/-- Re-deriving the permanent work key ignores the stored key. -/
theorem permanentWorkKey_update (force : Bool) (e : Edition)
    (x : Option PWKey) :
    permanentWorkKey force { e with permanentWorkId := x }
      = permanentWorkKey force e := by
  cases e
  rfl

theorem edition_update_self {e : Edition} {x : Option PWKey}
    (h : e.permanentWorkId = x) :
    ({ e with permanentWorkId := x } : Edition) = e := by
  cases e
  simp_all

theorem isEmpty_false_of_mem {α : Type} {l : List α} {x : α}
    (h : x ∈ l) : l.isEmpty = false := by
  cases l with
  | nil => cases h
  | cons a t => rfl

/-- The per-pool effect of storing a freshly derived key. -/
def setKeyFn (pid : Nat) (k : PWKey) (p : Pool) : Pool :=
  if p.pid = pid then
    (match p.presentationEdition with
     | some e =>
       { p with presentationEdition := some { e with permanentWorkId := some k } }
     | none => p)
  else p

theorem setPoolKey_eq_mapPools (st : ClusterState) (pid : Nat)
    (k : PWKey) : setPoolKey st pid k = mapPools st (setKeyFn pid k) := rfl

theorem setKeyFn_pid (pid : Nat) (k : PWKey) (p : Pool) :
    (setKeyFn pid k p).pid = p.pid := by
  unfold setKeyFn
  split
  · split <;> rfl
  · rfl

theorem setKeyFn_workId (pid : Nat) (k : PWKey) (p : Pool) :
    (setKeyFn pid k p).workId = p.workId := by
  unfold setKeyFn
  split
  · split <;> rfl
  · rfl

theorem setKeyFn_openAccess (pid : Nat) (k : PWKey) (p : Pool) :
    (setKeyFn pid k p).openAccess = p.openAccess := by
  unfold setKeyFn
  split
  · split <;> rfl
  · rfl

theorem setKeyFn_of_ne (pid : Nat) (k : PWKey) (p : Pool)
    (h : p.pid ≠ pid) : setKeyFn pid k p = p := by
  unfold setKeyFn
  rw [if_neg h]

theorem findPool_mapPools_pid {f : Pool → Pool}
    (hf : ∀ p, (f p).pid = p.pid) (st : ClusterState) (q : Nat) :
    findPool (mapPools st f) q = (findPool st q).map f := by
  unfold findPool
  rw [mapPools_pools, List.find?_map]
  have hpred : ((fun (p : Pool) => p.pid == q) ∘ f)
      = (fun p => p.pid == q) := by
    funext p
    simp [Function.comp, hf]
  rw [hpred]

theorem pids_mapPools_pid {f : Pool → Pool}
    (hf : ∀ p, (f p).pid = p.pid) (st : ClusterState) :
    (mapPools st f).pools.map Pool.pid = st.pools.map Pool.pid := by
  rw [mapPools_pools, List.map_map]
  congr 1
  funext p
  exact hf p

/-- Detaching pools only ever shrinks a Work's membership. -/
theorem mem_members_detach {st : ClusterState} {L : List Nat} {w : Nat}
    {q : Pool} (h : q ∈ members (mapPools st (detachFn L)) w) :
    q ∈ members st w := by
  rw [members_mapPools] at h
  obtain ⟨q0, hq0, hq0q⟩ := List.mem_map.mp h
  have hq0pools : q0 ∈ st.pools := List.mem_of_mem_filter hq0
  have hq0w : (detachFn L q0).workId = some w := by
    have h2 := List.mem_filter.mp hq0
    simpa using h2.2
  unfold detachFn at hq0q hq0w
  by_cases hin : q0.pid ∈ L
  · rw [if_pos hin] at hq0w
    cases hq0w
  · rw [if_neg hin] at hq0q hq0w
    rw [← hq0q]
    exact mem_members.mpr ⟨hq0pools, hq0w⟩

theorem pool_pe_self {p : Pool} {x : Option Edition}
    (h : p.presentationEdition = x) :
    ({ p with presentationEdition := x } : Pool) = p := by
  apply pool_ext <;> first
    | rfl
    | (show x = p.presentationEdition; rw [h])

/-- On a settled cluster — the pool carries its derived key, and the
key-`k` candidate pools are exactly the members of Work `tgt` —
`calculate_work` is a no-op returning the same Work, not created. -/
theorem calculateWork_settled (st : ClusterState) (pid : Nat)
    (force : Bool) (p : Pool) (e : Edition) (k : PWKey) (tgt : Nat)
    (hnd : (st.pools.map Pool.pid).Nodup)
    (hfp : findPool st pid = some p)
    (hid : p.identifier.isSome = true)
    (hpe : p.presentationEdition = some e)
    (hk : permanentWorkKey force e = some k)
    (hw : p.workId = some tgt)
    (hcanon : ∀ q ∈ st.pools,
      cleanFor k e.medium q = true ↔ q.workId = some tgt) :
    ∀ f, calculateWork (4 + f) st pid force = .ok (st, some tgt, false) := by
  intro f
  have hppools : p ∈ st.pools := findPool_mem hfp
  have hppid : p.pid = pid := findPool_pid hfp
  have hclean : cleanFor k e.medium p = true := (hcanon p hppools).mpr hw
  have hoa : p.openAccess = true := cleanFor_openAccess hclean
  have hpk : poolKey p = some k :=
    keyMatch_poolKey (cleanFor_keyMatch hclean)
  have hepwid : e.permanentWorkId = some k := by
    unfold poolKey at hpk
    rw [hpe] at hpk
    simpa using hpk
  have hmemclean : ∀ q ∈ members st tgt, cleanFor k e.medium q = true := by
    intro q hq
    exact (hcanon q (mem_members.mp hq).1).mpr (mem_members.mp hq).2
  have hset : setPoolKey st pid k = st := by
    rw [setPoolKey_eq_mapPools]
    apply mapPools_id_of
    intro q hq
    by_cases hqpid : q.pid = pid
    · have hqp : q = p :=
        List.inj_on_of_nodup_map hnd hq hppools (by rw [hqpid, hppid])
      subst hqp
      unfold setKeyFn
      rw [if_pos hqpid]
      simp only [hpe]
      rw [edition_update_self hepwid, pool_pe_self hpe]
    · exact setKeyFn_of_ne pid k q hqpid
  have hconf : conflictIds st p pid k e.medium = [] := by
    unfold conflictIds
    simp only [hw]
    rw [List.filter_eq_nil_iff.mpr]
    · rfl
    · intro q hq
      rw [conflictsWith_not_clean k e.medium q hoa, hmemclean q hq]
      simp
  have hcp : (candidatePools st k e.medium).isEmpty = false :=
    isEmpty_false_of_mem (mem_candidatePools.mpr ⟨hppools, hclean⟩)
  have hcw : candidateWorks st k e.medium = [tgt] := by
    unfold candidateWorks
    apply dedup_const
    · intro hnil
      rw [List.eq_nil_iff_forall_not_mem] at hnil
      exact hnil tgt (List.mem_filterMap.mpr
        ⟨p, mem_candidatePools.mpr ⟨hppools, hclean⟩, hw⟩)
    · intro x hx
      obtain ⟨q, hq, hqx⟩ := List.mem_filterMap.mp hx
      have hqclean : cleanFor k e.medium q = true :=
        (mem_candidatePools.mp hq).2
      have hqw : q.workId = some tgt :=
        (hcanon q (mem_candidatePools.mp hq).1).mp hqclean
      rw [hqw] at hqx
      injection hqx with h2
      rw [← h2]
  have hforeign : foreignIds st tgt k e.medium = [] := by
    unfold foreignIds
    rw [List.filter_eq_nil_iff.mpr]
    · rfl
    · intro q hq
      have : keyMatch k e.medium q = true := cleanFor_keyMatch
        (hmemclean q hq)
      show ¬(!(keyMatch k e.medium q)) = true
      rw [this]
      simp
  have hpwlen : (workPwids st tgt).length ≤ 1 := by
    unfold workPwids
    apply dedup_len_le_one _ (some k)
    intro x hx
    obtain ⟨q, hq, hqx⟩ := List.mem_map.mp hx
    rw [← hqx]
    exact keyMatch_poolKey (cleanFor_keyMatch (hmemclean q hq))
  have hattach : attachAll st (candidatePids st k e.medium) tgt = st := by
    rw [attachAll_eq_mapPools]
    apply mapPools_id_of
    intro q hq
    unfold attachFn
    by_cases hqpid : q.pid ∈ candidatePids st k e.medium
    · rw [if_pos hqpid]
      exact pool_update_self ((hcanon q hq).mp
        (clean_of_pid_candidate st hnd k e.medium q hq hqpid))
    · rw [if_neg hqpid]
  have hsel : selectTarget st [tgt] = tgt := rfl
  have hoak : engineRun (3 + f) (.oak st k e.medium)
      = .ok (st, some tgt, false) := by
    have h3 : 3 + f = (2 + f) + 1 := by omega
    rw [h3, engineRun_oak_works (2 + f) st k e.medium tgt [] hcp hcw]
    have hexc : engineRun (2 + f) (.exc st [tgt] k e.medium)
        = .ok (st, none, false) := by
      have h2 : 2 + f = (1 + f) + 1 := by omega
      rw [h2, engineRun_exc_cons (1 + f) st tgt [] k e.medium]
      have hmke : engineRun (1 + f) (.mke st tgt k e.medium)
          = .ok (st, none, false) := by
        have h1 : 1 + f = f + 1 := by omega
        rw [h1, engineRun_mke_succ f st tgt k e.medium, hforeign,
          engineRun_rel_nil]
      rw [hmke]
      show engineRun (1 + f) (.exc st [] k e.medium) = _
      rw [engineRun_exc_nil]
    rw [hexc]
    show (match mergeAll st ([tgt].filter
        (fun w => w != selectTarget st [tgt])) (selectTarget st [tgt]) with
      | Except.error er => Except.error er
      | Except.ok st2 =>
        if (workPwids st2 (selectTarget st [tgt])).length > 1 then
          Except.error (ClusterError.keyMismatch
            (workPwids st2 (selectTarget st [tgt])) [some k])
        else
          Except.ok (attachAll st2 (candidatePids st k e.medium)
            (selectTarget st [tgt]),
            some (selectTarget st [tgt]), false)) = _
    rw [hsel]
    have hfil : ([tgt].filter (fun w => w != tgt)) = [] := by simp
    rw [hfil]
    show (if (workPwids st tgt).length > 1 then _ else
      Except.ok (attachAll st (candidatePids st k e.medium) tgt,
        some tgt, false)) = _
    rw [if_neg (by omega), hattach]
  show engineRun (4 + f) (.cw st pid force) = _
  have h4 : 4 + f = (3 + f) + 1 := by omega
  rw [h4, engineRun_cw_key (3 + f) st pid force p e k hfp hid hpe hk,
    hset, hconf, engineRun_rel_nil]
  show (if p.openAccess then (match engineRun (3 + f)
      (.oak st k e.medium) with
    | Except.error er => Except.error er
    | Except.ok (st3, some w, created) => Except.ok (st3, some w, created)
    | Except.ok (st3, none, _) =>
      Except.ok (attachPool { st3 with nextWorkId := st3.nextWorkId + 1 }
        pid st3.nextWorkId, some st3.nextWorkId, true))
    else
      (match p.workId with
      | some w => Except.ok (st, some w, false)
      | none =>
        Except.ok (attachPool { st with nextWorkId := st.nextWorkId + 1 }
          pid st.nextWorkId, some st.nextWorkId, true))) = _
  rw [hoa, hoak]
  rfl

/-- The presentation record with a freshly stored permanent work key. -/
def keyedEdition (e : Edition) (k : PWKey) : Edition :=
  { e with permanentWorkId := some k }

/-- The calling pool after `calculate_work` stores its derived key. -/
def keyedPool (p : Pool) (e : Edition) (k : PWKey) : Pool :=
  { p with presentationEdition := some (keyedEdition e k) }

theorem keyedEdition_medium (e : Edition) (k : PWKey) :
    (keyedEdition e k).medium = e.medium := rfl

theorem keyedPool_clean (p : Pool) (e : Edition) (k : PWKey)
    (hoa : p.openAccess = true) :
    cleanFor k e.medium (keyedPool p e k) = true := by
  apply cleanFor_mk
  · exact hoa
  · unfold keyMatch poolKey poolMedium keyedPool keyedEdition
    simp

/-- The open-access case of `calculate_work` idempotence: the first
call consolidates the pool into the canonical open-access Work, after
which a second call is an exact no-op. -/
theorem calculateWork_idempotent_oa (st : ClusterState) (pid : Nat)
    (force : Bool) (p : Pool) (e : Edition) (k : PWKey)
    (hnd : (st.pools.map Pool.pid).Nodup)
    (hfresh : ∀ q ∈ st.pools, ∀ u, q.workId = some u → u < st.nextWorkId)
    (hfp : findPool st pid = some p)
    (hid : p.identifier.isSome = true)
    (hpe : p.presentationEdition = some e)
    (hk : permanentWorkKey force e = some k)
    (hoa : p.openAccess = true)
    (hheal : ∀ w ∈ candidateWorks (setPoolKey st pid k) k e.medium,
      ∀ q ∈ members (setPoolKey st pid k) w,
        cleanFor k e.medium q = true ∨
          (inertPool q = true ∧ keyMatch k e.medium q = false)) :
    ∃ N stF tgt c,
      (∀ extra, calculateWork (N + extra) st pid force
        = .ok (stF, some tgt, c)) ∧
      (∀ extra, calculateWork (4 + extra) stF pid force
        = .ok (stF, some tgt, false)) := by
  have hppid : p.pid = pid := findPool_pid hfp
  have hppools : p ∈ st.pools := findPool_mem hfp
  have hp2eq : setKeyFn pid k p = keyedPool p e k := by
    unfold setKeyFn keyedPool keyedEdition
    rw [if_pos hppid]
    simp only [hpe]
  have hfp2 : findPool (mapPools st (setKeyFn pid k)) pid
      = some (keyedPool p e k) := by
    rw [findPool_mapPools_pid (setKeyFn_pid pid k), hfp]
    show some (setKeyFn pid k p) = _
    rw [hp2eq]
  have hp2clean : cleanFor k e.medium (keyedPool p e k) = true :=
    keyedPool_clean p e k hoa
  have hp2mem : keyedPool p e k ∈ (mapPools st (setKeyFn pid k)).pools := by
    rw [mapPools_pools, ← hp2eq]
    exact List.mem_map_of_mem _ hppools
  have hnd2 : ((mapPools st (setKeyFn pid k)).pools.map Pool.pid).Nodup := by
    rw [pids_mapPools_pid (setKeyFn_pid pid k)]
    exact hnd
  have hheal2 : ∀ w ∈ candidateWorks (mapPools st (setKeyFn pid k))
      k e.medium, ∀ q ∈ members (mapPools st (setKeyFn pid k)) w,
      cleanFor k e.medium q = true ∨
        (inertPool q = true ∧ keyMatch k e.medium q = false) := by
    rw [← setPoolKey_eq_mapPools]
    exact hheal
  have hcidspid : ∀ q ∈ conflictIds (mapPools st (setKeyFn pid k)) p pid
      k e.medium, q ≠ pid := by
    intro q hq
    unfold conflictIds at hq
    cases hw : p.workId with
    | none =>
      rw [hw] at hq
      cases hq
    | some w0 =>
      rw [hw] at hq
      obtain ⟨q0, hq0, hq0q⟩ := List.mem_map.mp hq
      have hpred := List.of_mem_filter hq0
      rw [Bool.and_eq_true] at hpred
      intro hcon
      have h1 : (q0.pid != pid) = true := hpred.1
      have hq0pid : q0.pid = q := hq0q
      rw [hq0pid, hcon] at h1
      simp at h1
  have hcidsinert : ∀ q ∈ conflictIds (mapPools st (setKeyFn pid k)) p pid
      k e.medium, ∃ p3, findPool (mapPools st (setKeyFn pid k)) q = some p3
        ∧ inertPool p3 = true := by
    intro q hq
    unfold conflictIds at hq
    cases hw : p.workId with
    | none =>
      rw [hw] at hq
      cases hq
    | some w0 =>
      rw [hw] at hq
      obtain ⟨q0, hq0, hq0q⟩ := List.mem_map.mp hq
      have hq0mem : q0 ∈ members (mapPools st (setKeyFn pid k)) w0 :=
        List.mem_of_mem_filter hq0
      have hq0pools : q0 ∈ (mapPools st (setKeyFn pid k)).pools :=
        (mem_members.mp hq0mem).1
      have hpred := List.of_mem_filter hq0
      rw [Bool.and_eq_true] at hpred
      have hq0conf : conflictsWith p k e.medium q0 = true := hpred.2
      rw [conflictsWith_not_clean k e.medium q0 hoa] at hq0conf
      have hq0notclean : cleanFor k e.medium q0 = false := by
        cases hc : cleanFor k e.medium q0
        · rfl
        · rw [hc] at hq0conf
          cases hq0conf
      have hkp2w : (keyedPool p e k).workId = some w0 := by
        unfold keyedPool
        show p.workId = some w0
        exact hw
      have hw0cand : w0 ∈ candidateWorks (mapPools st (setKeyFn pid k))
          k e.medium := by
        unfold candidateWorks
        rw [List.mem_dedup]
        exact List.mem_filterMap.mpr ⟨keyedPool p e k,
          mem_candidatePools.mpr ⟨hp2mem, hp2clean⟩, hkp2w⟩
      cases hheal2 w0 hw0cand q0 hq0mem with
      | inl hc =>
        rw [hc] at hq0notclean
        cases hq0notclean
      | inr hbad =>
        refine ⟨q0, ?_, hbad.1⟩
        rw [← hq0q]
        exact findPool_eq_of_nodup _ hnd2 q0 hq0pools
  have hpid_notin : pid ∉ conflictIds (mapPools st (setKeyFn pid k)) p pid
      k e.medium := fun h => hcidspid pid h rfl
  have hp3 : detachFn (conflictIds (mapPools st (setKeyFn pid k)) p pid
      k e.medium) (keyedPool p e k) = keyedPool p e k := by
    unfold detachFn
    rw [if_neg]
    show ¬(keyedPool p e k).pid ∈ _
    unfold keyedPool
    show ¬p.pid ∈ _
    rw [hppid]
    exact hpid_notin
  have hp2mem3 : keyedPool p e k
      ∈ (mapPools (mapPools st (setKeyFn pid k))
        (detachFn (conflictIds (mapPools st (setKeyFn pid k)) p pid
          k e.medium))).pools := by
    rw [mapPools_pools, ← hp3]
    exact List.mem_map_of_mem _ hp2mem
  have hnd3 : ((mapPools (mapPools st (setKeyFn pid k))
      (detachFn (conflictIds (mapPools st (setKeyFn pid k)) p pid
        k e.medium))).pools.map Pool.pid).Nodup := by
    rw [pids_mapPools (workIdOnly_detachFn _)]
    exact hnd2
  have hfresh3 : ∀ q ∈ (mapPools (mapPools st (setKeyFn pid k))
      (detachFn (conflictIds (mapPools st (setKeyFn pid k)) p pid
        k e.medium))).pools, ∀ u, q.workId = some u →
      u < (mapPools (mapPools st (setKeyFn pid k))
        (detachFn (conflictIds (mapPools st (setKeyFn pid k)) p pid
          k e.medium))).nextWorkId := by
    intro q hq u hu
    rw [mapPools_pools] at hq
    obtain ⟨q0, hq0, hq0q⟩ := List.mem_map.mp hq
    rw [mapPools_pools] at hq0
    obtain ⟨q1, hq1, hq1q⟩ := List.mem_map.mp hq0
    show u < st.nextWorkId
    unfold detachFn at hq0q
    by_cases hin : q0.pid ∈ conflictIds (mapPools st (setKeyFn pid k))
        p pid k e.medium
    · rw [if_pos hin] at hq0q
      rw [← hq0q] at hu
      cases hu
    · rw [if_neg hin] at hq0q
      have hq1w : q1.workId = some u := by
        rw [← setKeyFn_workId pid k q1, hq1q, hq0q]
        exact hu
      exact hfresh q1 hq1 u hq1w
  have hne3 : (candidatePools (mapPools (mapPools st (setKeyFn pid k))
      (detachFn (conflictIds (mapPools st (setKeyFn pid k)) p pid
        k e.medium))) k e.medium).isEmpty = false :=
    isEmpty_false_of_mem (mem_candidatePools.mpr ⟨hp2mem3, hp2clean⟩)
  have hheal3 : ∀ w ∈ candidateWorks (mapPools (mapPools st
      (setKeyFn pid k)) (detachFn (conflictIds (mapPools st
        (setKeyFn pid k)) p pid k e.medium))) k e.medium,
      ∀ q ∈ members (mapPools (mapPools st (setKeyFn pid k))
        (detachFn (conflictIds (mapPools st (setKeyFn pid k)) p pid
          k e.medium))) w,
      cleanFor k e.medium q = true ∨
        (inertPool q = true ∧ keyMatch k e.medium q = false) := by
    intro w hw q hq
    have hq2 : q ∈ members (mapPools st (setKeyFn pid k)) w :=
      mem_members_detach hq
    have hw2 : w ∈ candidateWorks (mapPools st (setKeyFn pid k))
        k e.medium := by
      unfold candidateWorks at hw ⊢
      rw [List.mem_dedup] at hw ⊢
      obtain ⟨c, hc, hcw⟩ := List.mem_filterMap.mp hw
      obtain ⟨hcpools, hcclean⟩ := mem_candidatePools.mp hc
      rw [mapPools_pools] at hcpools
      obtain ⟨c0, hc0, hc0c⟩ := List.mem_map.mp hcpools
      have hc0clean : cleanFor k e.medium c0 = true := by
        rw [← workIdOnly_cleanFor (workIdOnly_detachFn _) k e.medium c0,
          hc0c]
        exact hcclean
      have hc0w : c0.workId = some w := by
        unfold detachFn at hc0c
        by_cases hin : c0.pid ∈ conflictIds (mapPools st (setKeyFn pid k))
            p pid k e.medium
        · rw [if_pos hin] at hc0c
          rw [← hc0c] at hcw
          cases hcw
        · rw [if_neg hin] at hc0c
          rw [hc0c]
          exact hcw
      exact List.mem_filterMap.mpr
        ⟨c0, mem_candidatePools.mpr ⟨hc0, hc0clean⟩, hc0w⟩
    exact hheal2 w hw2 q hq2
  obtain ⟨N1, stF, tgt, created, hA, _, _, _, hE, _, _, hH, hI⟩ :=
    oak_outcome (mapPools (mapPools st (setKeyFn pid k))
      (detachFn (conflictIds (mapPools st (setKeyFn pid k)) p pid
        k e.medium))) k e.medium hnd3 hfresh3 hne3 hheal3
  have hfpF : findPool stF pid
      = some { keyedPool p e k with workId := some tgt } := by
    have h := hH (keyedPool p e k) hp2mem3 hp2clean
    have hpid2 : (keyedPool p e k).pid = pid := hppid
    rw [← hpid2]
    exact h
  refine ⟨N1 + (conflictIds (mapPools st (setKeyFn pid k)) p pid
    k e.medium).length + 1, stF, tgt, created, ?_, ?_⟩
  · intro extra
    show engineRun _ (.cw st pid force) = _
    have harith : N1 + (conflictIds (mapPools st (setKeyFn pid k)) p pid
        k e.medium).length + 1 + extra
        = ((conflictIds (mapPools st (setKeyFn pid k)) p pid
          k e.medium).length + (N1 + extra)) + 1 := by omega
    rw [harith, engineRun_cw_key _ st pid force p e k hfp hid hpe hk,
      setPoolKey_eq_mapPools,
      engineRun_rel_inert _ (N1 + extra) _ hcidsinert,
      detachAll_eq_mapPools]
    show (if p.openAccess then (match engineRun
        ((conflictIds (mapPools st (setKeyFn pid k)) p pid
          k e.medium).length + (N1 + extra))
        (.oak (mapPools (mapPools st (setKeyFn pid k))
          (detachFn (conflictIds (mapPools st (setKeyFn pid k)) p pid
            k e.medium))) k e.medium) with
      | Except.error er => Except.error er
      | Except.ok (st3, some w, created) =>
        Except.ok (st3, some w, created)
      | Except.ok (st3, none, _) =>
        Except.ok (attachPool { st3 with nextWorkId := st3.nextWorkId + 1 }
          pid st3.nextWorkId, some st3.nextWorkId, true))
      else (match p.workId with
      | some w => Except.ok (mapPools (mapPools st (setKeyFn pid k))
          (detachFn (conflictIds (mapPools st (setKeyFn pid k)) p pid
            k e.medium)), some w, false)
      | none =>
        Except.ok (attachPool { mapPools (mapPools st (setKeyFn pid k))
            (detachFn (conflictIds (mapPools st (setKeyFn pid k)) p pid
              k e.medium)) with
            nextWorkId := (mapPools (mapPools st (setKeyFn pid k))
              (detachFn (conflictIds (mapPools st (setKeyFn pid k)) p pid
                k e.medium))).nextWorkId + 1 }
          pid (mapPools (mapPools st (setKeyFn pid k))
            (detachFn (conflictIds (mapPools st (setKeyFn pid k)) p pid
              k e.medium))).nextWorkId,
          some (mapPools (mapPools st (setKeyFn pid k))
            (detachFn (conflictIds (mapPools st (setKeyFn pid k)) p pid
              k e.medium))).nextWorkId, true))) = _
    rw [hoa]
    have harith2 : (conflictIds (mapPools st (setKeyFn pid k)) p pid
        k e.medium).length + (N1 + extra)
        = N1 + ((conflictIds (mapPools st (setKeyFn pid k)) p pid
          k e.medium).length + extra) := by omega
    rw [harith2]
    have hoak : engineRun (N1 + ((conflictIds (mapPools st
        (setKeyFn pid k)) p pid k e.medium).length + extra))
        (.oak (mapPools (mapPools st (setKeyFn pid k))
          (detachFn (conflictIds (mapPools st (setKeyFn pid k)) p pid
            k e.medium))) k e.medium)
        = .ok (stF, some tgt, created) :=
      hA ((conflictIds (mapPools st (setKeyFn pid k)) p pid
        k e.medium).length + extra)
    rw [hoak]
    rfl
  · intro extra
    exact calculateWork_settled stF pid force
      { keyedPool p e k with workId := some tgt }
      (keyedEdition e k) k tgt
      (by
        rw [hI, pids_mapPools (workIdOnly_detachFn _),
          pids_mapPools_pid (setKeyFn_pid pid k)]
        exact hnd)
      hfpF
      hid
      rfl
      (by
        unfold keyedEdition
        rw [permanentWorkKey_update force e (some k)]
        exact hk)
      rfl
      (by
        intro q hq
        exact hE q hq)
      extra

/-- A commercial caller conflicts with every co-member: it is clustered
individually. -/
theorem conflictsWith_comm {p : Pool} (k : PWKey) (m : Medium)
    (q : Pool) (hoa : p.openAccess = false) :
    conflictsWith p k m q = true := by
  unfold conflictsWith
  rw [if_neg]
  intro h
  rw [hoa] at h
  cases h

/-- Storing a key the pool already carries changes nothing. -/
theorem setPoolKey_noop (st : ClusterState) (pid : Nat) (k : PWKey)
    (p : Pool) (e : Edition)
    (hnd : (st.pools.map Pool.pid).Nodup)
    (hfp : findPool st pid = some p)
    (hpe : p.presentationEdition = some e)
    (hpwid : e.permanentWorkId = some k) :
    setPoolKey st pid k = st := by
  rw [setPoolKey_eq_mapPools]
  apply mapPools_id_of
  intro q hq
  by_cases hqpid : q.pid = pid
  · have hqp : q = p := List.inj_on_of_nodup_map hnd hq (findPool_mem hfp)
      (by rw [hqpid, findPool_pid hfp])
    subst hqp
    unfold setKeyFn
    rw [if_pos hqpid]
    simp only [hpe]
    rw [edition_update_self hpwid, pool_pe_self hpe]
  · exact setKeyFn_of_ne pid k q hqpid

/-- A pool surviving a detach pass was a member before, and none of the
detached ids is its own. -/
theorem mem_members_detach_pid {st : ClusterState} {L : List Nat}
    {w : Nat} {q : Pool}
    (h : q ∈ members (mapPools st (detachFn L)) w) :
    q ∈ members st w ∧ q.pid ∉ L := by
  rw [members_mapPools] at h
  obtain ⟨q0, hq0, hq0q⟩ := List.mem_map.mp h
  have hq0pools : q0 ∈ st.pools := List.mem_of_mem_filter hq0
  have hq0w : (detachFn L q0).workId = some w := by
    have h2 := List.mem_filter.mp hq0
    simpa using h2.2
  unfold detachFn at hq0q hq0w
  by_cases hin : q0.pid ∈ L
  · rw [if_pos hin] at hq0w
    cases hq0w
  · rw [if_neg hin] at hq0q hq0w
    rw [← hq0q]
    exact ⟨mem_members.mpr ⟨hq0pools, hq0w⟩, hin⟩

/-- The per-pool effect of attaching one pool to a Work. -/
def attachOneFn (pid w : Nat) (p : Pool) : Pool :=
  if p.pid = pid then { p with workId := some w } else p

theorem attachPool_eq_mapPools (st : ClusterState) (pid w : Nat) :
    attachPool st pid w = mapPools st (attachOneFn pid w) := rfl

theorem workIdOnly_attachOne (pid w : Nat) :
    workIdOnly (attachOneFn pid w) := by
  intro p
  unfold attachOneFn
  split <;> rfl

/-- On a settled cluster a commercial pool that already carries its
derived key and sits alone in its Work is left alone by
`calculate_work`: same state, same Work, not created. -/
theorem calculateWork_settled_comm (st : ClusterState) (pid : Nat)
    (force : Bool) (p : Pool) (e : Edition) (k : PWKey) (tgt : Nat)
    (hnd : (st.pools.map Pool.pid).Nodup)
    (hfp : findPool st pid = some p)
    (hid : p.identifier.isSome = true)
    (hpe : p.presentationEdition = some e)
    (hk : permanentWorkKey force e = some k)
    (hoa : p.openAccess = false)
    (hw : p.workId = some tgt)
    (hpwid : e.permanentWorkId = some k)
    (hsolo : ∀ q ∈ members st tgt, q.pid = pid) :
    ∀ f, calculateWork (1 + f) st pid force = .ok (st, some tgt, false) := by
  intro f
  have hset : setPoolKey st pid k = st :=
    setPoolKey_noop st pid k p e hnd hfp hpe hpwid
  have hconf : conflictIds st p pid k e.medium = [] := by
    unfold conflictIds
    simp only [hw]
    rw [List.filter_eq_nil_iff.mpr]
    · rfl
    · intro q hq
      rw [hsolo q hq]
      simp
  show engineRun (1 + f) (.cw st pid force) = _
  have h1 : 1 + f = f + 1 := by omega
  rw [h1, engineRun_cw_key f st pid force p e k hfp hid hpe hk,
    hset, hconf, engineRun_rel_nil]
  show (if p.openAccess then (match engineRun f (.oak st k e.medium) with
    | Except.error er => Except.error er
    | Except.ok (st3, some w, created) => Except.ok (st3, some w, created)
    | Except.ok (st3, none, _) =>
      Except.ok (attachPool { st3 with nextWorkId := st3.nextWorkId + 1 }
        pid st3.nextWorkId, some st3.nextWorkId, true))
    else
      (match p.workId with
      | some w => Except.ok (st, some w, false)
      | none =>
        Except.ok (attachPool { st with nextWorkId := st.nextWorkId + 1 }
          pid st.nextWorkId, some st.nextWorkId, true))) = _
  rw [hoa, hw]
  rfl

/-- Increment the Work counter. -/
def bumpWork (st : ClusterState) : ClusterState :=
  { st with nextWorkId := st.nextWorkId + 1 }

/-- The calling pool with its stored key, attached to Work `w`. -/
def attachedPool (p : Pool) (e : Edition) (k : PWKey) (w : Nat) : Pool :=
  { keyedPool p e k with workId := some w }

/-- The commercial case of `calculate_work` idempotence: a commercial
pool is clustered individually — stray co-members (inert ones) are
split out, the pool keeps its Work (or gets a fresh one), and a second
call is an exact no-op. -/
theorem calculateWork_idempotent_comm (st : ClusterState) (pid : Nat)
    (force : Bool) (p : Pool) (e : Edition) (k : PWKey)
    (hnd : (st.pools.map Pool.pid).Nodup)
    (hfresh : ∀ q ∈ st.pools, ∀ u, q.workId = some u → u < st.nextWorkId)
    (hfp : findPool st pid = some p)
    (hid : p.identifier.isSome = true)
    (hpe : p.presentationEdition = some e)
    (hk : permanentWorkKey force e = some k)
    (hoa : p.openAccess = false)
    (hcomm : ∀ w, p.workId = some w →
      ∀ q ∈ members (setPoolKey st pid k) w, q.pid ≠ pid →
        inertPool q = true) :
    ∃ N stF tgt c,
      (∀ extra, calculateWork (N + extra) st pid force
        = .ok (stF, some tgt, c)) ∧
      (∀ extra, calculateWork (4 + extra) stF pid force
        = .ok (stF, some tgt, false)) := by
  have hppid : p.pid = pid := findPool_pid hfp
  have hppools : p ∈ st.pools := findPool_mem hfp
  have hp2eq : setKeyFn pid k p = keyedPool p e k := by
    unfold setKeyFn keyedPool keyedEdition
    rw [if_pos hppid]
    simp only [hpe]
  have hfp2 : findPool (mapPools st (setKeyFn pid k)) pid
      = some (keyedPool p e k) := by
    rw [findPool_mapPools_pid (setKeyFn_pid pid k), hfp]
    show some (setKeyFn pid k p) = _
    rw [hp2eq]
  have hnd2 : ((mapPools st (setKeyFn pid k)).pools.map Pool.pid).Nodup := by
    rw [pids_mapPools_pid (setKeyFn_pid pid k)]
    exact hnd
  have hcomm2 : ∀ w, p.workId = some w →
      ∀ q ∈ members (mapPools st (setKeyFn pid k)) w, q.pid ≠ pid →
        inertPool q = true := by
    rw [← setPoolKey_eq_mapPools]
    exact hcomm
  have hcidspid : ∀ q ∈ conflictIds (mapPools st (setKeyFn pid k)) p pid
      k e.medium, q ≠ pid := by
    intro q hq
    unfold conflictIds at hq
    cases hw : p.workId with
    | none =>
      rw [hw] at hq
      cases hq
    | some w0 =>
      rw [hw] at hq
      obtain ⟨q0, hq0, hq0q⟩ := List.mem_map.mp hq
      have hpred := List.of_mem_filter hq0
      rw [Bool.and_eq_true] at hpred
      intro hcon
      have h1 : (q0.pid != pid) = true := hpred.1
      have hq0pid : q0.pid = q := hq0q
      rw [hq0pid, hcon] at h1
      simp at h1
  have hcidsinert : ∀ q ∈ conflictIds (mapPools st (setKeyFn pid k)) p pid
      k e.medium, ∃ p3, findPool (mapPools st (setKeyFn pid k)) q = some p3
        ∧ inertPool p3 = true := by
    intro q hq
    unfold conflictIds at hq
    cases hw : p.workId with
    | none =>
      rw [hw] at hq
      cases hq
    | some w0 =>
      rw [hw] at hq
      obtain ⟨q0, hq0, hq0q⟩ := List.mem_map.mp hq
      have hq0mem : q0 ∈ members (mapPools st (setKeyFn pid k)) w0 :=
        List.mem_of_mem_filter hq0
      have hq0pools : q0 ∈ (mapPools st (setKeyFn pid k)).pools :=
        (mem_members.mp hq0mem).1
      have hpred := List.of_mem_filter hq0
      rw [Bool.and_eq_true] at hpred
      have hq0ne : q0.pid ≠ pid := by
        intro hcon
        have h1 : (q0.pid != pid) = true := hpred.1
        rw [hcon] at h1
        simp at h1
      refine ⟨q0, ?_, hcomm2 w0 hw q0 hq0mem hq0ne⟩
      rw [← hq0q]
      exact findPool_eq_of_nodup _ hnd2 q0 hq0pools
  have hpid_notin : pid ∉ conflictIds (mapPools st (setKeyFn pid k)) p pid
      k e.medium := fun h => hcidspid pid h rfl
  have hp3 : detachFn (conflictIds (mapPools st (setKeyFn pid k)) p pid
      k e.medium) (keyedPool p e k) = keyedPool p e k := by
    unfold detachFn
    rw [if_neg]
    show ¬(keyedPool p e k).pid ∈ _
    unfold keyedPool
    show ¬p.pid ∈ _
    rw [hppid]
    exact hpid_notin
  have hfp3 : findPool (mapPools (mapPools st (setKeyFn pid k))
      (detachFn (conflictIds (mapPools st (setKeyFn pid k)) p pid
        k e.medium))) pid = some (keyedPool p e k) := by
    rw [findPool_mapPools (workIdOnly_detachFn _), hfp2]
    show some (detachFn _ (keyedPool p e k)) = _
    rw [hp3]
  have hnd3 : ((mapPools (mapPools st (setKeyFn pid k))
      (detachFn (conflictIds (mapPools st (setKeyFn pid k)) p pid
        k e.medium))).pools.map Pool.pid).Nodup := by
    rw [pids_mapPools (workIdOnly_detachFn _)]
    exact hnd2
  have hfresh3 : ∀ q ∈ (mapPools (mapPools st (setKeyFn pid k))
      (detachFn (conflictIds (mapPools st (setKeyFn pid k)) p pid
        k e.medium))).pools, ∀ u, q.workId = some u →
      u < (mapPools (mapPools st (setKeyFn pid k))
        (detachFn (conflictIds (mapPools st (setKeyFn pid k)) p pid
          k e.medium))).nextWorkId := by
    intro q hq u hu
    rw [mapPools_pools] at hq
    obtain ⟨q0, hq0, hq0q⟩ := List.mem_map.mp hq
    rw [mapPools_pools] at hq0
    obtain ⟨q1, hq1, hq1q⟩ := List.mem_map.mp hq0
    show u < st.nextWorkId
    unfold detachFn at hq0q
    by_cases hin : q0.pid ∈ conflictIds (mapPools st (setKeyFn pid k))
        p pid k e.medium
    · rw [if_pos hin] at hq0q
      rw [← hq0q] at hu
      cases hu
    · rw [if_neg hin] at hq0q
      have hq1w : q1.workId = some u := by
        rw [← setKeyFn_workId pid k q1, hq1q, hq0q]
        exact hu
      exact hfresh q1 hq1 u hq1w
  cases hw : p.workId with
  | some w0 =>
    have hsolo : ∀ q ∈ members (mapPools (mapPools st (setKeyFn pid k))
        (detachFn (conflictIds (mapPools st (setKeyFn pid k)) p pid
          k e.medium))) w0, q.pid = pid := by
      intro q hq
      obtain ⟨hqm2, hqnot⟩ := mem_members_detach_pid hq
      by_contra hne
      apply hqnot
      unfold conflictIds
      simp only [hw]
      apply List.mem_map_of_mem
      apply List.mem_filter.mpr
      refine ⟨hqm2, ?_⟩
      rw [conflictsWith_comm k e.medium q hoa]
      simp [hne]
    refine ⟨(conflictIds (mapPools st (setKeyFn pid k)) p pid
      k e.medium).length + 1, mapPools (mapPools st (setKeyFn pid k))
        (detachFn (conflictIds (mapPools st (setKeyFn pid k)) p pid
          k e.medium)), w0, false, ?_, ?_⟩
    · intro extra
      show engineRun _ (.cw st pid force) = _
      have harith : (conflictIds (mapPools st (setKeyFn pid k)) p pid
          k e.medium).length + 1 + extra
          = ((conflictIds (mapPools st (setKeyFn pid k)) p pid
            k e.medium).length + extra) + 1 := by omega
      rw [harith, engineRun_cw_key _ st pid force p e k hfp hid hpe hk,
        setPoolKey_eq_mapPools,
        engineRun_rel_inert _ extra _ hcidsinert,
        detachAll_eq_mapPools]
      show (if p.openAccess then (match engineRun
          ((conflictIds (mapPools st (setKeyFn pid k)) p pid
            k e.medium).length + extra)
          (.oak (mapPools (mapPools st (setKeyFn pid k))
            (detachFn (conflictIds (mapPools st (setKeyFn pid k)) p pid
              k e.medium))) k e.medium) with
        | Except.error er => Except.error er
        | Except.ok (st3, some w, created) =>
          Except.ok (st3, some w, created)
        | Except.ok (st3, none, _) =>
          Except.ok (attachPool
            { st3 with nextWorkId := st3.nextWorkId + 1 }
            pid st3.nextWorkId, some st3.nextWorkId, true))
        else (match p.workId with
        | some w => Except.ok (mapPools (mapPools st (setKeyFn pid k))
            (detachFn (conflictIds (mapPools st (setKeyFn pid k)) p pid
              k e.medium)), some w, false)
        | none =>
          Except.ok (attachPool (bumpWork (mapPools (mapPools st
              (setKeyFn pid k)) (detachFn (conflictIds (mapPools st
                (setKeyFn pid k)) p pid k e.medium))))
            pid (mapPools (mapPools st (setKeyFn pid k))
              (detachFn (conflictIds (mapPools st (setKeyFn pid k)) p pid
                k e.medium))).nextWorkId,
            some (mapPools (mapPools st (setKeyFn pid k))
              (detachFn (conflictIds (mapPools st (setKeyFn pid k)) p pid
                k e.medium))).nextWorkId, true))) = _
      rw [hoa, hw]
      rfl
    · intro extra
      have h := calculateWork_settled_comm
        (mapPools (mapPools st (setKeyFn pid k))
          (detachFn (conflictIds (mapPools st (setKeyFn pid k)) p pid
            k e.medium)))
        pid force (keyedPool p e k) (keyedEdition e k) k w0
        hnd3 hfp3 hid rfl
        (by
          unfold keyedEdition
          rw [permanentWorkKey_update force e (some k)]
          exact hk)
        hoa hw rfl hsolo (3 + extra)
      rw [show 1 + (3 + extra) = 4 + extra from by omega] at h
      exact h
  | none =>
    have hsoloF : ∀ q ∈ members (mapPools (bumpWork (mapPools (mapPools
        st (setKeyFn pid k)) (detachFn (conflictIds (mapPools st
          (setKeyFn pid k)) p pid k e.medium))))
        (attachOneFn pid (mapPools (mapPools st (setKeyFn pid k))
          (detachFn (conflictIds (mapPools st (setKeyFn pid k)) p pid
            k e.medium))).nextWorkId))
        (mapPools (mapPools st (setKeyFn pid k))
          (detachFn (conflictIds (mapPools st (setKeyFn pid k)) p pid
            k e.medium))).nextWorkId, q.pid = pid := by
      intro q hq
      rw [members_mapPools] at hq
      obtain ⟨q0, hq0, hq0q⟩ := List.mem_map.mp hq
      have hq0pools : q0 ∈ (mapPools (mapPools st (setKeyFn pid k))
          (detachFn (conflictIds (mapPools st (setKeyFn pid k)) p pid
            k e.medium))).pools := List.mem_of_mem_filter hq0
      have hq0w := List.of_mem_filter hq0
      by_cases hq0pid : q0.pid = pid
      · rw [← hq0q, workIdOnly_pid (workIdOnly_attachOne pid _) q0]
        exact hq0pid
      · exfalso
        have hq0id : attachOneFn pid (mapPools (mapPools st
            (setKeyFn pid k)) (detachFn (conflictIds (mapPools st
              (setKeyFn pid k)) p pid k e.medium))).nextWorkId q0
            = q0 := by
          unfold attachOneFn
          rw [if_neg hq0pid]
        rw [hq0id] at hq0w
        have hq0w2 : q0.workId = some (mapPools (mapPools st
            (setKeyFn pid k)) (detachFn (conflictIds (mapPools st
              (setKeyFn pid k)) p pid k e.medium))).nextWorkId := by
          simpa using hq0w
        have := hfresh3 q0 hq0pools _ hq0w2
        omega
    have hfpF : findPool (mapPools (bumpWork (mapPools (mapPools
        st (setKeyFn pid k)) (detachFn (conflictIds (mapPools st
          (setKeyFn pid k)) p pid k e.medium))))
        (attachOneFn pid (mapPools (mapPools st (setKeyFn pid k))
          (detachFn (conflictIds (mapPools st (setKeyFn pid k)) p pid
            k e.medium))).nextWorkId)) pid
        = some (attachedPool p e k (mapPools (mapPools st (setKeyFn pid k))
            (detachFn (conflictIds (mapPools st (setKeyFn pid k)) p pid
              k e.medium))).nextWorkId) := by
      rw [findPool_mapPools (workIdOnly_attachOne pid _)]
      show (findPool (mapPools (mapPools st (setKeyFn pid k))
        (detachFn (conflictIds (mapPools st (setKeyFn pid k)) p pid
          k e.medium))) pid).map _ = _
      rw [hfp3]
      show some (attachOneFn pid _ (keyedPool p e k)) = _
      unfold attachOneFn
      rw [if_pos (show (keyedPool p e k).pid = pid from hppid)]
      rfl
    refine ⟨(conflictIds (mapPools st (setKeyFn pid k)) p pid
      k e.medium).length + 1,
      mapPools (bumpWork (mapPools (mapPools st (setKeyFn pid k))
        (detachFn (conflictIds (mapPools st (setKeyFn pid k)) p pid
          k e.medium))))
        (attachOneFn pid (mapPools (mapPools st (setKeyFn pid k))
          (detachFn (conflictIds (mapPools st (setKeyFn pid k)) p pid
            k e.medium))).nextWorkId),
      (mapPools (mapPools st (setKeyFn pid k))
        (detachFn (conflictIds (mapPools st (setKeyFn pid k)) p pid
          k e.medium))).nextWorkId, true, ?_, ?_⟩
    · intro extra
      show engineRun _ (.cw st pid force) = _
      have harith : (conflictIds (mapPools st (setKeyFn pid k)) p pid
          k e.medium).length + 1 + extra
          = ((conflictIds (mapPools st (setKeyFn pid k)) p pid
            k e.medium).length + extra) + 1 := by omega
      rw [harith, engineRun_cw_key _ st pid force p e k hfp hid hpe hk,
        setPoolKey_eq_mapPools,
        engineRun_rel_inert _ extra _ hcidsinert,
        detachAll_eq_mapPools]
      show (if p.openAccess then (match engineRun
          ((conflictIds (mapPools st (setKeyFn pid k)) p pid
            k e.medium).length + extra)
          (.oak (mapPools (mapPools st (setKeyFn pid k))
            (detachFn (conflictIds (mapPools st (setKeyFn pid k)) p pid
              k e.medium))) k e.medium) with
        | Except.error er => Except.error er
        | Except.ok (st3, some w, created) =>
          Except.ok (st3, some w, created)
        | Except.ok (st3, none, _) =>
          Except.ok (attachPool
            { st3 with nextWorkId := st3.nextWorkId + 1 }
            pid st3.nextWorkId, some st3.nextWorkId, true))
        else (match p.workId with
        | some w => Except.ok (mapPools (mapPools st (setKeyFn pid k))
            (detachFn (conflictIds (mapPools st (setKeyFn pid k)) p pid
              k e.medium)), some w, false)
        | none =>
          Except.ok (attachPool (bumpWork (mapPools (mapPools st
              (setKeyFn pid k)) (detachFn (conflictIds (mapPools st
                (setKeyFn pid k)) p pid k e.medium))))
            pid (mapPools (mapPools st (setKeyFn pid k))
              (detachFn (conflictIds (mapPools st (setKeyFn pid k)) p pid
                k e.medium))).nextWorkId,
            some (mapPools (mapPools st (setKeyFn pid k))
              (detachFn (conflictIds (mapPools st (setKeyFn pid k)) p pid
                k e.medium))).nextWorkId, true))) = _
      rw [hoa, hw]
      rfl
    · intro extra
      have h := calculateWork_settled_comm
        (mapPools (bumpWork (mapPools (mapPools st (setKeyFn pid k))
          (detachFn (conflictIds (mapPools st (setKeyFn pid k)) p pid
            k e.medium))))
          (attachOneFn pid (mapPools (mapPools st (setKeyFn pid k))
            (detachFn (conflictIds (mapPools st (setKeyFn pid k)) p pid
              k e.medium))).nextWorkId))
        pid force
        (attachedPool p e k (mapPools (mapPools st (setKeyFn pid k))
          (detachFn (conflictIds (mapPools st (setKeyFn pid k)) p pid
            k e.medium))).nextWorkId)
        (keyedEdition e k) k
        (mapPools (mapPools st (setKeyFn pid k))
          (detachFn (conflictIds (mapPools st (setKeyFn pid k)) p pid
            k e.medium))).nextWorkId
        (by
          rw [pids_mapPools (workIdOnly_attachOne pid _)]
          exact hnd3)
        hfpF hid rfl
        (by
          unfold keyedEdition
          rw [permanentWorkKey_update force e (some k)]
          exact hk)
        hoa rfl rfl hsoloF (3 + extra)
      rw [show 1 + (3 + extra) = 4 + extra from by omega] at h
      exact h

/-- C4 — `calculate_work` is idempotent for every pool, open access or
commercial: on a well-formed cluster (distinct pool ids, fresh Work
counter, candidate Works containing only matching or inert pools for an
open-access caller, only inert stray co-members for a commercial
caller), a first call on a pool with a derivable key yields some Work;
calling again with the pool and cluster state unchanged returns the
very same state and Work with `created = false`. -/
theorem calculateWork_idempotent (st : ClusterState) (pid : Nat)
    (force : Bool) (p : Pool) (e : Edition) (k : PWKey)
    (hnd : (st.pools.map Pool.pid).Nodup)
    (hfresh : ∀ q ∈ st.pools, ∀ u, q.workId = some u → u < st.nextWorkId)
    (hfp : findPool st pid = some p)
    (hid : p.identifier.isSome = true)
    (hpe : p.presentationEdition = some e)
    (hk : permanentWorkKey force e = some k)
    (hhealOA : p.openAccess = true →
      ∀ w ∈ candidateWorks (setPoolKey st pid k) k e.medium,
        ∀ q ∈ members (setPoolKey st pid k) w,
          cleanFor k e.medium q = true ∨
            (inertPool q = true ∧ keyMatch k e.medium q = false))
    (hcomm : p.openAccess = false → ∀ w, p.workId = some w →
      ∀ q ∈ members (setPoolKey st pid k) w, q.pid ≠ pid →
        inertPool q = true) :
    ∃ N stF tgt c,
      (∀ extra, calculateWork (N + extra) st pid force
        = .ok (stF, some tgt, c)) ∧
      (∀ extra, calculateWork (4 + extra) stF pid force
        = .ok (stF, some tgt, false)) := by
  cases hoa : p.openAccess with
  | true =>
    exact calculateWork_idempotent_oa st pid force p e k hnd hfresh hfp
      hid hpe hk hoa (hhealOA hoa)
  | false =>
    exact calculateWork_idempotent_comm st pid force p e k hnd hfresh hfp
      hid hpe hk hoa (hcomm hoa)

theorem calculateWork_idempotent_witness :
    (∃ N stF tgt c,
      (∀ extra, calculateWork (N + extra) c8State 1 false
        = .ok (stF, some tgt, c)) ∧
      (∀ extra, calculateWork (4 + extra) stF 1 false
        = .ok (stF, some tgt, false))) ∧
    (∃ N stF tgt c,
      (∀ extra, calculateWork (N + extra) c8State 5 false
        = .ok (stF, some tgt, c)) ∧
      (∀ extra, calculateWork (4 + extra) stF 5 false
        = .ok (stF, some tgt, false))) :=
  ⟨calculateWork_idempotent c8State 1 false
    ⟨1, .gutenberg, some 101, some edAbcd, true, false, false, true,
      some 10⟩
    edAbcd ⟨"abcd", "x", .book⟩
    (by decide)
    (by
      intro q hq u hw
      fin_cases hq <;> simp_all <;> (show _ < 30; omega))
    (by decide)
    (by decide)
    (by decide)
    (by decide)
    (fun _ => by decide)
    (fun h => absurd h (by decide)),
  calculateWork_idempotent c8State 5 false
    ⟨5, .overdrive, some 105, some edEfgh, false, false, false, false,
      some 20⟩
    edEfgh ⟨"efgh", "x", .book⟩
    (by decide)
    (by
      intro q hq u hw
      fin_cases hq <;> simp_all <;> (show _ < 30; omega))
    (by decide)
    (by decide)
    (by decide)
    (by decide)
    (fun h => absurd h (by decide))
    (by
      intro _ w hw q hq hne
      have h2 : (20 : Nat) = w := by injection hw
      subst h2
      revert hne
      revert hq
      revert q
      decide)⟩
